import Mathlib

/-!
# Verification of goServerTools timer and leaderboard cores

A shallow embedding, in Lean 4, of the data structures and operations of the
goServerTools repository that the specification talks about:

* the timer priority queue (`src/timer/timeWheel/priority_queue.go`) together
  with the parts of Go's `container/heap` it relies on,
* the hierarchical timing wheel (`src/timer/timeWheel/timewheel.go`),
* the indexed skip list (`src/chart/chart/domain/heap.go` / `skipList.go`),
* the bounded top-K min-heap (`src/chart/chart/domain/heap.go`),
* the rank cache (`src/chart/chart/domain/cache.go`) and the hybrid
  leaderboard coordinator.

Go machine integers (`int`, `int64`) are modelled as `Int` (no arithmetic in
this code comes close to overflow and Go `int` is 64-bit on the target
platforms); Go truncated division/remainder are `Int.tdiv`/`Int.tmod`.
Pointer structures are modelled positionally: a skip list is its header's
span array plus the list of nodes in level-0 forward order, and the level-`i`
forward pointer of a node is (by construction in the Go code) the next node
of height `> i` in that order.  `time.Time` values are modelled as `Int`
millisecond timestamps, with `Before`/`After` as `<`/`>`.
-/

namespace GoServerTools

/-! ## Players (`src/chart/chart/domain/player.go`, `src/unnamed/part_016`) -/

/-- The `Player` record: id, score, rank (only set on copies handed to
callers) and update time. -/
structure GoPlayer where
  id : Int
  score : Int
  rank : Int
  updateTime : Int
deriving DecidableEq, Repr

instance : Inhabited GoPlayer := ⟨⟨0, 0, 0, 0⟩⟩

/-- `NewPlayer(id, score)` — rank starts at the Go zero value. -/
def NewPlayer (id score now : Int) : GoPlayer :=
  { id := id, score := score, rank := 0, updateTime := now }

/-- `comparePlayers` from `src/chart/chart/domain/heap.go`:
score first (higher wins), then update time (earlier wins), then id
(smaller wins).  Returns `1` when `p1` ranks ahead of `p2`, `-1` when it
ranks behind, `0` when the triples coincide. -/
def comparePlayers (p1 p2 : GoPlayer) : Int :=
  if p1.score > p2.score then 1
  else if p1.score < p2.score then -1
  else if p1.updateTime < p2.updateTime then 1
  else if p2.updateTime < p1.updateTime then -1
  else if p1.id < p2.id then 1
  else if p1.id > p2.id then -1
  else 0

/-! ## Timer priority queue (`src/timer/timeWheel/priority_queue.go`)

The queue stores `*item` values; the `Value interface{}` payload (a bucket
pointer) is modelled as an opaque numeric handle.  Go slice length and
capacity are modelled explicitly: `items` is the used part, `cap` the
backing capacity. -/

/-- The `item` struct of the priority queue. -/
structure PQItem where
  value : Nat
  priority : Int
  index : Int
deriving DecidableEq, Repr

instance : Inhabited PQItem := ⟨⟨0, 0, 0⟩⟩

/-- `priorityQueue` plus the capacity of its backing array. -/
structure PriorityQueue where
  items : List PQItem
  cap : Nat
deriving DecidableEq, Repr

/-- `newPriorityQueue(capacity)`. -/
def newPriorityQueue (capacity : Nat) : PriorityQueue :=
  { items := [], cap := capacity }

/-- `priorityQueue.Push` (the raw `heap.Interface` method): grow the backing
array to `max(2*cap, 8)` when full, then append with `Index = n`. -/
def PriorityQueue.Push (pq : PriorityQueue) (x : PQItem) : PriorityQueue :=
  let n := pq.items.length
  let c := pq.cap
  let c' := if n + 1 > c then max (c * 2) 8 else c
  { items := pq.items ++ [{ x with index := (n : Int) }], cap := c' }

/-- `priorityQueue.Pop` (the raw `heap.Interface` method): when the length
(before removal) is below half the capacity and the capacity exceeds 25,
shrink the backing array to `cap/2` (but never below the length); remove
and return the last element with its `Index` set to `-1`.  Go panics on an
empty queue (index out of range); that case is modelled by `none`. -/
def PriorityQueue.Pop (pq : PriorityQueue) : Option PQItem × PriorityQueue :=
  let n := pq.items.length
  let c := pq.cap
  let c' := if n < c / 2 ∧ c > 25 then (if c / 2 < n then n else c / 2) else c
  match pq.items.getLast? with
  | none => (none, pq)
  | some it => (some { it with index := -1 }, { items := pq.items.dropLast, cap := c' })

/-- `priorityQueue.Swap`: exchange two slots and record the new indices in
the items, exactly as the Go method does. -/
def pqSwap (l : List PQItem) (i j : Nat) : List PQItem :=
  let a := l.getD i default
  let b := l.getD j default
  (l.set i { b with index := (i : Int) }).set j { a with index := (j : Int) }

/-- `priorityQueue.Less i j`: compare priorities of the two slots. -/
def pqLess (l : List PQItem) (i j : Nat) : Bool :=
  decide ((l.getD i default).priority < (l.getD j default).priority)

/-- `container/heap`'s `down(h, i0, n)` loop, specialised to the priority
queue.  Returns the final list together with the final index `i`, so the
caller can evaluate Go's `return i > i0`. -/
def pqDown (l : List PQItem) (i n : Nat) : List PQItem × Nat :=
  let j1 := 2 * i + 1
  if h : j1 < n then
    let j := if j1 + 1 < n ∧ pqLess l (j1 + 1) j1 then j1 + 1 else j1
    if pqLess l j i then
      pqDown (pqSwap l i j) j n
    else (l, i)
  else (l, i)
termination_by n - i
decreasing_by
  split
  · next hc => omega
  · omega

/-- `container/heap`'s `up(h, j)` loop, specialised to the priority queue. -/
def pqUp (l : List PQItem) (j : Nat) : List PQItem :=
  let i := (j - 1) / 2
  if i = j ∨ ¬ pqLess l j i then l
  else pqUp (pqSwap l j i) i
termination_by j
decreasing_by omega

/-- `heap.Push(pq, x)`: raw push then sift up from the last slot. -/
def heapPushPQ (pq : PriorityQueue) (x : PQItem) : PriorityQueue :=
  let pq1 := pq.Push x
  { pq1 with items := pqUp pq1.items (pq1.items.length - 1) }

/-- `heap.Remove(pq, 0)`: swap the root with the last slot, sift down on the
shortened prefix (sift up when `down` did not move), then raw `Pop`. -/
def heapRemoveTopPQ (pq : PriorityQueue) : Option PQItem × PriorityQueue :=
  let n := pq.items.length - 1
  let l1 :=
    if n ≠ 0 then
      let l := pqSwap pq.items 0 n
      let dr := pqDown l 0 n
      if dr.2 > 0 then dr.1 else pqUp dr.1 0
    else pq.items
  PriorityQueue.Pop { pq with items := l1 }

/-- `priorityQueue.PeekAndShift(max)`: empty queue yields `(nil, 0)`;
an unexpired root is left in place and the remaining wait returned;
an expired root is removed via `heap.Remove(pq, 0)` and returned with
delta `0`. -/
def PriorityQueue.PeekAndShift (pq : PriorityQueue) (mx : Int) :
    (Option PQItem × Int) × PriorityQueue :=
  if pq.items.length = 0 then ((none, 0), pq)
  else
    let it := pq.items.headD default
    if it.priority > mx then ((none, it.priority - mx), pq)
    else
      let r := heapRemoveTopPQ pq
      ((r.1, 0), r.2)

/-! ## Top-K player heap (`src/chart/chart/domain/heap.go`) -/

/-- `MIN_CAP`. -/
def MIN_CAP : Nat := 32

/-- `TopPlayersHeap` with its backing capacity made explicit. -/
structure TopPlayersHeap where
  items : List GoPlayer
  cap : Nat
deriving DecidableEq, Repr

/-- `TopPlayersHeap.Push` (raw `heap.Interface` method): grow the backing
array to `max(2*cap, MIN_CAP)` when full, then append. -/
def TopPlayersHeap.Push (h : TopPlayersHeap) (x : GoPlayer) : TopPlayersHeap :=
  let n := h.items.length
  let c' := if n + 1 > h.cap then max (h.cap * 2) MIN_CAP else h.cap
  { items := h.items ++ [x], cap := c' }

/-- `TopPlayersHeap.Pop` (raw `heap.Interface` method): an empty heap
returns `nil` immediately (no shrink, no slice write); otherwise shrink the
backing array to `cap/2` (never below the length) when under-utilised, then
remove and return the last element. -/
def TopPlayersHeap.Pop (h : TopPlayersHeap) : Option GoPlayer × TopPlayersHeap :=
  let n := h.items.length
  if n = 0 then (none, h)
  else
    let c := h.cap
    let c' := if n < c / 2 ∧ c > MIN_CAP then (if c / 2 < n then n else c / 2) else c
    (some (h.items.getLast?.getD default),
      { items := h.items.dropLast, cap := c' })

/-! ## Timing wheel (`src/timer/timeWheel/timewheel.go`)

`TimerTaskEntity.Task` (a Go closure) is modelled as an opaque numeric
handle; the shared `DelayQueue` pointer is not part of the wheel state —
the `queue.Offer` calls performed by `add` are instead returned as a list
of offered expirations, and buckets are identified positionally. -/

/-- `TimerTaskEntity`: absolute expiry time plus an opaque task handle. -/
structure TimerTaskEntity where
  delayTime : Int
  taskId : Nat
deriving DecidableEq, Repr

/-- `Bucket`: expiration (`-1` = vacant) plus the task list. -/
structure GoBucket where
  expiration : Int
  tasks : List TimerTaskEntity
deriving DecidableEq, Repr

/-- `newBucket()`. -/
def newBucket : GoBucket := { expiration := -1, tasks := [] }

/-- `Bucket.Add`: append the task to the bucket's list. -/
def GoBucket.Add (b : GoBucket) (t : TimerTaskEntity) : GoBucket :=
  { b with tasks := b.tasks ++ [t] }

/-- `Bucket.SetExpiration`: atomic swap; reports whether the value changed. -/
def GoBucket.SetExpiration (b : GoBucket) (e : Int) : GoBucket × Bool :=
  ({ b with expiration := e }, decide (b.expiration ≠ e))

/-- `TimeWheel`: tick, size, total interval, aligned current time, the bucket
ring and the lazily created overflow wheel. -/
inductive TimeWheelT where
  | mk (tick wheelSize interval currentTime : Int)
       (buckets : List GoBucket) (overflow : Option TimeWheelT)
deriving Repr

def TimeWheelT.tick : TimeWheelT → Int
  | .mk t _ _ _ _ _ => t

def TimeWheelT.wheelSize : TimeWheelT → Int
  | .mk _ s _ _ _ _ => s

def TimeWheelT.interval : TimeWheelT → Int
  | .mk _ _ iv _ _ _ => iv

def TimeWheelT.currentTime : TimeWheelT → Int
  | .mk _ _ _ c _ _ => c

def TimeWheelT.buckets : TimeWheelT → List GoBucket
  | .mk _ _ _ _ bs _ => bs

def TimeWheelT.overflow : TimeWheelT → Option TimeWheelT
  | .mk _ _ _ _ _ ov => ov

/-- `truncate(x, m)`: align `x` down to a multiple of `m` (Go's `%` is the
truncated remainder, `Int.tmod`). -/
def truncate (x m : Int) : Int :=
  if m ≤ 0 then x else x - Int.tmod x m

/-- `NewTimeWheel(tick, wheelSize, startMs, queue)` (the shared queue is not
part of the modelled state). -/
def NewTimeWheel (tick wheelSize startMs : Int) : TimeWheelT :=
  .mk tick wheelSize (tick * wheelSize) (truncate startMs tick)
    (List.replicate wheelSize.toNat newBucket) none

/-- `TimeWheel.add(t)`.  The recursion through overflow wheels is fuelled;
`none` models a recursion that does not finish within `fuel` levels (with a
zero tick the Go code indeed recurses forever).  On success the result is
the returned Bool, the updated wheel, and the expirations offered to the
shared delay queue. -/
def twAdd : Nat → TimeWheelT → TimerTaskEntity → Option (Bool × TimeWheelT × List Int)
  | 0, _, _ => none
  | fuel + 1, .mk tick wheelSize interval currentTime buckets overflow, t =>
    if t.delayTime < currentTime + tick then
      some (false, .mk tick wheelSize interval currentTime buckets overflow, [])
    else if t.delayTime < currentTime + interval then
      let virtualID := Int.tdiv t.delayTime tick
      let idx := (Int.tmod virtualID wheelSize).toNat
      let bucket := buckets.getD idx newBucket
      let br := (bucket.Add t).SetExpiration (virtualID * tick)
      some (true, .mk tick wheelSize interval currentTime (buckets.set idx br.1) overflow,
        if br.2 then [br.1.expiration] else [])
    else
      match twAdd fuel
          (match overflow with
           | some o => o
           | none => NewTimeWheel interval wheelSize currentTime) t with
      | none => none
      | some (b, ov', evs) =>
        some (b, .mk tick wheelSize interval currentTime buckets (some ov'), evs)

/-- Well-formedness of a wheel, as established by `NewTimeWheel` and
preserved by the driver: positive tick and size, consistent interval, a
nonnegative current time, and each overflow wheel one granularity coarser
and no further advanced than its parent. -/
def twWF : TimeWheelT → Bool
  | .mk tick wheelSize interval currentTime _ overflow =>
    decide (1 ≤ tick) && decide (1 ≤ wheelSize) && decide (interval = tick * wheelSize) &&
    decide (0 ≤ currentTime) &&
    (match overflow with
     | none => true
     | some o =>
       twWF o && decide (o.currentTime ≤ currentTime) &&
       decide (o.tick = interval) && decide (o.wheelSize = wheelSize))

/-! ## Timer theorems -/

theorem truncate_le_self {x : Int} (m : Int) (hx : 0 ≤ x) :
    truncate x m ≤ x ∧ 0 ≤ truncate x m := by
  unfold truncate
  split
  · exact ⟨le_refl x, hx⟩
  · rename_i hm
    push_neg at hm
    have h1 : 0 ≤ Int.tmod x m := Int.tmod_nonneg m hx
    have h2 : Int.tmod x m ≤ x := by
      rcases le_or_lt m x with hmx | hxm
      · have := Int.tmod_lt_of_pos x hm
        omega
      · have : Int.tmod x m = x := Int.tmod_eq_of_lt hx hxm
        omega
    constructor <;> omega

/-- Auxiliary for the `add` return-value characterisation: on a well-formed
wheel, an entry whose expiry is not strictly inside the current tick never
gets the "fire now" answer, at any overflow depth. -/
theorem twAdd_not_in_tick_true (fuel : Nat) (tw : TimeWheelT) (t : TimerTaskEntity)
    (hwf : twWF tw = true) (hge : tw.currentTime + tw.tick ≤ t.delayTime)
    (b : Bool) (tw' : TimeWheelT) (evs : List Int)
    (h : twAdd fuel tw t = some (b, tw', evs)) : b = true := by
  induction fuel generalizing tw b tw' evs with
  | zero => simp [twAdd] at h
  | succ fuel ih =>
    obtain ⟨tick, wheelSize, interval, currentTime, buckets, overflow⟩ := tw
    unfold twWF at hwf
    simp only [Bool.and_eq_true, decide_eq_true_eq] at hwf
    obtain ⟨⟨⟨⟨htick, hsize⟩, hint⟩, hcur⟩, hov⟩ := hwf
    simp only [TimeWheelT.currentTime, TimeWheelT.tick] at hge
    simp only [twAdd] at h
    rw [if_neg (by omega)] at h
    by_cases h2 : t.delayTime < currentTime + interval
    · rw [if_pos h2] at h
      simp only [Option.some.injEq, Prod.mk.injEq] at h
      exact h.1.symm
    · rw [if_neg h2] at h
      push_neg at h2
      have hmul : (1 : Int) ≤ interval := by rw [hint]; nlinarith
      cases overflow with
      | some o =>
        simp only [Bool.and_eq_true, decide_eq_true_eq] at hov
        obtain ⟨⟨⟨hwfo, hole⟩, hotick⟩, hosize⟩ := hov
        cases hrec : twAdd fuel o t with
        | none => rw [hrec] at h; simp at h
        | some res =>
          obtain ⟨b2, ov2, evs2⟩ := res
          rw [hrec] at h
          simp only [Option.some.injEq, Prod.mk.injEq] at h
          exact h.1 ▸ ih o hwfo (by rw [hotick]; omega) b2 ov2 evs2 hrec
      | none =>
        have h0 := truncate_le_self interval hcur
        cases hrec : twAdd fuel (NewTimeWheel interval wheelSize currentTime) t with
        | none => rw [hrec] at h; simp at h
        | some res =>
          obtain ⟨b2, ov2, evs2⟩ := res
          rw [hrec] at h
          simp only [Option.some.injEq, Prod.mk.injEq] at h
          refine h.1 ▸ ih _ ?_ ?_ b2 ov2 evs2 hrec
          · unfold NewTimeWheel twWF
            simp only [Bool.and_eq_true, decide_eq_true_eq]
            refine ⟨⟨⟨⟨hmul, hsize⟩, ?_⟩, h0.2⟩, ?_⟩ <;> trivial
          · simp only [NewTimeWheel, TimeWheelT.currentTime, TimeWheelT.tick]
            have := h0.1
            omega

/-- C4 (amended): on a well-formed wheel, whenever `add` completes it
returns `false` (caller must fire immediately) exactly when the entry's
expiry is **strictly** below `currentTime + tick`; at the exact boundary
`DelayTime = currentTime + tick` it returns `true` and files the entry. -/
theorem twAdd_false_iff (fuel : Nat) (tw : TimeWheelT) (t : TimerTaskEntity)
    (hwf : twWF tw = true) (b : Bool) (tw' : TimeWheelT) (evs : List Int)
    (h : twAdd fuel tw t = some (b, tw', evs)) :
    b = false ↔ t.delayTime < tw.currentTime + tw.tick := by
  constructor
  · intro hb
    by_contra hlt
    push_neg at hlt
    have := twAdd_not_in_tick_true fuel tw t hwf hlt b tw' evs h
    rw [hb] at this
    simp at this
  · intro hlt
    cases fuel with
    | zero => simp [twAdd] at h
    | succ fuel =>
      obtain ⟨tick, wheelSize, interval, currentTime, buckets, overflow⟩ := tw
      simp only [TimeWheelT.currentTime, TimeWheelT.tick] at hlt
      simp only [twAdd, if_pos hlt] at h
      simp only [Option.some.injEq, Prod.mk.injEq] at h
      exact h.1.symm

/-! ## Priority-queue theorems -/

/-- Projection of a queue item to its payload and priority; the `Index`
field is heap-internal bookkeeping mutated by `Swap`/`Pop`. -/
def pqProj (it : PQItem) : Nat × Int := (it.value, it.priority)

theorem getD_cons_set_perm {α : Type} [Inhabited α] (t : List α) (m : Nat) (a : α)
    (hm : m < t.length) : List.Perm (t.getD m default :: t.set m a) (a :: t) := by
  induction t generalizing m with
  | nil => simp at hm
  | cons b s ih =>
    cases m with
    | zero => exact List.Perm.swap a b s
    | succ m =>
      simp only [List.getD_cons_succ, List.set_cons_succ]
      have h1 : List.Perm (s.getD m default :: b :: s.set m a)
          (b :: s.getD m default :: s.set m a) := List.Perm.swap b _ _
      have h2 : List.Perm (s.getD m default :: s.set m a) (a :: s) :=
        ih m (by simpa using hm)
      exact h1.trans ((h2.cons b).trans (List.Perm.swap a b s))

theorem set_set_perm {α : Type} [Inhabited α] (l : List α) (i j : Nat)
    (hi : i < l.length) (hj : j < l.length) :
    List.Perm ((l.set i (l.getD j default)).set j (l.getD i default)) l := by
  induction l generalizing i j with
  | nil => simp at hi
  | cons a t ih =>
    cases i with
    | zero =>
      cases j with
      | zero => simp
      | succ m =>
        simp only [List.set_cons_zero, List.set_cons_succ, List.getD_cons_succ,
          List.getD_cons_zero]
        exact getD_cons_set_perm t m a (by simpa using hj)
    | succ m =>
      cases j with
      | zero =>
        simp only [List.set_cons_zero, List.set_cons_succ, List.getD_cons_succ,
          List.getD_cons_zero]
        exact getD_cons_set_perm t m a (by simpa using hi)
      | succ k =>
        simp only [List.set_cons_succ, List.getD_cons_succ]
        exact (ih m k (by simpa using hi) (by simpa using hj)).cons a

theorem pqSwap_length (l : List PQItem) (i j : Nat) :
    (pqSwap l i j).length = l.length := by
  simp [pqSwap]

theorem pqSwap_proj_perm (l : List PQItem) (i j : Nat)
    (hi : i < l.length) (hj : j < l.length) :
    List.Perm ((pqSwap l i j).map pqProj) (l.map pqProj) := by
  unfold pqSwap
  rw [List.map_set, List.map_set]
  have e1 : pqProj { l.getD j default with index := (i : Int) } =
      (l.map pqProj).getD j default := by
    rw [show (default : Nat × Int) = pqProj default from rfl, List.getD_map]
    rfl
  have e2 : pqProj { l.getD i default with index := (j : Int) } =
      (l.map pqProj).getD i default := by
    rw [show (default : Nat × Int) = pqProj default from rfl, List.getD_map]
    rfl
  rw [e1, e2]
  exact set_set_perm _ i j (by simpa using hi) (by simpa using hj)

theorem pqSwap_drop (l : List PQItem) (i j n : Nat) (hi : i < n) (hj : j < n) :
    (pqSwap l i j).drop n = l.drop n := by
  unfold pqSwap
  rw [List.drop_set, if_pos hj, List.drop_set, if_pos hi]

theorem pqDown_facts (l : List PQItem) (i n : Nat) (hn : n ≤ l.length) (hi : i < n) :
    List.Perm ((pqDown l i n).1.map pqProj) (l.map pqProj) ∧
      (pqDown l i n).1.drop n = l.drop n ∧ (pqDown l i n).1.length = l.length := by
  rw [pqDown]
  by_cases h : 2 * i + 1 < n
  · rw [dif_pos h]
    set jv := if 2 * i + 1 + 1 < n ∧ pqLess l (2 * i + 1 + 1) (2 * i + 1) then
        2 * i + 1 + 1 else 2 * i + 1 with hjv
    have hjn : jv < n ∧ i < jv := by
      rw [hjv]
      split
      · next hc => exact ⟨hc.1, by omega⟩
      · exact ⟨h, by omega⟩
    by_cases hless : pqLess l jv i
    · rw [if_pos hless]
      obtain ⟨ihp, ihd, ihl⟩ :=
        pqDown_facts (pqSwap l i jv) jv n (by rw [pqSwap_length]; exact hn) hjn.1
      refine ⟨ihp.trans (pqSwap_proj_perm l i jv (by omega) (by omega)), ?_, ?_⟩
      · rw [ihd, pqSwap_drop l i jv n hi hjn.1]
      · rw [ihl, pqSwap_length]
    · rw [if_neg hless]
      exact ⟨List.Perm.refl _, rfl, rfl⟩
  · rw [dif_neg h]
    exact ⟨List.Perm.refl _, rfl, rfl⟩
termination_by n - i
decreasing_by omega

theorem pqUp_zero (l : List PQItem) : pqUp l 0 = l := by
  unfold pqUp
  simp

theorem heapRemoveTopPQ_spec (pq : PriorityQueue) (root : PQItem) (t : List PQItem)
    (hitems : pq.items = root :: t) :
    ∃ pq', heapRemoveTopPQ pq = (some { root with index := -1 }, pq') ∧
      List.Perm (pq'.items.map pqProj) (t.map pqProj) ∧
      pq'.items.length = t.length := by
  obtain ⟨items, cap⟩ := pq
  simp only at hitems
  subst hitems
  unfold heapRemoveTopPQ
  simp only [List.length_cons, Nat.add_sub_cancel]
  by_cases ht : t.length = 0
  · rw [if_neg (by omega)]
    obtain rfl : t = [] := List.length_eq_zero.mp ht
    unfold PriorityQueue.Pop
    refine ⟨_, rfl, by simp, by simp⟩
  · rw [if_pos ht]
    set l := pqSwap (root :: t) 0 t.length with hl
    have hlen0 : l.length = t.length + 1 := by rw [hl, pqSwap_length]; simp
    obtain ⟨hperm, hdrop, hlen⟩ :=
      pqDown_facts l 0 t.length (by omega) (by omega)
    set dr := pqDown l 0 t.length with hdr
    have hite : (if dr.2 > 0 then dr.1 else pqUp dr.1 0) = dr.1 := by
      split
      · rfl
      · exact pqUp_zero _
    rw [hite]
    -- the slot at position `t.length` is the old root, untouched by `down`
    have htne : t ≠ [] := fun hteq => ht (by rw [hteq]; rfl)
    have hdropl : l.drop t.length = [{ root with index := (t.length : Int) }] := by
      rw [hl]
      unfold pqSwap
      rw [List.drop_set, if_neg (by omega), List.drop_set, if_pos (by omega),
        Nat.sub_self, List.drop_length_cons htne]
      simp
    have hdrop1 : dr.1.drop t.length = [{ root with index := (t.length : Int) }] := by
      rw [hdrop, hdropl]
    have hlen1 : dr.1.length = t.length + 1 := by rw [hlen]; exact hlen0
    -- raw Pop on the sifted list
    have hlast : dr.1.getLast? = some { root with index := (t.length : Int) } := by
      have h0 : (List.drop t.length dr.1)[0]? =
          some { root with index := (t.length : Int) } := by
        rw [hdrop1]
        rfl
      rw [List.getElem?_drop] at h0
      rw [List.getLast?_eq_getElem?, hlen1]
      simpa using h0
    unfold PriorityQueue.Pop
    simp only [hlast]
    refine ⟨_, rfl, ?_, ?_⟩
    · -- dropLast = take t.length; cancel the root from the permutation
      have htake : dr.1.dropLast = dr.1.take t.length := by
        rw [List.dropLast_eq_take, hlen1, Nat.add_sub_cancel]
      have hsplit : (dr.1.take t.length).map pqProj ++ [pqProj root] =
          dr.1.map pqProj := by
        have : (dr.1.take t.length).map pqProj ++ (dr.1.drop t.length).map pqProj =
            dr.1.map pqProj := by
          rw [← List.map_append, List.take_append_drop]
        rw [hdrop1] at this
        simpa using this
      have hperm2 : List.Perm ((dr.1.take t.length).map pqProj ++ [pqProj root])
          (pqProj root :: t.map pqProj) := by
        rw [hsplit]
        refine hperm.trans ?_
        refine (pqSwap_proj_perm (root :: t) 0 t.length (by simp) (by simp)).trans ?_
        simp
      have := ((List.perm_append_singleton _ _).symm.trans hperm2).cons_inv
      simpa [htake] using this
    · rw [List.length_dropLast, hlen1]
      simp

/-- C3: `PeekAndShift(now)` on a non-empty queue pops and returns the root
together with delta `0` when the root has expired (`priority ≤ now`),
removing exactly that root (same payload/priority multiset minus the root);
otherwise it returns no item and delta `root.priority − now`, leaving the
queue completely unchanged. -/
theorem peekAndShift_spec (pq : PriorityQueue) (mx : Int) (root : PQItem)
    (t : List PQItem) (hitems : pq.items = root :: t) :
    (root.priority ≤ mx →
      ∃ pq', pq.PeekAndShift mx = ((some { root with index := -1 }, 0), pq') ∧
        List.Perm (pq'.items.map pqProj) (t.map pqProj) ∧
        pq'.items.length = t.length) ∧
    (mx < root.priority →
      pq.PeekAndShift mx = ((none, root.priority - mx), pq)) := by
  have hhead : pq.items.headD default = root := by rw [hitems]; rfl
  constructor
  · intro hle
    obtain ⟨pq', hrm, hperm, hlen⟩ := heapRemoveTopPQ_spec pq root t hitems
    refine ⟨pq', ?_, hperm, hlen⟩
    simp only [PriorityQueue.PeekAndShift]
    rw [if_neg (by rw [hitems]; simp), hhead, if_neg (by omega), hrm]
  · intro hgt
    simp only [PriorityQueue.PeekAndShift]
    rw [if_neg (by rw [hitems]; simp), hhead, if_pos (by omega)]

theorem peekAndShift_spec_witness :
    ∃ pq', PriorityQueue.PeekAndShift { items := [⟨1, 5, 0⟩, ⟨2, 9, 1⟩], cap := 8 } 7 =
        ((some { (⟨1, 5, 0⟩ : PQItem) with index := -1 }, 0), pq') ∧
      List.Perm (pq'.items.map pqProj) (([⟨2, 9, 1⟩] : List PQItem).map pqProj) ∧
      pq'.items.length = ([⟨2, 9, 1⟩] : List PQItem).length :=
  (peekAndShift_spec _ 7 ⟨1, 5, 0⟩ [⟨2, 9, 1⟩] rfl).1 (by decide)

/-- C8 counterexample: a queue holding 30 items in a backing array of
capacity 100 sits at 30% utilisation — at least 25% and below 50% of a
large capacity — yet `Pop` halves the capacity to 50, refuting the claim
that `Pop` leaves the capacity unchanged until utilisation drops below
25%. -/
theorem pqPop_shrinks_at_30_percent :
    (100 ≤ 4 * (List.replicate 30 (default : PQItem)).length ∧
      2 * (List.replicate 30 (default : PQItem)).length < 100 ∧ 25 < 100) ∧
    (PriorityQueue.Pop { items := List.replicate 30 default, cap := 100 }).2.cap = 50 ∧
    ¬ (PriorityQueue.Pop
        { items := List.replicate 30 default, cap := 100 }).2.cap = 100 := by
  decide

/-- C8 (amended): `Push` grows the backing capacity to `max(2·cap, 8)`
exactly when it finds the queue full, and `Pop` halves the capacity exactly
when the length is below **half** the capacity and the capacity exceeds 25;
in particular a `Pop` at or above 50% utilisation leaves the capacity
unchanged. -/
theorem pq_capacity_policy (pq : PriorityQueue) (x : PQItem) (hne : pq.items ≠ []) :
    ((pq.Push x).cap =
      if pq.cap < pq.items.length + 1 then max (pq.cap * 2) 8 else pq.cap) ∧
    (pq.items.length + 1 ≤ pq.cap → (pq.Push x).cap = pq.cap) ∧
    ((pq.Pop).2.cap =
      if pq.items.length < pq.cap / 2 ∧ 25 < pq.cap then pq.cap / 2 else pq.cap) ∧
    (pq.cap ≤ 2 * pq.items.length → (pq.Pop).2.cap = pq.cap) := by
  obtain ⟨it, hlast⟩ : ∃ it, pq.items.getLast? = some it := by
    cases h : pq.items.getLast? with
    | none => exact absurd (List.getLast?_eq_none_iff.mp h) hne
    | some it => exact ⟨it, rfl⟩
  refine ⟨rfl, ?_, ?_, ?_⟩
  · intro hle
    simp only [PriorityQueue.Push]
    rw [if_neg (by omega)]
  · simp only [PriorityQueue.Pop, hlast]
    by_cases hc : pq.items.length < pq.cap / 2 ∧ 25 < pq.cap
    · rw [if_pos hc, if_pos hc, if_neg (by omega)]
    · rw [if_neg hc, if_neg hc]
  · intro hge
    simp only [PriorityQueue.Pop, hlast]
    rw [if_neg (by omega)]

theorem pq_capacity_policy_witness :
    (PriorityQueue.Pop { items := [default], cap := 100 }).2.cap =
      if (1 : Nat) < 100 / 2 ∧ 25 < 100 then 100 / 2 else 100 :=
  (pq_capacity_policy { items := [default], cap := 100 } default (by decide)).2.2.1

/-- C10: `TopPlayersHeap.Pop` on an empty heap returns `nil` instead of
panicking, and leaves the heap empty with its capacity unchanged. -/
theorem topPlayersHeap_pop_empty (c : Nat) :
    TopPlayersHeap.Pop { items := [], cap := c } =
      (none, { items := [], cap := c }) := rfl

/-- C4 counterexample: `NewTimeWheel(100, 4, 0)` has `currentTime = 0` and
`tick = 100`; an entry at the exact boundary `DelayTime = currentTime +
tick = 100` gets `add = true` (the entry is filed into a bucket), not the
claimed `false`/fire-now answer. -/
theorem twAdd_boundary_counterexample :
    (NewTimeWheel 100 4 0).currentTime + (NewTimeWheel 100 4 0).tick = 100 ∧
    (twAdd 2 (NewTimeWheel 100 4 0) { delayTime := 100, taskId := 0 }).map
      (fun r => r.1) = some true := by
  constructor
  · rfl
  · rfl

theorem twAdd_false_iff_witness :
    (false = false) ↔
      ((50 : Int) < (NewTimeWheel 100 4 0).currentTime + (NewTimeWheel 100 4 0).tick) :=
  twAdd_false_iff 1 (NewTimeWheel 100 4 0) { delayTime := 50, taskId := 0 }
    (by decide) false (NewTimeWheel 100 4 0) [] (by rfl)

/-! ## Indexed skip list (`src/chart/chart/domain/heap.go`, `skipList.go`)

The pointer structure is modelled positionally.  Positions are `0` for the
header sentinel and `k ∈ [1, nodes.length]` for the node `nodes[k-1]`, in
level-0 forward order.  The Go code wires the level-`i` forward pointer of
a node to the next node of height `> i` in that order (this is exactly what
`insertNode`'s `update[i].Level[i].Forward` rewiring and `deleteNode`'s
unlinking maintain), so `forwardIdx` recomputes forward pointers from the
heights; `Backward` pointers and `tail` are likewise positional and carry
no extra state.  Span fields are explicit data, updated exactly as the Go
code updates them. -/

/-- A skip list node: its player, its height (`len(Level)`), and the stored
`Span` of each of its levels. -/
structure SLNode where
  player : GoPlayer
  height : Nat
  spans : List Int
deriving DecidableEq, Repr

instance : Inhabited SLNode := ⟨⟨default, 1, [0]⟩⟩

/-- A skip list: the header sentinel's span array (its `Level` has
`maxSkipListLevel` entries and a nil `Player`), the nodes in level-0 order,
the current `level` and the stored `length`. -/
structure GoSkipList where
  headerSpans : List Int
  nodes : List SLNode
  level : Nat
  length : Int
deriving DecidableEq, Repr

def maxSkipListLevel : Nat := 32

/-- `NewSkipList()`: level 1, header with `maxSkipListLevel` zeroed levels,
no nodes. -/
def NewSkipList : GoSkipList :=
  { headerSpans := List.replicate maxSkipListLevel 0
    nodes := []
    level := 1
    length := 0 }

/-- Offset (within the given suffix) of the first node of height `> i`. -/
def chainFirst (i : Nat) : List SLNode → Option Nat
  | [] => none
  | nd :: rest => if i < nd.height then some 0 else (chainFirst i rest).map (· + 1)

/-- The position reached by the level-`i` forward pointer of the node at
position `p` (`none` mirrors a nil `Forward`). -/
def forwardIdx (ns : List SLNode) (i p : Nat) : Option Nat :=
  (chainFirst i (ns.drop p)).map (fun j => p + j + 1)

/-- `x.Level[i].Span` where `x` is the node at position `p` (the header
when `p = 0`). -/
def spanAt (hs : List Int) (ns : List SLNode) (p i : Nat) : Int :=
  if p = 0 then hs.getD i 0 else ((ns.getD (p - 1) default).spans).getD i 0

/-- `x.Level[i].Span = v` where `x` is the node at position `p`. -/
def setSpan (hs : List Int) (ns : List SLNode) (p i : Nat) (v : Int) :
    List Int × List SLNode :=
  if p = 0 then (hs.set i v, ns)
  else
    (hs, ns.set (p - 1)
      (let nd := ns.getD (p - 1) default
       { nd with spans := nd.spans.set i v }))

theorem chainFirst_lt_length {i : Nat} :
    ∀ {l : List SLNode} {j : Nat}, chainFirst i l = some j → j < l.length := by
  intro l
  induction l with
  | nil => intro j h; simp [chainFirst] at h
  | cons nd rest ih =>
    intro j h
    simp only [chainFirst] at h
    split at h
    · cases h
      simp
    · cases hc : chainFirst i rest with
      | none => rw [hc] at h; simp at h
      | some j' =>
        rw [hc] at h
        simp only [Option.map_some'] at h
        cases h
        have := ih hc
        simp
        omega

theorem forwardIdx_bounds {ns : List SLNode} {i p q : Nat}
    (h : forwardIdx ns i p = some q) : p < q ∧ q ≤ ns.length := by
  unfold forwardIdx at h
  cases hc : chainFirst i (ns.drop p) with
  | none => rw [hc] at h; simp at h
  | some j =>
    rw [hc] at h
    simp only [Option.map_some'] at h
    cases h
    have hj := chainFirst_lt_length hc
    rw [List.length_drop] at hj
    omega

/-- One level of the generic top-down search loop
`for x.Level[i].Forward != nil && cond(forward.Player) { rank += x.Level[i].Span; x = forward }`,
returning the final position and accumulated rank.  (`deleteNode`'s loop
does not accumulate a rank; it uses only the position component.) -/
def walk (hs : List Int) (ns : List SLNode) (cond : GoPlayer → Bool) (i p : Nat)
    (r : Int) : Nat × Int :=
  match h : forwardIdx ns i p with
  | none => (p, r)
  | some q =>
    if cond ((ns.getD (q - 1) default).player) then
      walk hs ns cond i q (r + spanAt hs ns p i)
    else (p, r)
termination_by ns.length - p
decreasing_by
  have := forwardIdx_bounds h
  omega

/-- The top-down traversal of `insertNode`/`Insert`: process levels
`i-1, …, 0` starting from position `p` with accumulated rank `r`.  Index
`j` of the returned list is `(update[j] position, rank[j])`. -/
def insertPathAux (hs : List Int) (ns : List SLNode) (pl : GoPlayer) :
    Nat → Nat → Int → List (Nat × Int)
  | 0, _, _ => []
  | i + 1, p, r =>
    let pr := walk hs ns (fun q => decide (0 < comparePlayers q pl)) i p r
    insertPathAux hs ns pl i pr.1 pr.2 ++ [pr]

/-- `update[i]` and `rank[i]` of `insertNode`'s traversal (entries at
levels `≥ sl.level` are the header with rank 0; they are overwritten by the
level-raise branch before use). -/
def insUpd (sl : GoSkipList) (pl : GoPlayer) (i : Nat) : Nat × Int :=
  if i < sl.level then
    (insertPathAux sl.headerSpans sl.nodes pl sl.level 0 0).getD i (0, 0)
  else (0, 0)

/-- The level-raise branch of `insertNode`: for each freshly raised level
the header's span is preset to the list length. -/
def insHs1 (sl : GoSkipList) (lvl : Nat) : List Int :=
  (List.range' sl.level (lvl - sl.level)).foldl
    (fun hs i => hs.set i sl.length) sl.headerSpans

/-- The spans of the new node:
`x.Level[i].Span = update[i].Level[i].Span - (rank[0] - rank[i])`. -/
def insNewSpans (sl : GoSkipList) (pl : GoPlayer) (lvl : Nat) : List Int :=
  (List.range lvl).map
    (fun i => spanAt (insHs1 sl lvl) sl.nodes (insUpd sl pl i).1 i -
      ((insUpd sl pl 0).2 - (insUpd sl pl i).2))

/-- The update-pointer span writes of `insertNode`:
`update[i].Level[i].Span = (rank[0] - rank[i]) + 1` for the levels the new
node occupies. -/
def insHn2 (sl : GoSkipList) (pl : GoPlayer) (lvl : Nat) : List Int × List SLNode :=
  (List.range lvl).foldl
    (fun acc i => setSpan acc.1 acc.2 (insUpd sl pl i).1 i
      (((insUpd sl pl 0).2 - (insUpd sl pl i).2) + 1))
    (insHs1 sl lvl, sl.nodes)

/-- The higher-level span increments of `insertNode`:
`update[i].Level[i].Span++` for `i ∈ [lvl, sl.level)`. -/
def insHn3 (sl : GoSkipList) (pl : GoPlayer) (lvl : Nat) : List Int × List SLNode :=
  (List.range' lvl (sl.level - lvl)).foldl
    (fun acc i => setSpan acc.1 acc.2 (insUpd sl pl i).1 i
      (spanAt acc.1 acc.2 (insUpd sl pl i).1 i + 1))
    (insHn2 sl pl lvl)

/-- `insertNode(player)` (= the body of `Insert`, which additionally takes
the lock): `lvl` is the value returned by `randomLevel()`.  The search path
is computed, the header spans of freshly raised levels are preset to the
list length, the new node's spans and the update nodes' spans are written
exactly as in the Go loop, the spans of the untouched higher levels grow by
one, and the node is linked after `update[0]` (which also settles its
backward pointer and possibly `tail`, both positional here). -/
def insertNode (sl : GoSkipList) (pl : GoPlayer) (lvl : Nat) : GoSkipList :=
  { headerSpans := (insHn3 sl pl lvl).1
    nodes := (insHn3 sl pl lvl).2.insertIdx (insUpd sl pl 0).1
      { player := pl, height := lvl, spans := insNewSpans sl pl lvl }
    level := max sl.level lvl
    length := sl.length + 1 }

/-- The top-down traversal of `deleteNode`: at each level advance while the
forward node exists and its id differs from the target.  Index `j` of the
result is the level-`j` stop position. -/
def deletePathAux (hs : List Int) (ns : List SLNode) (pid : Int) :
    Nat → Nat → List Nat
  | 0, _ => []
  | i + 1, p =>
    let p' := (walk hs ns (fun q => decide (q.id ≠ pid)) i p 0).1
    deletePathAux hs ns pid i p' ++ [p']

/-- `for sl.level > 1 && sl.header.Level[sl.level-1].Forward == nil
{ sl.level-- }`. -/
def shrinkLevel (ns : List SLNode) : Nat → Nat
  | 0 => 0
  | 1 => 1
  | l + 2 => if forwardIdx ns (l + 1) 0 = none then shrinkLevel ns (l + 1) else l + 2

/-- `update[i]` of `deleteNode`'s traversal. -/
def delUpd (sl : GoSkipList) (pid : Int) (i : Nat) : Nat :=
  (deletePathAux sl.headerSpans sl.nodes pid sl.level 0).getD i 0

/-- The span/pointer updates of `deleteNode` once the victim at position
`qx` has been found: a pointer into the victim absorbs the victim's span
minus one, any other update pointer's span shrinks by one. -/
def delHn (sl : GoSkipList) (pid : Int) (qx : Nat) : List Int × List SLNode :=
  (List.range sl.level).foldl
    (fun acc i =>
      if forwardIdx sl.nodes i (delUpd sl pid i) = some qx then
        setSpan acc.1 acc.2 (delUpd sl pid i) i
          (spanAt acc.1 acc.2 (delUpd sl pid i) i +
            ((sl.nodes.getD (qx - 1) default).spans.getD i 0 - 1))
      else
        setSpan acc.1 acc.2 (delUpd sl pid i) i
          (spanAt acc.1 acc.2 (delUpd sl pid i) i - 1))
    (sl.headerSpans, sl.nodes)

/-- `deleteNode(playerID)`: search by id, and when `update[0].Forward`
carries the id, unlink it, merging the span of a pointer into the deleted
node with the deleted node's own span and decrementing the spans of the
other update pointers; then drop empty top levels and the length. -/
def deleteNode (sl : GoSkipList) (pid : Int) : GoSkipList × Bool :=
  match forwardIdx sl.nodes 0 (delUpd sl pid 0) with
  | none => (sl, false)
  | some qx =>
    if (sl.nodes.getD (qx - 1) default).player.id = pid then
      let ns2 := (delHn sl pid qx).2.eraseIdx (qx - 1)
      ({ headerSpans := (delHn sl pid qx).1, nodes := ns2,
         level := shrinkLevel ns2 sl.level, length := sl.length - 1 }, true)
    else (sl, false)

/-- A Go runtime panic surfaced by the model. -/
inductive GoPanic where
  | nilPlayerDeref
  | sendOnClosedChannel
deriving DecidableEq, Repr

/-- The search loop of `SkipList.Delete` (`heap.go` lines 122-130): its
guard is
`x.Level[i].Forward != nil && (x.Level[i].Forward.Player.Score > sl.header.Player.Score || …)`,
and the header's `Player` is nil, so evaluating the guard dereferences a
nil pointer as soon as the current node's level-`i` forward pointer is
non-nil; a level with a nil forward pointer is passed through unscathed. -/
def deleteFindLoop (ns : List SLNode) : Nat → Nat → Except GoPanic Nat
  | 0, p => .ok p
  | i + 1, p =>
    match forwardIdx ns i p with
    | none => deleteFindLoop ns i p
    | some _ => .error .nilPlayerDeref

/-- `SkipList.Delete(playerID)` (`heap.go` lines 111-138): run the search
loop (which compares scores against the nil header player), then check
`update[0].Forward` for the id and delegate to `deleteNode`. -/
def GoSkipList.Delete (sl : GoSkipList) (pid : Int) :
    Except GoPanic (GoSkipList × Bool) :=
  match deleteFindLoop sl.nodes sl.level 0 with
  | .error e => .error e
  | .ok p =>
    match forwardIdx sl.nodes 0 p with
    | some qx =>
      if (sl.nodes.getD (qx - 1) default).player.id = pid then
        .ok ((deleteNode sl pid).1, true)
      else .ok (sl, false)
    | none => .ok (sl, false)

/-- One level of `GetRange`'s descent (`heap.go` lines 163-168): advance
while `traversed + span < start`. -/
def rangeWalk (hs : List Int) (ns : List SLNode) (start : Int) (i p : Nat)
    (tr : Int) : Nat × Int :=
  match h : forwardIdx ns i p with
  | none => (p, tr)
  | some q =>
    if tr + spanAt hs ns p i < start then
      rangeWalk hs ns start i q (tr + spanAt hs ns p i)
    else (p, tr)
termination_by ns.length - p
decreasing_by
  have := forwardIdx_bounds h
  omega

def rangeDescend (hs : List Int) (ns : List SLNode) (start : Int) :
    Nat → Nat → Int → Nat × Int
  | 0, p, tr => (p, tr)
  | i + 1, p, tr =>
    let pt := rangeWalk hs ns start i p tr
    rangeDescend hs ns start i pt.1 pt.2

/-- The collection loop shared by both `GetRange` variants: while the
current node exists and `rank ≤ end`, append its player and move forward at
level 0. -/
def rangeCollect (ns : List SLNode) (e : Int) : Option Nat → Int → List GoPlayer
  | none, _ => []
  | some p, rank =>
    if rank ≤ e then
      (ns.getD (p - 1) default).player :: rangeCollect ns e (forwardIdx ns 0 p) (rank + 1)
    else []
termination_by _ rank => (e + 1 - rank).toNat
decreasing_by omega

/-- `GetRange(start, end)` of `heap.go` (the variant the hybrid leaderboard
package uses): clamp the bounds, descend staying strictly before `start`,
then collect until `end`. -/
def GetRange (sl : GoSkipList) (start e : Int) : List GoPlayer :=
  let start := if start < 1 then 1 else start
  let e := if e > sl.length then sl.length else e
  if start > e then []
  else
    let pt := rangeDescend sl.headerSpans sl.nodes start sl.level 0 0
    rangeCollect sl.nodes e (forwardIdx sl.nodes 0 pt.1) (pt.2 + 1)

/-- One level of the `skipList.go` `GetRange` descent (lines 103-108):
advance while `rank + span <= start` (note the non-strict bound). -/
def rangeWalkLe (hs : List Int) (ns : List SLNode) (start : Int) (i p : Nat)
    (tr : Int) : Nat × Int :=
  match h : forwardIdx ns i p with
  | none => (p, tr)
  | some q =>
    if tr + spanAt hs ns p i ≤ start then
      rangeWalkLe hs ns start i q (tr + spanAt hs ns p i)
    else (p, tr)
termination_by ns.length - p
decreasing_by
  have := forwardIdx_bounds h
  omega

def rangeDescendLe (hs : List Int) (ns : List SLNode) (start : Int) :
    Nat → Nat → Int → Nat × Int
  | 0, p, tr => (p, tr)
  | i + 1, p, tr =>
    let pt := rangeWalkLe hs ns start i p tr
    rangeDescendLe hs ns start i pt.1 pt.2

/-- `GetRange(start, end)` of `skipList.go` (lines 84-121): same clamping,
but the descent uses `rank + span <= start` and then `rank++` before the
collection loop. -/
def GetRangeV (sl : GoSkipList) (start e : Int) : List GoPlayer :=
  let start := if start < 1 then 1 else start
  let e := if e > sl.length then sl.length else e
  if start > e then []
  else
    let pt := rangeDescendLe sl.headerSpans sl.nodes start sl.level 0 0
    rangeCollect sl.nodes e (forwardIdx sl.nodes 0 pt.1) (pt.2 + 1)

/-- The height of the node at position `m ≥ 1`. -/
def hAt (ns : List SLNode) (m : Nat) : Nat := (ns.getD (m - 1) default).height

/-- The player of the node at position `m ≥ 1`. -/
def plAt (ns : List SLNode) (m : Nat) : GoPlayer := (ns.getD (m - 1) default).player

/-- The span of a realised forward pointer equals the positional distance
it crosses (spans stored on nil forward pointers carry no meaning). -/
def edgeOkB (hs : List Int) (ns : List SLNode) (p i : Nat) : Bool :=
  match forwardIdx ns i p with
  | none => true
  | some q => spanAt hs ns p i == (q : Int) - (p : Int)

/-- The span invariant: at every position that is the header or lies on the
level-`i` chain (the only places the algorithms ever read a level-`i` span
through a forward pointer), the stored span matches the positional
distance. -/
def spanInv (hs : List Int) (ns : List SLNode) : Prop :=
  ∀ p ≤ ns.length, ∀ i < maxSkipListLevel, (p = 0 ∨ i < hAt ns p) →
    edgeOkB hs ns p i = true

/-- Structural well-formedness of a skip list, as established by
`NewSkipList` and preserved by `insertNode`/`deleteNode`. -/
def WFsl (sl : GoSkipList) : Prop :=
  sl.headerSpans.length = maxSkipListLevel ∧
  1 ≤ sl.level ∧ sl.level ≤ maxSkipListLevel ∧
  sl.length = (sl.nodes.length : Int) ∧
  (∀ nd ∈ sl.nodes, 1 ≤ nd.height ∧ nd.height ≤ sl.level ∧
    nd.spans.length = nd.height) ∧
  spanInv sl.headerSpans sl.nodes

/-- Skip lists reachable from the empty list by `insertNode` (with any
height `randomLevel()` can return) and `deleteNode`. -/
inductive SLReachable : GoSkipList → Prop where
  | empty : SLReachable NewSkipList
  | insert (sl : GoSkipList) (pl : GoPlayer) (lvl : Nat) : SLReachable sl →
      1 ≤ lvl → lvl ≤ maxSkipListLevel → SLReachable (insertNode sl pl lvl)
  | delete (sl : GoSkipList) (pid : Int) : SLReachable sl →
      SLReachable (deleteNode sl pid).1

instance (hs : List Int) (ns : List SLNode) : Decidable (spanInv hs ns) := by
  unfold spanInv
  infer_instance

instance (sl : GoSkipList) : Decidable (WFsl sl) := by
  unfold WFsl
  infer_instance

/-! ### Structural characterisation of forward pointers -/

theorem chainFirst_eq_some_iff {i : Nat} {l : List SLNode} {j : Nat} :
    chainFirst i l = some j ↔
      j < l.length ∧ i < (l.getD j default).height ∧
        ∀ k < j, ¬ i < (l.getD k default).height := by
  induction l generalizing j with
  | nil => simp [chainFirst]
  | cons nd rest ih =>
    simp only [chainFirst]
    by_cases hh : i < nd.height
    · rw [if_pos hh]
      constructor
      · intro h
        cases h
        exact ⟨by simp, by simpa using hh, by omega⟩
      · rintro ⟨-, hj2, hj3⟩
        cases j with
        | zero => rfl
        | succ j => exact absurd (by simpa using hh) (by simpa using hj3 0 (by omega))
    · rw [if_neg hh]
      constructor
      · intro h
        cases hc : chainFirst i rest with
        | none => rw [hc] at h; simp at h
        | some j' =>
          rw [hc] at h
          simp only [Option.map_some'] at h
          cases h
          obtain ⟨h1, h2, h3⟩ := ih.mp hc
          refine ⟨by simpa using h1, by simpa using h2, ?_⟩
          intro k hk
          cases k with
          | zero => simpa using hh
          | succ k => simpa using h3 k (by omega)
      · rintro ⟨hj1, hj2, hj3⟩
        cases j with
        | zero => exact absurd (by simpa using hj2) hh
        | succ j =>
          have : chainFirst i rest = some j :=
            ih.mpr ⟨by simpa using hj1, by simpa using hj2,
              fun k hk => by simpa using hj3 (k + 1) (by omega)⟩
          rw [this]
          rfl

theorem chainFirst_eq_none_iff {i : Nat} {l : List SLNode} :
    chainFirst i l = none ↔ ∀ k < l.length, ¬ i < (l.getD k default).height := by
  induction l with
  | nil => simp [chainFirst]
  | cons nd rest ih =>
    simp only [chainFirst]
    by_cases hh : i < nd.height
    · rw [if_pos hh]
      simp only [List.length_cons]
      constructor
      · intro h; cases h
      · intro h
        exact absurd (by simpa using hh) (h 0 (by omega))
    · rw [if_neg hh]
      constructor
      · intro h k hk
        cases k with
        | zero => simpa using hh
        | succ k =>
          have := ih.mp (by cases hc : chainFirst i rest with
            | none => rfl
            | some j => rw [hc] at h; simp at h)
          simpa using this k (by simpa using hk)
      · intro h
        have : chainFirst i rest = none :=
          ih.mpr (fun k hk => by simpa using h (k + 1) (by simpa using hk))
        rw [this]
        rfl

theorem getD_drop (ns : List SLNode) (p j : Nat) :
    (ns.drop p).getD j default = ns.getD (p + j) default := by
  rw [List.getD_eq_getElem?_getD, List.getD_eq_getElem?_getD, List.getElem?_drop]

theorem forwardIdx_eq_some_iff {ns : List SLNode} {i p q : Nat} :
    forwardIdx ns i p = some q ↔
      p < q ∧ q ≤ ns.length ∧ i < hAt ns q ∧
        ∀ m, p < m → m < q → ¬ i < hAt ns m := by
  unfold forwardIdx
  constructor
  · intro h
    cases hc : chainFirst i (ns.drop p) with
    | none => rw [hc] at h; simp at h
    | some j =>
      rw [hc] at h
      simp only [Option.map_some'] at h
      cases h
      obtain ⟨h1, h2, h3⟩ := chainFirst_eq_some_iff.mp hc
      rw [List.length_drop] at h1
      refine ⟨by omega, by omega, ?_, ?_⟩
      · rw [getD_drop] at h2
        unfold hAt
        have : p + j + 1 - 1 = p + j := by omega
        rw [this]
        exact h2
      · intro m hm1 hm2
        have := h3 (m - 1 - p) (by omega)
        rw [getD_drop] at this
        unfold hAt
        have he : p + (m - 1 - p) = m - 1 := by omega
        rw [he] at this
        exact this
  · rintro ⟨h1, h2, h3, h4⟩
    have : chainFirst i (ns.drop p) = some (q - p - 1) := by
      refine chainFirst_eq_some_iff.mpr ⟨by rw [List.length_drop]; omega, ?_, ?_⟩
      · rw [getD_drop]
        have : p + (q - p - 1) = q - 1 := by omega
        rw [this]
        exact h3
      · intro k hk
        have := h4 (p + k + 1) (by omega) (by omega)
        rw [getD_drop]
        unfold hAt at this
        have he : p + k + 1 - 1 = p + k := by omega
        rw [he] at this
        exact this
    rw [this]
    simp only [Option.map_some']
    congr 1
    omega

theorem forwardIdx_eq_none_iff {ns : List SLNode} {i p : Nat} :
    forwardIdx ns i p = none ↔ ∀ m, p < m → m ≤ ns.length → ¬ i < hAt ns m := by
  unfold forwardIdx
  rw [Option.map_eq_none', chainFirst_eq_none_iff]
  constructor
  · intro h m hm1 hm2
    have := h (m - 1 - p) (by rw [List.length_drop]; omega)
    rw [getD_drop] at this
    unfold hAt
    have he : p + (m - 1 - p) = m - 1 := by omega
    rw [he] at this
    exact this
  · intro h k hk
    rw [List.length_drop] at hk
    have := h (p + k + 1) (by omega) (by omega)
    unfold hAt at this
    rw [getD_drop]
    have he : p + k + 1 - 1 = p + k := by omega
    rw [he] at this
    exact this

/-! ### Walk lemmas -/

theorem getD_mem_of_lt {ns : List SLNode} {k : Nat} (h : k < ns.length) :
    ns.getD k default ∈ ns := by
  rw [List.getD_eq_getElem?_getD, List.getElem?_eq_getElem h]
  exact List.getElem_mem h

theorem hAt_le_max {ns : List SLNode} {m : Nat}
    (hh : ∀ nd ∈ ns, nd.height ≤ maxSkipListLevel) (h1 : 1 ≤ m) (h2 : m ≤ ns.length) :
    hAt ns m ≤ maxSkipListLevel :=
  hh _ (getD_mem_of_lt (by omega))

theorem spanInv_edge {hs : List Int} {ns : List SLNode} {p i q : Nat}
    (hinv : spanInv hs ns) (hp : p ≤ ns.length) (hi : i < maxSkipListLevel)
    (hsrc : p = 0 ∨ i < hAt ns p)
    (hq : forwardIdx ns i p = some q) : spanAt hs ns p i = (q : Int) - p := by
  have h := hinv p hp i hi hsrc
  unfold edgeOkB at h
  rw [hq] at h
  exact beq_iff_eq.mp h

theorem walk_ge (hs : List Int) (ns : List SLNode) (cond : GoPlayer → Bool)
    (i p : Nat) (r : Int) : p ≤ (walk hs ns cond i p r).1 := by
  rw [walk]
  split
  · exact le_refl p
  · next q hq =>
    split
    · have h1 := forwardIdx_bounds hq
      have h2 := walk_ge hs ns cond i q (r + spanAt hs ns p i)
      omega
    · exact le_refl p
termination_by ns.length - p
decreasing_by omega

theorem walk_le_length (hs : List Int) (ns : List SLNode) (cond : GoPlayer → Bool)
    (i p : Nat) (r : Int) (hp : p ≤ ns.length) : (walk hs ns cond i p r).1 ≤ ns.length := by
  rw [walk]
  split
  · exact hp
  · next q hq =>
    split
    · have hb := forwardIdx_bounds hq
      exact walk_le_length hs ns cond i q _ hb.2
    · exact hp
termination_by ns.length - p
decreasing_by omega

theorem walk_stop (hs : List Int) (ns : List SLNode) (cond : GoPlayer → Bool)
    (i p : Nat) (r : Int) :
    forwardIdx ns i (walk hs ns cond i p r).1 = none ∨
      ∃ q, forwardIdx ns i (walk hs ns cond i p r).1 = some q ∧
        cond (plAt ns q) = false := by
  rw [walk]
  split
  · next hq => exact Or.inl hq
  · next q hq =>
    split
    · have hb := forwardIdx_bounds hq
      exact walk_stop hs ns cond i q _
    · next hcond =>
      refine Or.inr ⟨q, hq, ?_⟩
      unfold plAt
      simp only [Bool.not_eq_true] at hcond
      exact hcond
termination_by ns.length - p
decreasing_by omega

theorem walk_visits (hs : List Int) (ns : List SLNode) (cond : GoPlayer → Bool)
    (i p : Nat) (r : Int) :
    ∀ m, p < m → m ≤ (walk hs ns cond i p r).1 → i < hAt ns m →
      cond (plAt ns m) = true := by
  rw [walk]
  split
  · intro m hm1 hm2 _
    omega
  · next q hq =>
    split
    · next hcond =>
      intro m hm1 hm2 hm3
      obtain ⟨-, -, -, hmin⟩ := forwardIdx_eq_some_iff.mp hq
      rcases Nat.lt_or_ge m q with hlt | hge
      · exact absurd hm3 (hmin m hm1 hlt)
      · rcases Nat.eq_or_lt_of_le hge with rfl | hgt
        · exact hcond
        · have hb := forwardIdx_bounds hq
          exact walk_visits hs ns cond i q _ m hgt hm2 hm3
    · intro m hm1 hm2 _
      omega
termination_by ns.length - p
decreasing_by omega

theorem walk_land (hs : List Int) (ns : List SLNode) (cond : GoPlayer → Bool)
    (i p : Nat) (r : Int) :
    (walk hs ns cond i p r).1 = p ∨
      (cond (plAt ns (walk hs ns cond i p r).1) = true ∧
        i < hAt ns (walk hs ns cond i p r).1) := by
  rw [walk]
  split
  · exact Or.inl rfl
  · next q hq =>
    split
    · next hcond =>
      have hb := forwardIdx_bounds hq
      rcases walk_land hs ns cond i q (r + spanAt hs ns p i) with heq | hland
      · rw [heq]
        obtain ⟨-, -, hh, -⟩ := forwardIdx_eq_some_iff.mp hq
        exact Or.inr ⟨hcond, hh⟩
      · exact Or.inr hland
    · exact Or.inl rfl
termination_by ns.length - p
decreasing_by omega

theorem walk_rank (hs : List Int) (ns : List SLNode) (cond : GoPlayer → Bool)
    (i p : Nat) (r : Int) (hinv : spanInv hs ns)
    (hh : ∀ nd ∈ ns, nd.height ≤ maxSkipListLevel) (hp : p ≤ ns.length)
    (hsrc : p = 0 ∨ i < hAt ns p) :
    (walk hs ns cond i p r).2 = r + (((walk hs ns cond i p r).1 : Int) - p) := by
  rw [walk]
  split
  · simp
  · next q hq =>
    split
    · obtain ⟨hpq, hqn, hhq, -⟩ := forwardIdx_eq_some_iff.mp hq
      have hi32 : i < maxSkipListLevel := by
        have := hAt_le_max hh (by omega) hqn
        omega
      have hspan := spanInv_edge hinv hp hi32 hsrc hq
      have := walk_rank hs ns cond i q (r + spanAt hs ns p i) hinv hh hqn (Or.inr hhq)
      rw [this, hspan]
      have hle := walk_ge hs ns cond i q (r + spanAt hs ns p i)
      push_cast
      omega
    · simp
termination_by ns.length - p
decreasing_by omega

/-! ### The top-down descent

`insertPathAux` and `deletePathAux` share the same per-level structure; the
lemmas are proved once about `walkPath` and transported. -/

/-- The generic top-down descent over levels `L-1, …, 0`. -/
def walkPath (hs : List Int) (ns : List SLNode) (c : GoPlayer → Bool) :
    Nat → Nat → Int → List (Nat × Int)
  | 0, _, _ => []
  | i + 1, p, r =>
    let pr := walk hs ns c i p r
    walkPath hs ns c i pr.1 pr.2 ++ [pr]

theorem insertPathAux_eq_walkPath (hs : List Int) (ns : List SLNode) (pl : GoPlayer) :
    ∀ (L p : Nat) (r : Int),
      insertPathAux hs ns pl L p r =
        walkPath hs ns (fun q => decide (0 < comparePlayers q pl)) L p r := by
  intro L
  induction L with
  | zero => intro p r; rfl
  | succ i ih =>
    intro p r
    simp only [insertPathAux, walkPath]
    rw [ih]

theorem walk_fst_indep (hs hs' : List Int) (ns : List SLNode) (cond : GoPlayer → Bool)
    (i p : Nat) (r r' : Int) :
    (walk hs ns cond i p r).1 = (walk hs' ns cond i p r').1 := by
  rw [walk, walk]
  split
  · rfl
  · next q hq =>
    split
    · have hb := forwardIdx_bounds hq
      exact walk_fst_indep hs hs' ns cond i q _ _
    · rfl
termination_by ns.length - p
decreasing_by omega

theorem deletePathAux_eq_walkPath (hs : List Int) (ns : List SLNode) (pid : Int) :
    ∀ (L p : Nat) (r : Int),
      deletePathAux hs ns pid L p =
        (walkPath hs ns (fun q => decide (q.id ≠ pid)) L p r).map (fun pr => pr.1) := by
  intro L
  induction L with
  | zero => intro p r; rfl
  | succ i ih =>
    intro p r
    simp only [deletePathAux, walkPath, List.map_append]
    have hw := walk_fst_indep hs hs ns (fun q => decide (q.id ≠ pid)) i p 0 r
    rw [hw, ih _ (walk hs ns (fun q => decide (q.id ≠ pid)) i p r).2]
    rfl

theorem walkPath_length (hs : List Int) (ns : List SLNode) (c : GoPlayer → Bool) :
    ∀ (L p : Nat) (r : Int), (walkPath hs ns c L p r).length = L := by
  intro L
  induction L with
  | zero => intro p r; rfl
  | succ i ih =>
    intro p r
    simp only [walkPath, List.length_append, ih]
    rfl

theorem walkPath_getD_top (hs : List Int) (ns : List SLNode) (c : GoPlayer → Bool)
    (i p : Nat) (r : Int) :
    (walkPath hs ns c (i + 1) p r).getD i (0, 0) = walk hs ns c i p r := by
  simp only [walkPath]
  rw [List.getD_append_right _ _ _ _ (by rw [walkPath_length])]
  rw [walkPath_length]
  simp

theorem walkPath_getD_lt (hs : List Int) (ns : List SLNode) (c : GoPlayer → Bool)
    (i p : Nat) (r : Int) (j : Nat) (hj : j < i) :
    (walkPath hs ns c (i + 1) p r).getD j (0, 0) =
      (walkPath hs ns c i (walk hs ns c i p r).1 (walk hs ns c i p r).2).getD j (0, 0) := by
  simp only [walkPath]
  rw [List.getD_append _ _ _ _ (by rw [walkPath_length]; exact hj)]

theorem walkPath_ge (hs : List Int) (ns : List SLNode) (c : GoPlayer → Bool) :
    ∀ (L p : Nat) (r : Int) (j : Nat), j < L →
      p ≤ ((walkPath hs ns c L p r).getD j (0, 0)).1 := by
  intro L
  induction L with
  | zero => intro p r j hj; omega
  | succ i ih =>
    intro p r j hj
    rcases Nat.eq_or_lt_of_le (Nat.le_of_lt_succ hj) with rfl | hlt
    · rw [walkPath_getD_top]
      exact walk_ge hs ns c j p r
    · rw [walkPath_getD_lt hs ns c i p r j hlt]
      exact le_trans (walk_ge hs ns c i p r) (ih _ _ j hlt)

theorem walkPath_le_len (hs : List Int) (ns : List SLNode) (c : GoPlayer → Bool) :
    ∀ (L p : Nat) (r : Int), p ≤ ns.length → ∀ j : Nat, j < L →
      ((walkPath hs ns c L p r).getD j (0, 0)).1 ≤ ns.length := by
  intro L
  induction L with
  | zero => intro p r hp j hj; omega
  | succ i ih =>
    intro p r hp j hj
    rcases Nat.eq_or_lt_of_le (Nat.le_of_lt_succ hj) with rfl | hlt
    · rw [walkPath_getD_top]
      exact walk_le_length hs ns c j p r hp
    · rw [walkPath_getD_lt hs ns c i p r j hlt]
      exact ih _ _ (walk_le_length hs ns c i p r hp) j hlt

theorem walkPath_desc (hs : List Int) (ns : List SLNode) (c : GoPlayer → Bool) :
    ∀ (L p : Nat) (r : Int) (j k : Nat), j ≤ k → k < L →
      ((walkPath hs ns c L p r).getD k (0, 0)).1 ≤
        ((walkPath hs ns c L p r).getD j (0, 0)).1 := by
  intro L
  induction L with
  | zero => intro p r j k hjk hk; omega
  | succ i ih =>
    intro p r j k hjk hk
    rcases Nat.eq_or_lt_of_le (Nat.le_of_lt_succ hk) with rfl | hklt
    · rcases Nat.eq_or_lt_of_le hjk with rfl | hjlt
      · exact le_refl _
      · rw [walkPath_getD_top, walkPath_getD_lt hs ns c k p r j hjlt]
        exact walkPath_ge hs ns c k _ _ j hjlt
    · rw [walkPath_getD_lt hs ns c i p r k hklt,
        walkPath_getD_lt hs ns c i p r j (by omega)]
      exact ih _ _ j k hjk hklt

theorem walkPath_stop (hs : List Int) (ns : List SLNode) (c : GoPlayer → Bool) :
    ∀ (L p : Nat) (r : Int) (j : Nat), j < L →
      forwardIdx ns j ((walkPath hs ns c L p r).getD j (0, 0)).1 = none ∨
        ∃ q, forwardIdx ns j ((walkPath hs ns c L p r).getD j (0, 0)).1 = some q ∧
          c (plAt ns q) = false := by
  intro L
  induction L with
  | zero => intro p r j hj; omega
  | succ i ih =>
    intro p r j hj
    rcases Nat.eq_or_lt_of_le (Nat.le_of_lt_succ hj) with rfl | hlt
    · rw [walkPath_getD_top]
      exact walk_stop hs ns c j p r
    · rw [walkPath_getD_lt hs ns c i p r j hlt]
      exact ih _ _ j hlt

/-- Every node the whole descent passes over that lives in the descent's top
chain satisfies the search condition. -/
theorem walkPath_passes (hs : List Int) (ns : List SLNode) (c : GoPlayer → Bool) :
    ∀ (L p : Nat) (r : Int) (m : Nat), p < m →
      m ≤ ((walkPath hs ns c L p r).getD 0 (0, 0)).1 → L ≤ hAt ns m →
      c (plAt ns m) = true := by
  intro L
  induction L with
  | zero =>
    intro p r m hm1 hm2 _
    simp [walkPath] at hm2
    omega
  | succ i ih =>
    intro p r m hm1 hm2 hm3
    cases i with
    | zero =>
      rw [walkPath_getD_top] at hm2
      exact walk_visits hs ns c 0 p r m hm1 hm2 (by omega)
    | succ i' =>
      rw [walkPath_getD_lt hs ns c (i' + 1) p r 0 (by omega)] at hm2
      rcases le_or_lt m (walk hs ns c (i' + 1) p r).1 with hle | hgt
      · exact walk_visits hs ns c (i' + 1) p r m hm1 hle (by omega)
      · exact ih _ _ m hgt hm2 (by omega)

/-- Between any level's stop position and the final position of the descent
there is no node tall enough to be on that level's chain: the forward
pointer of `update[j]` at level `j` therefore jumps past `update[0]`. -/
theorem walkPath_no_chain_between (hs : List Int) (ns : List SLNode) (c : GoPlayer → Bool) :
    ∀ (L p : Nat) (r : Int), p ≤ ns.length → ∀ j, j < L → ∀ m,
      ((walkPath hs ns c L p r).getD j (0, 0)).1 < m →
      m ≤ ((walkPath hs ns c L p r).getD 0 (0, 0)).1 →
      ¬ j < hAt ns m := by
  intro L
  induction L with
  | zero => intro p r hp j hj; omega
  | succ i ih =>
    intro p r hp j hj m hm1 hm2 hcontra
    rcases Nat.eq_or_lt_of_le (Nat.le_of_lt_succ hj) with rfl | hlt
    · -- j is the top level of this descent
      rw [walkPath_getD_top] at hm1
      cases j with
      | zero =>
        rw [walkPath_getD_top] at hm2
        omega
      | succ j' =>
        rw [walkPath_getD_lt hs ns c (j' + 1) p r 0 (by omega)] at hm2
        have hsubfin := walkPath_le_len hs ns c (j' + 1)
          (walk hs ns c (j' + 1) p r).1 (walk hs ns c (j' + 1) p r).2
          (walk_le_length hs ns c (j' + 1) p r hp) 0 (by omega)
        rcases walk_stop hs ns c (j' + 1) p r with hnone | ⟨f, hf, hcf⟩
        · exact forwardIdx_eq_none_iff.mp hnone m hm1 (by omega) hcontra
        · obtain ⟨hwf, hfn, hhf, hmin⟩ := forwardIdx_eq_some_iff.mp hf
          have hfm : f ≤ m := by
            by_contra hmf
            exact hmin m hm1 (by omega) hcontra
          have := walkPath_passes hs ns c (j' + 1) (walk hs ns c (j' + 1) p r).1
            (walk hs ns c (j' + 1) p r).2 f hwf (by omega) (by omega)
          rw [this] at hcf
          cases hcf
    · rw [walkPath_getD_lt hs ns c i p r j hlt] at hm1
      rw [walkPath_getD_lt hs ns c i p r 0 (by omega)] at hm2
      exact ih (walk hs ns c i p r).1 (walk hs ns c i p r).2
        (walk_le_length hs ns c i p r hp) j hlt m hm1 hm2 hcontra

/-- Each stop position is either the descent's start or a node of the
corresponding chain that satisfied the search condition. -/
theorem walkPath_land (hs : List Int) (ns : List SLNode) (c : GoPlayer → Bool) :
    ∀ (L p : Nat) (r : Int) (j : Nat), j < L →
      ((walkPath hs ns c L p r).getD j (0, 0)).1 = p ∨
        (c (plAt ns ((walkPath hs ns c L p r).getD j (0, 0)).1) = true ∧
          j < hAt ns ((walkPath hs ns c L p r).getD j (0, 0)).1) := by
  intro L
  induction L with
  | zero => intro p r j hj; omega
  | succ i ih =>
    intro p r j hj
    rcases Nat.eq_or_lt_of_le (Nat.le_of_lt_succ hj) with rfl | hlt
    · rw [walkPath_getD_top]
      exact walk_land hs ns c j p r
    · rw [walkPath_getD_lt hs ns c i p r j hlt]
      rcases ih (walk hs ns c i p r).1 (walk hs ns c i p r).2 j hlt with heq | hland
      · rw [heq]
        rcases walk_land hs ns c i p r with heq2 | hland2
        · exact Or.inl heq2
        · exact Or.inr ⟨hland2.1, by omega⟩
      · exact Or.inr hland

/-- Under the span invariant the accumulated rank of every stop equals its
position (relative to the start of the descent). -/
theorem walkPath_rank (hs : List Int) (ns : List SLNode) (c : GoPlayer → Bool)
    (hinv : spanInv hs ns) (hh : ∀ nd ∈ ns, nd.height ≤ maxSkipListLevel) :
    ∀ (L p : Nat) (r : Int), p ≤ ns.length → (p = 0 ∨ L ≤ hAt ns p) → ∀ j, j < L →
      ((walkPath hs ns c L p r).getD j (0, 0)).2 =
        r + ((((walkPath hs ns c L p r).getD j (0, 0)).1 : Int) - p) := by
  intro L
  induction L with
  | zero => intro p r hp hsrc j hj; omega
  | succ i ih =>
    intro p r hp hsrc j hj
    have hsrc1 : p = 0 ∨ i < hAt ns p := by
      rcases hsrc with h0 | hc
      · exact Or.inl h0
      · exact Or.inr (by omega)
    rcases Nat.eq_or_lt_of_le (Nat.le_of_lt_succ hj) with rfl | hlt
    · rw [walkPath_getD_top]
      exact walk_rank hs ns c j p r hinv hh hp hsrc1
    · rw [walkPath_getD_lt hs ns c i p r j hlt]
      have hsrc2 : (walk hs ns c i p r).1 = 0 ∨ i ≤ hAt ns (walk hs ns c i p r).1 := by
        rcases walk_land hs ns c i p r with heq | hland
        · rw [heq]
          rcases hsrc with h0 | hc
          · exact Or.inl h0
          · exact Or.inr (by omega)
        · exact Or.inr (by omega)
      have h1 := ih (walk hs ns c i p r).1 (walk hs ns c i p r).2
        (walk_le_length hs ns c i p r hp) hsrc2 j hlt
      have h2 := walk_rank hs ns c i p r hinv hh hp hsrc1
      have h3 := walk_ge hs ns c i p r
      have h4 := walkPath_ge hs ns c i (walk hs ns c i p r).1 (walk hs ns c i p r).2 j hlt
      rw [h1, h2]
      push_cast
      omega

/-! ### Pointwise facts about span writes and node-list surgery -/

theorem getD_set_self {α : Type} [Inhabited α] (l : List α) (k : Nat) (v : α)
    (hk : k < l.length) : (l.set k v).getD k default = v := by
  rw [List.getD_eq_getElem?_getD, List.getElem?_set]
  simp [hk]

theorem getD_set_other {α : Type} [Inhabited α] (l : List α) (k m : Nat) (v : α)
    (h : m ≠ k) : (l.set k v).getD m default = l.getD m default := by
  rw [List.getD_eq_getElem?_getD, List.getElem?_set, if_neg (fun hc => h hc.symm),
    ← List.getD_eq_getElem?_getD]

theorem setSpan_fst_length (hs : List Int) (ns : List SLNode) (p i : Nat) (v : Int) :
    (setSpan hs ns p i v).1.length = hs.length := by
  unfold setSpan
  split <;> simp

theorem setSpan_snd_length (hs : List Int) (ns : List SLNode) (p i : Nat) (v : Int) :
    (setSpan hs ns p i v).2.length = ns.length := by
  unfold setSpan
  split <;> simp

theorem setSpan_getD_struct (hs : List Int) (ns : List SLNode) (p i : Nat) (v : Int)
    (k : Nat) :
    ((setSpan hs ns p i v).2.getD k default).height = (ns.getD k default).height ∧
    ((setSpan hs ns p i v).2.getD k default).player = (ns.getD k default).player ∧
    ((setSpan hs ns p i v).2.getD k default).spans.length =
      (ns.getD k default).spans.length := by
  unfold setSpan
  split
  · exact ⟨rfl, rfl, rfl⟩
  · by_cases hk : k = p - 1
    · by_cases hlen : p - 1 < ns.length
      · rw [hk, getD_set_self _ _ _ hlen]
        simp
      · rw [List.set_eq_of_length_le (by omega)]
        exact ⟨rfl, rfl, rfl⟩
    · rw [getD_set_other _ _ _ _ hk]
      exact ⟨rfl, rfl, rfl⟩

theorem setSpan_hAt (hs : List Int) (ns : List SLNode) (p i : Nat) (v : Int) (m : Nat) :
    hAt (setSpan hs ns p i v).2 m = hAt ns m :=
  (setSpan_getD_struct hs ns p i v (m - 1)).1

theorem setSpan_plAt (hs : List Int) (ns : List SLNode) (p i : Nat) (v : Int) (m : Nat) :
    plAt (setSpan hs ns p i v).2 m = plAt ns m :=
  (setSpan_getD_struct hs ns p i v (m - 1)).2.1

theorem forwardIdx_congr {ns ns' : List SLNode} (hlen : ns.length = ns'.length)
    (hh : ∀ m, 1 ≤ m → m ≤ ns.length → hAt ns m = hAt ns' m) (i p : Nat) :
    forwardIdx ns i p = forwardIdx ns' i p := by
  cases h : forwardIdx ns' i p with
  | some q =>
    obtain ⟨h1, h2, h3, h4⟩ := forwardIdx_eq_some_iff.mp h
    refine forwardIdx_eq_some_iff.mpr ⟨h1, by omega, ?_, ?_⟩
    · rw [hh q (by omega) (by omega)]
      exact h3
    · intro m hm1 hm2
      rw [hh m (by omega) (by omega)]
      exact h4 m hm1 hm2
  | none =>
    cases h2 : forwardIdx ns i p with
    | none => rfl
    | some q =>
      obtain ⟨h1, hq2, h3, -⟩ := forwardIdx_eq_some_iff.mp h2
      rw [hh q (by omega) hq2] at h3
      exact absurd h3 (forwardIdx_eq_none_iff.mp h q h1 (by omega))

theorem forwardIdx_setSpan (hs : List Int) (ns : List SLNode) (p i : Nat) (v : Int)
    (j q : Nat) : forwardIdx (setSpan hs ns p i v).2 j q = forwardIdx ns j q :=
  forwardIdx_congr (setSpan_snd_length hs ns p i v)
    (fun m _ _ => setSpan_hAt hs ns p i v m) j q

theorem spanAt_setSpan_self (hs : List Int) (ns : List SLNode) (p i : Nat) (v : Int)
    (hok0 : p = 0 → i < hs.length)
    (hok1 : 1 ≤ p → p ≤ ns.length ∧ i < (ns.getD (p - 1) default).spans.length) :
    spanAt (setSpan hs ns p i v).1 (setSpan hs ns p i v).2 p i = v := by
  unfold setSpan spanAt
  by_cases hp : p = 0
  · rw [if_pos hp, if_pos hp]
    simp only
    exact getD_set_self _ _ _ (hok0 hp)
  · rw [if_neg hp, if_neg hp]
    simp only
    obtain ⟨hle, hsp⟩ := hok1 (by omega)
    rw [getD_set_self _ _ _ (by omega)]
    simp only
    exact getD_set_self _ _ _ hsp

theorem spanAt_setSpan_other (hs : List Int) (ns : List SLNode) (p i : Nat) (v : Int)
    (m j : Nat) (hne : ¬ (m = p ∧ j = i)) :
    spanAt (setSpan hs ns p i v).1 (setSpan hs ns p i v).2 m j = spanAt hs ns m j := by
  unfold setSpan spanAt
  by_cases hp : p = 0
  · rw [if_pos hp]
    by_cases hm : m = 0
    · rw [if_pos hm, if_pos hm]
      simp only
      refine getD_set_other _ _ _ _ ?_
      intro hji
      exact hne ⟨by omega, hji⟩
    · rw [if_neg hm, if_neg hm]
  · rw [if_neg hp]
    by_cases hm : m = 0
    · rw [if_pos hm, if_pos hm]
    · rw [if_neg hm, if_neg hm]
      simp only
      by_cases hmp : m - 1 = p - 1
      · have hmpeq : m = p := by omega
        by_cases hlen : p - 1 < ns.length
        · rw [hmp, getD_set_self _ _ _ hlen]
          simp only
          refine getD_set_other _ _ _ _ ?_
          intro hji
          exact hne ⟨hmpeq, hji⟩
        · rw [List.set_eq_of_length_le (by omega)]
      · rw [getD_set_other _ _ _ _ hmp]

/-- Pointwise description of a per-level span-write pass: the passes in
`insertNode` and `deleteNode` write each level at most once, so the value
written at level `j` reads the ORIGINAL span at `(pos j, j)`. -/
theorem foldl_setSpan_spec (pos : Nat → Nat) (g : Nat → Int → Int) :
    ∀ (is : List Nat) (hs0 : List Int) (ns0 : List SLNode), is.Nodup →
      (∀ j ∈ is, (pos j = 0 → j < hs0.length) ∧
        (1 ≤ pos j → pos j ≤ ns0.length ∧
          j < ((ns0.getD (pos j - 1) default)).spans.length)) →
      ∀ res : List Int × List SLNode,
        res = is.foldl
          (fun acc j => setSpan acc.1 acc.2 (pos j) j (g j (spanAt acc.1 acc.2 (pos j) j)))
          (hs0, ns0) →
      (∀ m i, spanAt res.1 res.2 m i =
          if i ∈ is ∧ m = pos i then g i (spanAt hs0 ns0 (pos i) i)
          else spanAt hs0 ns0 m i) ∧
      res.1.length = hs0.length ∧ res.2.length = ns0.length ∧
      (∀ m, hAt res.2 m = hAt ns0 m) ∧ (∀ m, plAt res.2 m = plAt ns0 m) ∧
      (∀ k, ((res.2.getD k default)).spans.length =
        ((ns0.getD k default)).spans.length) := by
  intro is
  induction is with
  | nil =>
    intro hs0 ns0 _ _ res hres
    subst hres
    exact ⟨fun m i => by simp, rfl, rfl, fun m => rfl, fun m => rfl, fun k => rfl⟩
  | cons j rest ih =>
    intro hs0 ns0 hnodup hok res hres
    have hjok := hok j (by simp)
    have acc1def : (rest.foldl
        (fun acc j => setSpan acc.1 acc.2 (pos j) j (g j (spanAt acc.1 acc.2 (pos j) j)))
        (setSpan hs0 ns0 (pos j) j (g j (spanAt hs0 ns0 (pos j) j)))) = res := by
      rw [hres]
      rfl
    set acc1 := setSpan hs0 ns0 (pos j) j (g j (spanAt hs0 ns0 (pos j) j)) with hacc1
    have hok1 : ∀ j' ∈ rest, (pos j' = 0 → j' < acc1.1.length) ∧
        (1 ≤ pos j' → pos j' ≤ acc1.2.length ∧
          j' < ((acc1.2.getD (pos j' - 1) default)).spans.length) := by
      intro j' hj'
      have h := hok j' (by simp [hj'])
      rw [hacc1]
      refine ⟨?_, ?_⟩
      · intro h0
        rw [setSpan_fst_length]
        exact h.1 h0
      · intro h1
        rw [setSpan_snd_length]
        obtain ⟨ha, hb⟩ := h.2 h1
        exact ⟨ha, by rw [(setSpan_getD_struct _ _ _ _ _ _).2.2]; exact hb⟩
    obtain ⟨hspec, hlen1, hlen2, hhAt, hplAt, hspans⟩ :=
      ih acc1.1 acc1.2 (by simpa using hnodup.of_cons) hok1 res (by rw [← acc1def])
    have hjne : j ∉ rest := by
      have := List.nodup_cons.mp hnodup
      exact this.1
    refine ⟨?_, ?_, ?_, ?_, ?_, ?_⟩
    · intro m i
      rw [hspec m i]
      by_cases hc : i ∈ rest ∧ m = pos i
      · rw [if_pos hc, if_pos ⟨by simp [hc.1], hc.2⟩]
        congr 1
        rw [hacc1]
        refine spanAt_setSpan_other _ _ _ _ _ _ _ ?_
        rintro ⟨-, rfl⟩
        exact hjne hc.1
      · rw [if_neg hc, hacc1]
        by_cases hd : m = pos j ∧ i = j
        · obtain ⟨rfl, rfl⟩ := hd
          rw [if_pos ⟨by simp, rfl⟩]
          exact spanAt_setSpan_self _ _ _ _ _ hjok.1 hjok.2
        · rw [spanAt_setSpan_other _ _ _ _ _ _ _ hd]
          rw [if_neg ?_]
          rintro ⟨hmem, rfl⟩
          rcases List.mem_cons.mp hmem with rfl | hmem2
          · exact hd ⟨rfl, rfl⟩
          · exact hc ⟨hmem2, rfl⟩
    · rw [hlen1, hacc1, setSpan_fst_length]
    · rw [hlen2, hacc1, setSpan_snd_length]
    · intro m
      rw [hhAt m, hacc1, setSpan_hAt]
    · intro m
      rw [hplAt m, hacc1, setSpan_plAt]
    · intro k
      rw [hspans k, hacc1, (setSpan_getD_struct _ _ _ _ _ _).2.2]

/-- Pointwise description of the header-raise pass of `insertNode`. -/
theorem foldl_set_getD (v : Int) :
    ∀ (is : List Nat) (l0 : List Int),
      ((∀ m, (is.foldl (fun l i => l.set i v) l0).getD m 0 =
        if m ∈ is ∧ m < l0.length then v else l0.getD m 0) ∧
      (is.foldl (fun l i => l.set i v) l0).length = l0.length) := by
  intro is
  induction is with
  | nil => intro l0; exact ⟨fun m => by simp, rfl⟩
  | cons j rest ih =>
    intro l0
    obtain ⟨hspec, hlen⟩ := ih (l0.set j v)
    refine ⟨?_, by simpa using hlen⟩
    intro m
    rw [List.foldl_cons, hspec m]
    simp only [List.length_set]
    by_cases hc : m ∈ rest ∧ m < l0.length
    · rw [if_pos hc, if_pos ⟨by simp [hc.1], hc.2⟩]
    · rw [if_neg hc]
      by_cases hd : m = j ∧ m < l0.length
      · rw [if_pos ⟨by simp [hd.1], hd.2⟩]
        rw [List.getD_eq_getElem?_getD, List.getElem?_set, if_pos hd.1.symm,
          if_pos (by omega)]
        rfl
      · rw [if_neg ?_]
        · by_cases hm : m < l0.length
          · rw [List.getD_eq_getElem?_getD, List.getElem?_set,
              if_neg (fun hc2 => hd ⟨hc2.symm, hm⟩), ← List.getD_eq_getElem?_getD]
          · rw [List.getD_eq_getElem?_getD, List.getD_eq_getElem?_getD]
            rw [List.getElem?_eq_none (by simpa using (by omega : l0.length ≤ m)),
              List.getElem?_eq_none (by omega)]
        · rintro ⟨hmem, hmlt⟩
          rcases List.mem_cons.mp hmem with rfl | hmem2
          · exact hd ⟨rfl, hmlt⟩
          · exact hc ⟨hmem2, hmlt⟩

/-- `getD` through an insertion. -/
theorem getD_insertIdx (ns2 : List SLNode) (k : Nat) (nd : SLNode)
    (hk : k ≤ ns2.length) :
    ∀ m : Nat, (ns2.insertIdx k nd).getD m default =
      if m < k then ns2.getD m default
      else if m = k then nd
      else ns2.getD (m - 1) default := by
  induction ns2 generalizing k with
  | nil =>
    intro m
    obtain rfl : k = 0 := by simpa using hk
    cases m <;> simp [List.insertIdx]
  | cons a t ih =>
    intro m
    cases k with
    | zero =>
      rw [List.insertIdx_zero]
      cases m with
      | zero => simp
      | succ m => simp
    | succ k' =>
      rw [List.insertIdx_succ_cons]
      cases m with
      | zero => simp
      | succ m =>
        have := ih k' (by simpa using hk) m
        simp only [List.getD_cons_succ]
        rw [this]
        by_cases h1 : m < k'
        · rw [if_pos h1, if_pos (by omega)]
        · rw [if_neg h1]
          by_cases h2 : m = k'
          · rw [if_pos h2, if_neg (by omega), if_pos (by omega)]
          · rw [if_neg h2, if_neg (by omega), if_neg (by omega)]
            cases m with
            | zero => omega
            | succ mm => simp

/-- `getD` through a removal. -/
theorem getD_eraseIdx (ns2 : List SLNode) (k : Nat) :
    ∀ m : Nat, (ns2.eraseIdx k).getD m default =
      if m < k then ns2.getD m default else ns2.getD (m + 1) default := by
  intro m
  rw [List.getD_eq_getElem?_getD, List.getD_eq_getElem?_getD, List.getElem?_eraseIdx]
  by_cases h : m < k
  · rw [if_pos h, if_pos h, ← List.getD_eq_getElem?_getD]
  · rw [if_neg h, if_neg h, ← List.getD_eq_getElem?_getD]

/-! ### `insertNode` preserves well-formedness -/

/-- The search condition of `insertNode`. -/
def insCond (pl : GoPlayer) : GoPlayer → Bool :=
  fun q => decide (0 < comparePlayers q pl)

theorem insUpd_eq_walkPath (sl : GoSkipList) (pl : GoPlayer) (j : Nat)
    (hj : j < sl.level) :
    insUpd sl pl j =
      (walkPath sl.headerSpans sl.nodes (insCond pl) sl.level 0 0).getD j (0, 0) := by
  unfold insUpd
  rw [if_pos hj, insertPathAux_eq_walkPath]
  rfl

theorem insUpd_eq_top (sl : GoSkipList) (pl : GoPlayer) (j : Nat)
    (hj : sl.level ≤ j) : insUpd sl pl j = (0, 0) := by
  unfold insUpd
  rw [if_neg (by omega)]

theorem insUpd_le_len (sl : GoSkipList) (pl : GoPlayer) (j : Nat) :
    (insUpd sl pl j).1 ≤ sl.nodes.length := by
  by_cases hj : j < sl.level
  · rw [insUpd_eq_walkPath sl pl j hj]
    exact walkPath_le_len _ _ _ _ _ _ (by omega) j hj
  · rw [insUpd_eq_top sl pl j (by omega)]
    simp

theorem insUpd_le_zeroth (sl : GoSkipList) (pl : GoPlayer) (hlev : 1 ≤ sl.level)
    (j : Nat) : (insUpd sl pl j).1 ≤ (insUpd sl pl 0).1 := by
  by_cases hj : j < sl.level
  · rw [insUpd_eq_walkPath sl pl j hj, insUpd_eq_walkPath sl pl 0 (by omega)]
    exact walkPath_desc _ _ _ _ _ _ 0 j (by omega) hj
  · rw [insUpd_eq_top sl pl j (by omega)]
    simp

theorem insUpd_land (sl : GoSkipList) (pl : GoPlayer) (j : Nat) :
    (insUpd sl pl j).1 = 0 ∨ j < hAt sl.nodes (insUpd sl pl j).1 := by
  by_cases hj : j < sl.level
  · rw [insUpd_eq_walkPath sl pl j hj]
    rcases walkPath_land sl.headerSpans sl.nodes (insCond pl) sl.level 0 0 j hj with h | h
    · exact Or.inl h
    · exact Or.inr h.2
  · rw [insUpd_eq_top sl pl j (by omega)]
    exact Or.inl rfl

theorem insUpd_no_chain (sl : GoSkipList) (pl : GoPlayer) (hwf : WFsl sl)
    (j m : Nat) (hm1 : (insUpd sl pl j).1 < m) (hm2 : m ≤ (insUpd sl pl 0).1) :
    ¬ j < hAt sl.nodes m := by
  obtain ⟨-, hlev, -, -, hnd, -⟩ := hwf
  by_cases hj : j < sl.level
  · rw [insUpd_eq_walkPath sl pl j hj] at hm1
    rw [insUpd_eq_walkPath sl pl 0 (by omega)] at hm2
    exact walkPath_no_chain_between _ _ _ _ _ _ (by omega) j hj m hm1 hm2
  · have hm0 : 1 ≤ m := by omega
    have hmn : m ≤ sl.nodes.length :=
      le_trans hm2 (insUpd_le_len sl pl 0)
    have : hAt sl.nodes m ≤ sl.level := (hnd _ (getD_mem_of_lt (by omega))).2.1
    omega

theorem insUpd_snd (sl : GoSkipList) (pl : GoPlayer) (hwf : WFsl sl) (j : Nat) :
    (insUpd sl pl j).2 = ((insUpd sl pl j).1 : Int) := by
  obtain ⟨-, hlev, hlev32, -, hnd, hinv⟩ := hwf
  by_cases hj : j < sl.level
  · rw [insUpd_eq_walkPath sl pl j hj]
    have := walkPath_rank sl.headerSpans sl.nodes (insCond pl) hinv
      (fun nd hmem => (hnd nd hmem).2.1.trans hlev32) sl.level 0 0 (by omega)
      (Or.inl rfl) j hj
    omega
  · rw [insUpd_eq_top sl pl j (by omega)]
    rfl

theorem insHs1_length (sl : GoSkipList) (lvl : Nat) :
    (insHs1 sl lvl).length = sl.headerSpans.length :=
  (foldl_set_getD sl.length (List.range' sl.level (lvl - sl.level)) sl.headerSpans).2

theorem insHs1_getD (sl : GoSkipList) (lvl : Nat) (i : Nat) :
    (insHs1 sl lvl).getD i 0 =
      if sl.level ≤ i ∧ i < lvl ∧ i < sl.headerSpans.length then sl.length
      else sl.headerSpans.getD i 0 := by
  unfold insHs1
  rw [(foldl_set_getD sl.length (List.range' sl.level (lvl - sl.level)) sl.headerSpans).1 i]
  by_cases hc : sl.level ≤ i ∧ i < lvl ∧ i < sl.headerSpans.length
  · rw [if_pos hc, if_pos ⟨List.mem_range'_1.mpr ⟨hc.1, by omega⟩, hc.2.2⟩]
  · rw [if_neg hc, if_neg ?_]
    rintro ⟨hmem, hlen⟩
    obtain ⟨ha, hb⟩ := List.mem_range'_1.mp hmem
    exact hc ⟨ha, by omega, hlen⟩

/-- Spans read through the preset header: only levels in `[sl.level, lvl)`
differ from the original state. -/
theorem spanAt_insHs1 (sl : GoSkipList) (lvl : Nat) (m i : Nat) :
    spanAt (insHs1 sl lvl) sl.nodes m i =
      if m = 0 ∧ sl.level ≤ i ∧ i < lvl ∧ i < sl.headerSpans.length then sl.length
      else spanAt sl.headerSpans sl.nodes m i := by
  unfold spanAt
  by_cases hm : m = 0
  · rw [if_pos hm, insHs1_getD]
    by_cases hc : sl.level ≤ i ∧ i < lvl ∧ i < sl.headerSpans.length
    · rw [if_pos hc, if_pos ⟨hm, hc⟩]
    · rw [if_neg hc, if_neg (fun h => hc h.2), if_pos hm]
  · rw [if_neg hm, if_neg (fun h => hm h.1), if_neg hm]

/-- Combined pointwise description of both span-write passes of
`insertNode` (levels the new node occupies, then the higher levels). -/
theorem insHn3_spec (sl : GoSkipList) (pl : GoPlayer) (lvl : Nat) (hwf : WFsl sl)
    (hlvl2 : lvl ≤ maxSkipListLevel) :
    (∀ m i, spanAt (insHn3 sl pl lvl).1 (insHn3 sl pl lvl).2 m i =
        if i < lvl ∧ m = (insUpd sl pl i).1 then
          ((insUpd sl pl 0).2 - (insUpd sl pl i).2) + 1
        else if lvl ≤ i ∧ i < sl.level ∧ m = (insUpd sl pl i).1 then
          spanAt (insHs1 sl lvl) sl.nodes m i + 1
        else spanAt (insHs1 sl lvl) sl.nodes m i) ∧
    (insHn3 sl pl lvl).1.length = sl.headerSpans.length ∧
    (insHn3 sl pl lvl).2.length = sl.nodes.length ∧
    (∀ m, hAt (insHn3 sl pl lvl).2 m = hAt sl.nodes m) ∧
    (∀ m, plAt (insHn3 sl pl lvl).2 m = plAt sl.nodes m) ∧
    (∀ k, (((insHn3 sl pl lvl).2.getD k default)).spans.length =
      ((sl.nodes.getD k default)).spans.length) := by
  obtain ⟨hhs, hlev, hlev32, hlen, hnd, hinv⟩ := hwf
  have hwf' : WFsl sl := ⟨hhs, hlev, hlev32, hlen, hnd, hinv⟩
  have hok : ∀ pass : List Nat, (∀ j ∈ pass, j < maxSkipListLevel) →
      ∀ j ∈ pass, ((insUpd sl pl j).1 = 0 → j < (insHs1 sl lvl).length) ∧
        (1 ≤ (insUpd sl pl j).1 → (insUpd sl pl j).1 ≤ sl.nodes.length ∧
          j < ((sl.nodes.getD ((insUpd sl pl j).1 - 1) default)).spans.length) := by
    intro pass hbnd j hj
    refine ⟨?_, ?_⟩
    · intro _
      rw [insHs1_length, hhs]
      exact hbnd j hj
    · intro hge
      refine ⟨insUpd_le_len sl pl j, ?_⟩
      rcases insUpd_land sl pl j with h0 | hh
      · omega
      · have hmem : sl.nodes.getD ((insUpd sl pl j).1 - 1) default ∈ sl.nodes := by
          refine getD_mem_of_lt ?_
          have := insUpd_le_len sl pl j
          omega
        rw [(hnd _ hmem).2.2]
        exact hh
  -- first pass
  obtain ⟨hspec2, hl2a, hl2b, hh2, hp2, hsp2⟩ :=
    foldl_setSpan_spec (fun i => (insUpd sl pl i).1)
      (fun i _ => ((insUpd sl pl 0).2 - (insUpd sl pl i).2) + 1)
      (List.range lvl) (insHs1 sl lvl) sl.nodes (List.nodup_range lvl)
      (hok (List.range lvl) (fun j hj => by
        have := List.mem_range.mp hj
        omega))
      (insHn2 sl pl lvl) rfl
  -- second pass
  obtain ⟨hspec3, hl3a, hl3b, hh3, hp3, hsp3⟩ :=
    foldl_setSpan_spec (fun i => (insUpd sl pl i).1) (fun _ v => v + 1)
      (List.range' lvl (sl.level - lvl)) (insHn2 sl pl lvl).1 (insHn2 sl pl lvl).2
      (List.nodup_range' lvl (sl.level - lvl) 1 Nat.one_pos)
      (by
        intro j hj
        obtain ⟨ha, hb⟩ := List.mem_range'_1.mp hj
        have hj32 : j < maxSkipListLevel := by omega
        obtain ⟨hA, hB⟩ := hok [j] (fun j' hj' => by
          rcases List.mem_singleton.mp hj' with rfl
          exact hj32) j (by simp)
        refine ⟨?_, ?_⟩
        · intro h0
          rw [hl2a]
          exact hA h0
        · intro h1
          obtain ⟨ha2, hb2⟩ := hB h1
          refine ⟨by rw [hl2b]; exact ha2, ?_⟩
          rw [hsp2]
          exact hb2)
      (insHn3 sl pl lvl) rfl
  refine ⟨?_, by rw [hl3a, hl2a, insHs1_length],
    by rw [hl3b, hl2b], fun m => by rw [hh3, hh2],
    fun m => by rw [hp3, hp2], fun k => by rw [hsp3, hsp2]⟩
  intro m i
  rw [hspec3 m i]
  by_cases hm : m = (insUpd sl pl i).1
  · by_cases hi1 : i < lvl
    · have hno3 : ¬(i ∈ List.range' lvl (sl.level - lvl) ∧
          m = (insUpd sl pl i).1) := by
        rintro ⟨hmem, -⟩
        obtain ⟨ha, -⟩ := List.mem_range'_1.mp hmem
        omega
      rw [if_neg hno3, hspec2 m i, if_pos ⟨List.mem_range.mpr hi1, hm⟩,
        if_pos ⟨hi1, hm⟩]
    · by_cases hi2 : i < sl.level
      · have hmem : i ∈ List.range' lvl (sl.level - lvl) :=
          List.mem_range'_1.mpr ⟨by omega, by omega⟩
        have hno2 : ¬(i ∈ List.range lvl ∧
            (insUpd sl pl i).1 = (insUpd sl pl i).1) := by
          rintro ⟨hmemr, -⟩
          exact hi1 (List.mem_range.mp hmemr)
        rw [if_pos ⟨hmem, hm⟩, hspec2 (insUpd sl pl i).1 i, if_neg hno2,
          if_neg (fun hc => hi1 hc.1), if_pos ⟨by omega, hi2, hm⟩, hm]
      · have hno3 : ¬(i ∈ List.range' lvl (sl.level - lvl) ∧
            m = (insUpd sl pl i).1) := by
          rintro ⟨hmem, -⟩
          obtain ⟨-, hb⟩ := List.mem_range'_1.mp hmem
          omega
        have hno2 : ¬(i ∈ List.range lvl ∧ m = (insUpd sl pl i).1) := by
          rintro ⟨hmemr, -⟩
          exact hi1 (List.mem_range.mp hmemr)
        rw [if_neg hno3, hspec2 m i, if_neg hno2, if_neg (fun hc => hi1 hc.1),
          if_neg (fun hc => hi2 hc.2.1)]
  · rw [if_neg (fun hc => hm hc.2), hspec2 m i, if_neg (fun hc => hm hc.2),
      if_neg (fun hc => hm hc.2), if_neg (fun hc => hm hc.2.2)]

theorem insNewSpans_length (sl : GoSkipList) (pl : GoPlayer) (lvl : Nat) :
    (insNewSpans sl pl lvl).length = lvl := by
  unfold insNewSpans
  rw [List.length_map, List.length_range]

theorem insNewSpans_getD (sl : GoSkipList) (pl : GoPlayer) (lvl i : Nat)
    (hi : i < lvl) :
    (insNewSpans sl pl lvl).getD i 0 =
      spanAt (insHs1 sl lvl) sl.nodes (insUpd sl pl i).1 i -
        ((insUpd sl pl 0).2 - (insUpd sl pl i).2) := by
  unfold insNewSpans
  rw [List.getD_eq_getElem?_getD, List.getElem?_map, List.getElem?_range hi]
  rfl

theorem insertNode_nodes_length (sl : GoSkipList) (pl : GoPlayer) (lvl : Nat)
    (hwf : WFsl sl) (hlvl2 : lvl ≤ maxSkipListLevel) :
    (insertNode sl pl lvl).nodes.length = sl.nodes.length + 1 := by
  have hlen3 := (insHn3_spec sl pl lvl hwf hlvl2).2.2.1
  have hk : (insUpd sl pl 0).1 ≤ (insHn3 sl pl lvl).2.length := by
    rw [hlen3]
    exact insUpd_le_len sl pl 0
  unfold insertNode
  simp only
  rw [List.length_insertIdx _ _ hk, hlen3]

/-- Element view of the node array after `insertNode`: positions below the
insertion point read the second-pass array, the insertion point holds the
new node, higher positions are the second-pass array shifted by one. -/
theorem insertNode_getD (sl : GoSkipList) (pl : GoPlayer) (lvl : Nat)
    (hwf : WFsl sl) (hlvl2 : lvl ≤ maxSkipListLevel) (j : Nat) :
    (insertNode sl pl lvl).nodes.getD j default =
      if j < (insUpd sl pl 0).1 then (insHn3 sl pl lvl).2.getD j default
      else if j = (insUpd sl pl 0).1 then
        { player := pl, height := lvl, spans := insNewSpans sl pl lvl }
      else (insHn3 sl pl lvl).2.getD (j - 1) default := by
  have hlen3 := (insHn3_spec sl pl lvl hwf hlvl2).2.2.1
  have hk : (insUpd sl pl 0).1 ≤ (insHn3 sl pl lvl).2.length := by
    rw [hlen3]
    exact insUpd_le_len sl pl 0
  exact getD_insertIdx _ _ _ hk j

theorem ins_hAt_lo (sl : GoSkipList) (pl : GoPlayer) (lvl : Nat)
    (hwf : WFsl sl) (hlvl2 : lvl ≤ maxSkipListLevel) (m : Nat) (hm : 1 ≤ m)
    (hle : m ≤ (insUpd sl pl 0).1) :
    hAt (insertNode sl pl lvl).nodes m = hAt sl.nodes m := by
  have hh := (insHn3_spec sl pl lvl hwf hlvl2).2.2.2.1 m
  rw [← hh]
  unfold hAt
  rw [insertNode_getD sl pl lvl hwf hlvl2 (m - 1), if_pos (by omega)]

theorem ins_hAt_new (sl : GoSkipList) (pl : GoPlayer) (lvl : Nat)
    (hwf : WFsl sl) (hlvl2 : lvl ≤ maxSkipListLevel) :
    hAt (insertNode sl pl lvl).nodes ((insUpd sl pl 0).1 + 1) = lvl := by
  unfold hAt
  rw [insertNode_getD sl pl lvl hwf hlvl2 ((insUpd sl pl 0).1 + 1 - 1),
    if_neg (by omega), if_pos (by omega)]

theorem ins_hAt_hi (sl : GoSkipList) (pl : GoPlayer) (lvl : Nat)
    (hwf : WFsl sl) (hlvl2 : lvl ≤ maxSkipListLevel) (m : Nat)
    (hgt : (insUpd sl pl 0).1 + 1 < m) :
    hAt (insertNode sl pl lvl).nodes m = hAt sl.nodes (m - 1) := by
  have hh := (insHn3_spec sl pl lvl hwf hlvl2).2.2.2.1 (m - 1)
  rw [← hh]
  unfold hAt
  rw [insertNode_getD sl pl lvl hwf hlvl2 (m - 1), if_neg (by omega),
    if_neg (by omega)]

theorem ins_plAt_lo (sl : GoSkipList) (pl : GoPlayer) (lvl : Nat)
    (hwf : WFsl sl) (hlvl2 : lvl ≤ maxSkipListLevel) (m : Nat) (hm : 1 ≤ m)
    (hle : m ≤ (insUpd sl pl 0).1) :
    plAt (insertNode sl pl lvl).nodes m = plAt sl.nodes m := by
  have hp := (insHn3_spec sl pl lvl hwf hlvl2).2.2.2.2.1 m
  rw [← hp]
  unfold plAt
  rw [insertNode_getD sl pl lvl hwf hlvl2 (m - 1), if_pos (by omega)]

theorem ins_plAt_new (sl : GoSkipList) (pl : GoPlayer) (lvl : Nat)
    (hwf : WFsl sl) (hlvl2 : lvl ≤ maxSkipListLevel) :
    plAt (insertNode sl pl lvl).nodes ((insUpd sl pl 0).1 + 1) = pl := by
  unfold plAt
  rw [insertNode_getD sl pl lvl hwf hlvl2 ((insUpd sl pl 0).1 + 1 - 1),
    if_neg (by omega), if_pos (by omega)]

theorem ins_plAt_hi (sl : GoSkipList) (pl : GoPlayer) (lvl : Nat)
    (hwf : WFsl sl) (hlvl2 : lvl ≤ maxSkipListLevel) (m : Nat)
    (hgt : (insUpd sl pl 0).1 + 1 < m) :
    plAt (insertNode sl pl lvl).nodes m = plAt sl.nodes (m - 1) := by
  have hp := (insHn3_spec sl pl lvl hwf hlvl2).2.2.2.2.1 (m - 1)
  rw [← hp]
  unfold plAt
  rw [insertNode_getD sl pl lvl hwf hlvl2 (m - 1), if_neg (by omega),
    if_neg (by omega)]

theorem ins_spanAt_lo (sl : GoSkipList) (pl : GoPlayer) (lvl : Nat)
    (hwf : WFsl sl) (hlvl2 : lvl ≤ maxSkipListLevel) (m i : Nat)
    (hle : m ≤ (insUpd sl pl 0).1) :
    spanAt (insertNode sl pl lvl).headerSpans (insertNode sl pl lvl).nodes m i =
      spanAt (insHn3 sl pl lvl).1 (insHn3 sl pl lvl).2 m i := by
  unfold spanAt
  by_cases hm : m = 0
  · rw [if_pos hm, if_pos hm]
    rfl
  · rw [if_neg hm, if_neg hm,
      insertNode_getD sl pl lvl hwf hlvl2 (m - 1), if_pos (by omega)]

theorem ins_spanAt_new (sl : GoSkipList) (pl : GoPlayer) (lvl : Nat)
    (hwf : WFsl sl) (hlvl2 : lvl ≤ maxSkipListLevel) (i : Nat) :
    spanAt (insertNode sl pl lvl).headerSpans (insertNode sl pl lvl).nodes
        ((insUpd sl pl 0).1 + 1) i = (insNewSpans sl pl lvl).getD i 0 := by
  unfold spanAt
  rw [if_neg (by omega),
    insertNode_getD sl pl lvl hwf hlvl2 ((insUpd sl pl 0).1 + 1 - 1),
    if_neg (by omega), if_pos (by omega)]

theorem ins_spanAt_hi (sl : GoSkipList) (pl : GoPlayer) (lvl : Nat)
    (hwf : WFsl sl) (hlvl2 : lvl ≤ maxSkipListLevel) (m i : Nat)
    (hgt : (insUpd sl pl 0).1 + 1 < m) :
    spanAt (insertNode sl pl lvl).headerSpans (insertNode sl pl lvl).nodes m i =
      spanAt (insHn3 sl pl lvl).1 (insHn3 sl pl lvl).2 (m - 1) i := by
  unfold spanAt
  rw [if_neg (by omega), if_neg (by omega),
    insertNode_getD sl pl lvl hwf hlvl2 (m - 1), if_neg (by omega),
    if_neg (by omega)]

/-- A level-`i` forward pointer out of the level-`i` walk stop jumps past
the level-0 landing point. -/
theorem insUpd_forward_gt (sl : GoSkipList) (pl : GoPlayer) (hwf : WFsl sl)
    (i q : Nat) (hq : forwardIdx sl.nodes i (insUpd sl pl i).1 = some q) :
    (insUpd sl pl 0).1 < q := by
  obtain ⟨h1, h2, h3, -⟩ := forwardIdx_eq_some_iff.mp hq
  by_contra hle
  exact insUpd_no_chain sl pl hwf i q h1 (by omega) h3

/-- A chain-`i` source at or below the landing point sits at or below the
level-`i` walk stop. -/
theorem src_le_insUpd (sl : GoSkipList) (pl : GoPlayer) (hwf : WFsl sl)
    (i p : Nat) (hsrc : p = 0 ∨ i < hAt sl.nodes p)
    (hle : p ≤ (insUpd sl pl 0).1) : p ≤ (insUpd sl pl i).1 := by
  by_contra hgt
  rcases hsrc with rfl | hch
  · omega
  · exact insUpd_no_chain sl pl hwf i p (by omega) hle hch

/-- A chain-`i` source strictly below the level-`i` walk stop has a
realised level-`i` forward pointer landing at or before the stop. -/
theorem src_forward_below (sl : GoSkipList) (pl : GoPlayer) (hwf : WFsl sl)
    (i p : Nat) (hlt : p < (insUpd sl pl i).1) :
    ∃ f, forwardIdx sl.nodes i p = some f ∧ f ≤ (insUpd sl pl i).1 := by
  have hPiland := insUpd_land sl pl i
  have hPich : i < hAt sl.nodes (insUpd sl pl i).1 := by
    rcases hPiland with h0 | hh
    · omega
    · exact hh
  have hPilen : (insUpd sl pl i).1 ≤ sl.nodes.length := insUpd_le_len sl pl i
  cases hf : forwardIdx sl.nodes i p with
  | none =>
    exact absurd hPich (forwardIdx_eq_none_iff.mp hf _ hlt hPilen)
  | some f =>
    obtain ⟨h1, h2, h3, h4⟩ := forwardIdx_eq_some_iff.mp hf
    refine ⟨f, rfl, ?_⟩
    by_contra hgt
    exact h4 _ hlt (by omega) hPich

/-- Forward pointers into the freshly inserted node: any position at or
below the landing point with no level-`i` chain node between it and the
landing point now points to the new node. -/
theorem ins_forward_to_new (sl : GoSkipList) (pl : GoPlayer) (lvl : Nat)
    (hwf : WFsl sl) (hlvl2 : lvl ≤ maxSkipListLevel) (i p : Nat)
    (hi : i < lvl) (hp : p ≤ (insUpd sl pl 0).1)
    (hnc : ∀ m, p < m → m ≤ (insUpd sl pl 0).1 → ¬ i < hAt sl.nodes m) :
    forwardIdx (insertNode sl pl lvl).nodes i p =
      some ((insUpd sl pl 0).1 + 1) := by
  have hP0len := insUpd_le_len sl pl 0
  rw [forwardIdx_eq_some_iff]
  refine ⟨by omega, ?_, ?_, ?_⟩
  · rw [insertNode_nodes_length sl pl lvl hwf hlvl2]
    omega
  · rw [ins_hAt_new sl pl lvl hwf hlvl2]
    exact hi
  · intro m hm1 hm2
    rw [ins_hAt_lo sl pl lvl hwf hlvl2 m (by omega) (by omega)]
    exact hnc m hm1 (by omega)

/-- Forward pointers staying at or below the landing point are unchanged
by the insertion. -/
theorem ins_forward_keep (sl : GoSkipList) (pl : GoPlayer) (lvl : Nat)
    (hwf : WFsl sl) (hlvl2 : lvl ≤ maxSkipListLevel) (i p f : Nat)
    (hf : forwardIdx sl.nodes i p = some f) (hfle : f ≤ (insUpd sl pl 0).1) :
    forwardIdx (insertNode sl pl lvl).nodes i p = some f := by
  obtain ⟨h1, h2, h3, h4⟩ := forwardIdx_eq_some_iff.mp hf
  rw [forwardIdx_eq_some_iff]
  refine ⟨h1, ?_, ?_, ?_⟩
  · rw [insertNode_nodes_length sl pl lvl hwf hlvl2]
    omega
  · rw [ins_hAt_lo sl pl lvl hwf hlvl2 f (by omega) hfle]
    exact h3
  · intro m hm1 hm2
    rw [ins_hAt_lo sl pl lvl hwf hlvl2 m (by omega) (by omega)]
    exact h4 m hm1 hm2

/-- Forward pointers from at or below the landing point crossing the
insertion point at a level the new node does not occupy shift by one. -/
theorem ins_forward_shift_over (sl : GoSkipList) (pl : GoPlayer) (lvl : Nat)
    (hwf : WFsl sl) (hlvl2 : lvl ≤ maxSkipListLevel) (i p f : Nat)
    (hi : lvl ≤ i) (hp : p ≤ (insUpd sl pl 0).1)
    (hf : forwardIdx sl.nodes i p = some f)
    (hfgt : (insUpd sl pl 0).1 < f) :
    forwardIdx (insertNode sl pl lvl).nodes i p = some (f + 1) := by
  have hP0len := insUpd_le_len sl pl 0
  obtain ⟨h1, h2, h3, h4⟩ := forwardIdx_eq_some_iff.mp hf
  rw [forwardIdx_eq_some_iff]
  refine ⟨by omega, ?_, ?_, ?_⟩
  · rw [insertNode_nodes_length sl pl lvl hwf hlvl2]
    omega
  · rw [ins_hAt_hi sl pl lvl hwf hlvl2 (f + 1) (by omega)]
    simpa using h3
  · intro m hm1 hm2
    by_cases hmlo : m ≤ (insUpd sl pl 0).1
    · rw [ins_hAt_lo sl pl lvl hwf hlvl2 m (by omega) hmlo]
      exact h4 m hm1 (by omega)
    · by_cases hmnew : m = (insUpd sl pl 0).1 + 1
      · rw [hmnew, ins_hAt_new sl pl lvl hwf hlvl2]
        omega
      · rw [ins_hAt_hi sl pl lvl hwf hlvl2 m (by omega)]
        exact h4 (m - 1) (by omega) (by omega)

/-- A nil forward pointer from at or below the landing point at a level the
new node does not occupy stays nil. -/
theorem ins_forward_none_keep (sl : GoSkipList) (pl : GoPlayer) (lvl : Nat)
    (hwf : WFsl sl) (hlvl2 : lvl ≤ maxSkipListLevel) (i p : Nat)
    (hi : lvl ≤ i) (hp : p ≤ (insUpd sl pl 0).1)
    (hf : forwardIdx sl.nodes i p = none) :
    forwardIdx (insertNode sl pl lvl).nodes i p = none := by
  have hP0len := insUpd_le_len sl pl 0
  have h4 := forwardIdx_eq_none_iff.mp hf
  rw [forwardIdx_eq_none_iff]
  intro m hm1 hm2
  rw [insertNode_nodes_length sl pl lvl hwf hlvl2] at hm2
  by_cases hmlo : m ≤ (insUpd sl pl 0).1
  · rw [ins_hAt_lo sl pl lvl hwf hlvl2 m (by omega) hmlo]
    exact h4 m hm1 (by omega)
  · by_cases hmnew : m = (insUpd sl pl 0).1 + 1
    · rw [hmnew, ins_hAt_new sl pl lvl hwf hlvl2]
      omega
    · rw [ins_hAt_hi sl pl lvl hwf hlvl2 m (by omega)]
      exact h4 (m - 1) (by omega) (by omega)

/-- Forward pointers out of positions at or past the insertion point
(including the new node itself) are the old pointers of the position one
lower, shifted by one. -/
theorem ins_forward_hi_some (sl : GoSkipList) (pl : GoPlayer) (lvl : Nat)
    (hwf : WFsl sl) (hlvl2 : lvl ≤ maxSkipListLevel) (i p q : Nat)
    (hp : (insUpd sl pl 0).1 + 1 ≤ p)
    (hf : forwardIdx sl.nodes i (p - 1) = some q) :
    forwardIdx (insertNode sl pl lvl).nodes i p = some (q + 1) := by
  have hP0len := insUpd_le_len sl pl 0
  obtain ⟨h1, h2, h3, h4⟩ := forwardIdx_eq_some_iff.mp hf
  rw [forwardIdx_eq_some_iff]
  refine ⟨by omega, ?_, ?_, ?_⟩
  · rw [insertNode_nodes_length sl pl lvl hwf hlvl2]
    omega
  · rw [ins_hAt_hi sl pl lvl hwf hlvl2 (q + 1) (by omega)]
    simpa using h3
  · intro m hm1 hm2
    rw [ins_hAt_hi sl pl lvl hwf hlvl2 m (by omega)]
    exact h4 (m - 1) (by omega) (by omega)

/-- Nil forward pointers out of positions at or past the insertion point
stay nil. -/
theorem ins_forward_hi_none (sl : GoSkipList) (pl : GoPlayer) (lvl : Nat)
    (hwf : WFsl sl) (hlvl2 : lvl ≤ maxSkipListLevel) (i p : Nat)
    (hp : (insUpd sl pl 0).1 + 1 ≤ p)
    (hf : forwardIdx sl.nodes i (p - 1) = none) :
    forwardIdx (insertNode sl pl lvl).nodes i p = none := by
  have h4 := forwardIdx_eq_none_iff.mp hf
  rw [forwardIdx_eq_none_iff]
  intro m hm1 hm2
  rw [insertNode_nodes_length sl pl lvl hwf hlvl2] at hm2
  rw [ins_hAt_hi sl pl lvl hwf hlvl2 m (by omega)]
  exact h4 (m - 1) (by omega) (by omega)

theorem edgeOkB_of_none {hs : List Int} {ns : List SLNode} {p i : Nat}
    (h : forwardIdx ns i p = none) : edgeOkB hs ns p i = true := by
  unfold edgeOkB
  rw [h]

theorem edgeOkB_of_some {hs : List Int} {ns : List SLNode} {p i q : Nat}
    (h : forwardIdx ns i p = some q)
    (hspan : spanAt hs ns p i = (q : Int) - (p : Int)) :
    edgeOkB hs ns p i = true := by
  unfold edgeOkB
  rw [h, hspan]
  exact beq_self_eq_true _

theorem hAt_le_level (sl : GoSkipList) (hwf : WFsl sl) (m : Nat) (hm : 1 ≤ m)
    (hmn : m ≤ sl.nodes.length) : hAt sl.nodes m ≤ sl.level := by
  obtain ⟨-, -, -, -, hnd, -⟩ := hwf
  exact (hnd _ (getD_mem_of_lt (by omega))).2.1

/-- `insertNode` preserves well-formedness, in particular the span
invariant at every level including those above the new node's height. -/
theorem insertNode_WF (sl : GoSkipList) (pl : GoPlayer) (lvl : Nat)
    (hwf : WFsl sl) (hlvl1 : 1 ≤ lvl) (hlvl2 : lvl ≤ maxSkipListLevel) :
    WFsl (insertNode sl pl lvl) := by
  obtain ⟨hhs, hlev, hlev32, hlen, hnd, hinv⟩ := hwf
  have hwf' : WFsl sl := ⟨hhs, hlev, hlev32, hlen, hnd, hinv⟩
  obtain ⟨hspec, hlenh, hlenn, hh3, hp3, hsp3⟩ := insHn3_spec sl pl lvl hwf' hlvl2
  have hP0len := insUpd_le_len sl pl 0
  have hlen' := insertNode_nodes_length sl pl lvl hwf' hlvl2
  refine ⟨hlenh.trans hhs, le_trans hlev (le_max_left _ _),
    max_le hlev32 hlvl2, ?_, ?_, ?_⟩
  · show sl.length + 1 = ((insertNode sl pl lvl).nodes.length : Int)
    rw [hlen', hlen]
    push_cast
    ring
  · intro nd hmem
    rw [List.mem_iff_getElem] at hmem
    obtain ⟨j, hj, hnd'⟩ := hmem
    have hjD : (insertNode sl pl lvl).nodes.getD j default = nd := by
      rw [List.getD_eq_getElem?_getD, List.getElem?_eq_getElem hj, hnd']
      rfl
    rw [hlen'] at hj
    rw [insertNode_getD sl pl lvl hwf' hlvl2 j] at hjD
    by_cases hj1 : j < (insUpd sl pl 0).1
    · rw [if_pos hj1] at hjD
      obtain ⟨o1, o2, o3⟩ := hnd _ (getD_mem_of_lt (show j < sl.nodes.length by omega))
      have hht : nd.height = (sl.nodes.getD j default).height := by
        rw [← hjD]
        exact hh3 (j + 1)
      have hspl : nd.spans.length = (sl.nodes.getD j default).spans.length := by
        rw [← hjD]
        exact hsp3 j
      refine ⟨by omega, ?_, by rw [hspl, o3, ← hht]⟩
      rw [hht]
      exact le_trans o2 (le_max_left _ _)
    · by_cases hj2 : j = (insUpd sl pl 0).1
      · rw [if_neg hj1, if_pos hj2] at hjD
        rw [← hjD]
        exact ⟨hlvl1, le_max_right _ _, insNewSpans_length sl pl lvl⟩
      · rw [if_neg hj1, if_neg hj2] at hjD
        obtain ⟨o1, o2, o3⟩ := hnd _
          (getD_mem_of_lt (show j - 1 < sl.nodes.length by omega))
        have hht : nd.height = (sl.nodes.getD (j - 1) default).height := by
          rw [← hjD]
          exact hh3 j
        have hspl : nd.spans.length = (sl.nodes.getD (j - 1) default).spans.length := by
          rw [← hjD]
          exact hsp3 (j - 1)
        refine ⟨by omega, ?_, by rw [hspl, o3, ← hht]⟩
        rw [hht]
        exact le_trans o2 (le_max_left _ _)
  · intro p hp i hi32 hsrc
    rw [hlen'] at hp
    by_cases hplo : p ≤ (insUpd sl pl 0).1
    · -- the edge starts at or below the level-0 landing point
      have hsrc_old : p = 0 ∨ i < hAt sl.nodes p := by
        rcases hsrc with h0 | hch
        · exact Or.inl h0
        · by_cases hp0 : p = 0
          · exact Or.inl hp0
          · right
            rw [ins_hAt_lo sl pl lvl hwf' hlvl2 p (by omega) hplo] at hch
            exact hch
      have hple : p ≤ (insUpd sl pl i).1 := src_le_insUpd sl pl hwf' i p hsrc_old hplo
      by_cases hpPi : p = (insUpd sl pl i).1
      · by_cases hi_lvl : i < lvl
        · -- walk stop, occupied level: points to the new node
          have hfwd := ins_forward_to_new sl pl lvl hwf' hlvl2 i p hi_lvl hplo
            (fun m hm1 hm2 => insUpd_no_chain sl pl hwf' i m (by omega) hm2)
          refine edgeOkB_of_some hfwd ?_
          rw [ins_spanAt_lo sl pl lvl hwf' hlvl2 p i hplo, hspec p i,
            if_pos ⟨hi_lvl, hpPi⟩, insUpd_snd sl pl hwf' 0, insUpd_snd sl pl hwf' i,
            hpPi]
          omega
        · -- walk stop, unoccupied level: the old edge crosses the new node
          cases hfold : forwardIdx sl.nodes i (insUpd sl pl i).1 with
          | none =>
            exact edgeOkB_of_none (ins_forward_none_keep sl pl lvl hwf' hlvl2 i p
              (by omega) hplo (by rw [hpPi]; exact hfold))
          | some q =>
            have hqk := insUpd_forward_gt sl pl hwf' i q hfold
            obtain ⟨hq1, hq2, hq3, -⟩ := forwardIdx_eq_some_iff.mp hfold
            have hiltq : i < sl.level := by
              have := hAt_le_level sl hwf' q (by omega) hq2
              omega
            have hfwd := ins_forward_shift_over sl pl lvl hwf' hlvl2 i p q
              (by omega) hplo (by rw [hpPi]; exact hfold) hqk
            refine edgeOkB_of_some hfwd ?_
            rw [ins_spanAt_lo sl pl lvl hwf' hlvl2 p i hplo, hspec p i,
              if_neg (by rintro ⟨hlt, -⟩; omega),
              if_pos ⟨by omega, hiltq, hpPi⟩,
              spanAt_insHs1, if_neg (by rintro ⟨-, hge, -, -⟩; omega),
              hpPi, spanInv_edge hinv (insUpd_le_len sl pl i) hi32
                (insUpd_land sl pl i) hfold]
            omega
      · -- strictly below the walk stop: the old edge is untouched
        have hplt : p < (insUpd sl pl i).1 := by omega
        have hilt : i < sl.level := by
          by_contra hge
          rw [insUpd_eq_top sl pl i (by omega)] at hplt
          exact Nat.not_lt_zero p hplt
        obtain ⟨f, hfold, hfle⟩ := src_forward_below sl pl hwf' i p hplt
        have hfwd := ins_forward_keep sl pl lvl hwf' hlvl2 i p f hfold
          (le_trans hfle (insUpd_le_zeroth sl pl hlev i))
        refine edgeOkB_of_some hfwd ?_
        rw [ins_spanAt_lo sl pl lvl hwf' hlvl2 p i hplo, hspec p i,
          if_neg (by rintro ⟨-, hpe⟩; omega),
          if_neg (by rintro ⟨-, -, hpe⟩; omega),
          spanAt_insHs1, if_neg (by rintro ⟨-, hge, -, -⟩; omega),
          spanInv_edge hinv (by omega) hi32 hsrc_old hfold]
    · by_cases hpnew : p = (insUpd sl pl 0).1 + 1
      · by_cases hi_lvl : i < lvl
        · -- the new node's own edge at an occupied level
          cases hfold : forwardIdx sl.nodes i (insUpd sl pl i).1 with
          | none =>
            have hfk : forwardIdx sl.nodes i (insUpd sl pl 0).1 = none := by
              rw [forwardIdx_eq_none_iff] at hfold ⊢
              intro m hm1 hm2
              exact hfold m
                (by have := insUpd_le_zeroth sl pl hlev i; omega) hm2
            rw [hpnew]
            exact edgeOkB_of_none (ins_forward_hi_none sl pl lvl hwf' hlvl2 i
              ((insUpd sl pl 0).1 + 1) (le_refl _) hfk)
          | some q =>
            have hqk := insUpd_forward_gt sl pl hwf' i q hfold
            obtain ⟨hq1, hq2, hq3, hq4⟩ := forwardIdx_eq_some_iff.mp hfold
            have hfk : forwardIdx sl.nodes i (insUpd sl pl 0).1 = some q := by
              rw [forwardIdx_eq_some_iff]
              refine ⟨hqk, hq2, hq3, ?_⟩
              intro m hm1 hm2
              exact hq4 m (by have := insUpd_le_zeroth sl pl hlev i; omega) hm2
            have hfwd := ins_forward_hi_some sl pl lvl hwf' hlvl2 i
              ((insUpd sl pl 0).1 + 1) q (le_refl _) hfk
            have hiltq : i < sl.level := by
              have := hAt_le_level sl hwf' q (by omega) hq2
              omega
            rw [hpnew]
            refine edgeOkB_of_some hfwd ?_
            rw [ins_spanAt_new sl pl lvl hwf' hlvl2 i,
              insNewSpans_getD sl pl lvl i hi_lvl,
              spanAt_insHs1, if_neg (by rintro ⟨-, hge, -, -⟩; omega),
              spanInv_edge hinv (insUpd_le_len sl pl i) hi32
                (insUpd_land sl pl i) hfold,
              insUpd_snd sl pl hwf' 0, insUpd_snd sl pl hwf' i]
            omega
        · -- the new node has no pointer at this level: not a source
          exfalso
          rcases hsrc with h0 | hch
          · omega
          · rw [hpnew, ins_hAt_new sl pl lvl hwf' hlvl2] at hch
            omega
      · -- strictly past the new node: the old shifted edge
        have hsrc2 : i < hAt sl.nodes (p - 1) := by
          rcases hsrc with h0 | hch
          · omega
          · rw [ins_hAt_hi sl pl lvl hwf' hlvl2 p (by omega)] at hch
            exact hch
        have hPile := insUpd_le_zeroth sl pl hlev i
        cases hfold : forwardIdx sl.nodes i (p - 1) with
        | none =>
          exact edgeOkB_of_none (ins_forward_hi_none sl pl lvl hwf' hlvl2 i p
            (by omega) hfold)
        | some q =>
          have hfwd := ins_forward_hi_some sl pl lvl hwf' hlvl2 i p q
            (by omega) hfold
          obtain ⟨hq1, hq2, hq3, -⟩ := forwardIdx_eq_some_iff.mp hfold
          refine edgeOkB_of_some hfwd ?_
          rw [ins_spanAt_hi sl pl lvl hwf' hlvl2 p i (by omega), hspec (p - 1) i,
            if_neg (by rintro ⟨-, hpe⟩; omega),
            if_neg (by rintro ⟨-, -, hpe⟩; omega),
            spanAt_insHs1, if_neg (by rintro ⟨hpe, -⟩; omega),
            spanInv_edge hinv (by omega) hi32 (Or.inr hsrc2) hfold]
          omega

/-! ### Delete: the search path and the span rewrites -/

/-- The traversal guard of `deleteNode`: advance while the forward node's
id differs from the target id. -/
def delCond (pid : Int) : GoPlayer → Bool := fun q => decide (q.id ≠ pid)

theorem delUpd_eq_walkPath (sl : GoSkipList) (pid : Int) (j : Nat)
    (hj : j < sl.level) :
    delUpd sl pid j =
      ((walkPath sl.headerSpans sl.nodes (delCond pid) sl.level 0 0).getD j
        (0, 0)).1 := by
  unfold delUpd
  rw [deletePathAux_eq_walkPath sl.headerSpans sl.nodes pid sl.level 0 0]
  have hjl : j < (walkPath sl.headerSpans sl.nodes
      (fun q => decide (q.id ≠ pid)) sl.level 0 0).length := by
    rw [walkPath_length]
    exact hj
  rw [List.getD_eq_getElem?_getD, List.getElem?_map,
    List.getElem?_eq_getElem hjl]
  have hjl' : j < (walkPath sl.headerSpans sl.nodes (delCond pid)
      sl.level 0 0).length := hjl
  rw [List.getD_eq_getElem?_getD, List.getElem?_eq_getElem hjl']
  rfl

theorem delUpd_eq_top (sl : GoSkipList) (pid : Int) (j : Nat)
    (hj : sl.level ≤ j) : delUpd sl pid j = 0 := by
  unfold delUpd
  apply List.getD_eq_default
  rw [deletePathAux_eq_walkPath sl.headerSpans sl.nodes pid sl.level 0 0,
    List.length_map, walkPath_length]
  exact hj

theorem delUpd_le_len (sl : GoSkipList) (pid : Int) (j : Nat) :
    delUpd sl pid j ≤ sl.nodes.length := by
  by_cases hj : j < sl.level
  · rw [delUpd_eq_walkPath sl pid j hj]
    exact walkPath_le_len _ _ _ _ _ _ (by omega) j hj
  · rw [delUpd_eq_top sl pid j (by omega)]
    omega

theorem delUpd_le_zeroth (sl : GoSkipList) (pid : Int) (hlev : 1 ≤ sl.level)
    (j : Nat) : delUpd sl pid j ≤ delUpd sl pid 0 := by
  by_cases hj : j < sl.level
  · rw [delUpd_eq_walkPath sl pid j hj, delUpd_eq_walkPath sl pid 0 (by omega)]
    exact walkPath_desc _ _ _ _ _ _ 0 j (by omega) hj
  · rw [delUpd_eq_top sl pid j (by omega)]
    omega

theorem delUpd_land (sl : GoSkipList) (pid : Int) (j : Nat) :
    delUpd sl pid j = 0 ∨ j < hAt sl.nodes (delUpd sl pid j) := by
  by_cases hj : j < sl.level
  · rw [delUpd_eq_walkPath sl pid j hj]
    rcases walkPath_land sl.headerSpans sl.nodes (delCond pid) sl.level 0 0 j hj
      with h | h
    · exact Or.inl h
    · exact Or.inr h.2
  · rw [delUpd_eq_top sl pid j (by omega)]
    exact Or.inl rfl

theorem delUpd_no_chain (sl : GoSkipList) (pid : Int) (hwf : WFsl sl)
    (j m : Nat) (hm1 : delUpd sl pid j < m) (hm2 : m ≤ delUpd sl pid 0) :
    ¬ j < hAt sl.nodes m := by
  obtain ⟨-, hlev, -, -, hnd, -⟩ := hwf
  by_cases hj : j < sl.level
  · rw [delUpd_eq_walkPath sl pid j hj] at hm1
    rw [delUpd_eq_walkPath sl pid 0 (by omega)] at hm2
    exact walkPath_no_chain_between _ _ _ _ _ _ (by omega) j hj m hm1 hm2
  · have hm0 : 1 ≤ m := by omega
    have hmn : m ≤ sl.nodes.length := le_trans hm2 (delUpd_le_len sl pid 0)
    have : hAt sl.nodes m ≤ sl.level := (hnd _ (getD_mem_of_lt (by omega))).2.1
    omega

theorem delUpd_stop (sl : GoSkipList) (pid : Int) (j : Nat) (hj : j < sl.level) :
    forwardIdx sl.nodes j (delUpd sl pid j) = none ∨
      ∃ q, forwardIdx sl.nodes j (delUpd sl pid j) = some q ∧
        (plAt sl.nodes q).id = pid := by
  rw [delUpd_eq_walkPath sl pid j hj]
  rcases walkPath_stop sl.headerSpans sl.nodes (delCond pid) sl.level 0 0 j hj
    with h | ⟨q, hq, hc⟩
  · exact Or.inl h
  · refine Or.inr ⟨q, hq, ?_⟩
    unfold delCond at hc
    simpa using hc

/-- The victim found by `deleteNode` sits directly after the level-0 stop
(there are no nodes of height zero to skip). -/
theorem delete_victim_succ (sl : GoSkipList) (pid : Int) (hwf : WFsl sl)
    (qx : Nat) (hqx : forwardIdx sl.nodes 0 (delUpd sl pid 0) = some qx) :
    qx = delUpd sl pid 0 + 1 := by
  obtain ⟨-, -, -, -, hnd, -⟩ := hwf
  obtain ⟨h1, h2, -, h4⟩ := forwardIdx_eq_some_iff.mp hqx
  by_contra hne
  have hnc := h4 (delUpd sl pid 0 + 1) (by omega) (by omega)
  have hh := (hnd _ (getD_mem_of_lt
    (show delUpd sl pid 0 + 1 - 1 < sl.nodes.length by omega))).1
  exact hnc hh

/-- The value each span write of `deleteNode` stores: an edge into the
victim absorbs the victim's span minus one, any other updated edge loses
one. -/
def delG (sl : GoSkipList) (pid : Int) (qx : Nat) (j : Nat) (v : Int) : Int :=
  if forwardIdx sl.nodes j (delUpd sl pid j) = some qx then
    v + ((sl.nodes.getD (qx - 1) default).spans.getD j 0 - 1)
  else v - 1

theorem delHn_eq_foldl (sl : GoSkipList) (pid : Int) (qx : Nat) :
    delHn sl pid qx = (List.range sl.level).foldl
      (fun acc j => setSpan acc.1 acc.2 (delUpd sl pid j) j
        (delG sl pid qx j (spanAt acc.1 acc.2 (delUpd sl pid j) j)))
      (sl.headerSpans, sl.nodes) := by
  unfold delHn
  refine List.foldl_ext _ _ _ ?_
  intro acc j hj
  unfold delG
  by_cases hc : forwardIdx sl.nodes j (delUpd sl pid j) = some qx
  · rw [if_pos hc, if_pos hc]
  · rw [if_neg hc, if_neg hc]

theorem delHn_spec (sl : GoSkipList) (pid : Int) (qx : Nat) (hwf : WFsl sl) :
    (∀ m i, spanAt (delHn sl pid qx).1 (delHn sl pid qx).2 m i =
        if i ∈ List.range sl.level ∧ m = delUpd sl pid i then
          delG sl pid qx i (spanAt sl.headerSpans sl.nodes (delUpd sl pid i) i)
        else spanAt sl.headerSpans sl.nodes m i) ∧
    (delHn sl pid qx).1.length = sl.headerSpans.length ∧
    (delHn sl pid qx).2.length = sl.nodes.length ∧
    (∀ m, hAt (delHn sl pid qx).2 m = hAt sl.nodes m) ∧
    (∀ m, plAt (delHn sl pid qx).2 m = plAt sl.nodes m) ∧
    (∀ k, (((delHn sl pid qx).2.getD k default)).spans.length =
      ((sl.nodes.getD k default)).spans.length) := by
  obtain ⟨hhs, hlev, hlev32, hlen, hnd, hinv⟩ := hwf
  refine foldl_setSpan_spec (delUpd sl pid) (delG sl pid qx)
    (List.range sl.level) sl.headerSpans sl.nodes (List.nodup_range sl.level)
    ?_ (delHn sl pid qx) (delHn_eq_foldl sl pid qx)
  intro j hjmem
  have hj := List.mem_range.mp hjmem
  refine ⟨fun _ => by rw [hhs]; omega,
    fun hge => ⟨delUpd_le_len sl pid j, ?_⟩⟩
  rcases delUpd_land sl pid j with h0 | hh
  · omega
  · have hmem : sl.nodes.getD (delUpd sl pid j - 1) default ∈ sl.nodes :=
      getD_mem_of_lt (by have := delUpd_le_len sl pid j; omega)
    rw [(hnd _ hmem).2.2]
    exact hh

theorem del_ns2_length (sl : GoSkipList) (pid : Int) (qx : Nat) (hwf : WFsl sl)
    (hqx1 : 1 ≤ qx) (hqxn : qx ≤ sl.nodes.length) :
    ((delHn sl pid qx).2.eraseIdx (qx - 1)).length = sl.nodes.length - 1 := by
  have hln := (delHn_spec sl pid qx hwf).2.2.1
  rw [List.length_eraseIdx_of_lt (by rw [hln]; omega), hln]

theorem del_hAt2 (sl : GoSkipList) (pid : Int) (qx : Nat) (hwf : WFsl sl)
    (hqx1 : 1 ≤ qx) (m : Nat) (hm : 1 ≤ m) :
    hAt ((delHn sl pid qx).2.eraseIdx (qx - 1)) m =
      if m < qx then hAt sl.nodes m else hAt sl.nodes (m + 1) := by
  have hh := (delHn_spec sl pid qx hwf).2.2.2.1
  unfold hAt
  rw [getD_eraseIdx]
  by_cases hc : m - 1 < qx - 1
  · rw [if_pos hc, if_pos (by omega)]
    exact hh m
  · rw [if_neg hc, if_neg (by omega)]
    have he : m - 1 + 1 = m := by omega
    rw [he]
    exact hh (m + 1)

theorem del_plAt2 (sl : GoSkipList) (pid : Int) (qx : Nat) (hwf : WFsl sl)
    (hqx1 : 1 ≤ qx) (m : Nat) (hm : 1 ≤ m) :
    plAt ((delHn sl pid qx).2.eraseIdx (qx - 1)) m =
      if m < qx then plAt sl.nodes m else plAt sl.nodes (m + 1) := by
  have hp := (delHn_spec sl pid qx hwf).2.2.2.2.1
  unfold plAt
  rw [getD_eraseIdx]
  by_cases hc : m - 1 < qx - 1
  · rw [if_pos hc, if_pos (by omega)]
    exact hp m
  · rw [if_neg hc, if_neg (by omega)]
    have he : m - 1 + 1 = m := by omega
    rw [he]
    exact hp (m + 1)

theorem del_spansLen2 (sl : GoSkipList) (pid : Int) (qx : Nat) (hwf : WFsl sl)
    (k : Nat) :
    ((((delHn sl pid qx).2.eraseIdx (qx - 1)).getD k default)).spans.length =
      if k < qx - 1 then ((sl.nodes.getD k default)).spans.length
      else ((sl.nodes.getD (k + 1) default)).spans.length := by
  have hsp := (delHn_spec sl pid qx hwf).2.2.2.2.2
  rw [getD_eraseIdx]
  by_cases hc : k < qx - 1
  · rw [if_pos hc, if_pos hc]
    exact hsp k
  · rw [if_neg hc, if_neg hc]
    exact hsp (k + 1)

theorem del_spanAt2 (sl : GoSkipList) (pid : Int) (qx : Nat) (hqx1 : 1 ≤ qx)
    (m i : Nat) :
    spanAt (delHn sl pid qx).1 ((delHn sl pid qx).2.eraseIdx (qx - 1)) m i =
      if m < qx then spanAt (delHn sl pid qx).1 (delHn sl pid qx).2 m i
      else spanAt (delHn sl pid qx).1 (delHn sl pid qx).2 (m + 1) i := by
  unfold spanAt
  by_cases hm : m = 0
  · rw [if_pos hm, if_pos (by omega), if_pos hm]
  · rw [if_neg hm, getD_eraseIdx]
    by_cases hc : m - 1 < qx - 1
    · rw [if_pos hc, if_pos (by omega), if_neg hm]
    · rw [if_neg hc, if_neg (by omega), if_neg (by omega)]
      have he : m - 1 + 1 = m := by omega
      rw [he]
      rfl

theorem del_forward_keep (sl : GoSkipList) (pid : Int) (qx : Nat)
    (hwf : WFsl sl) (hqx1 : 1 ≤ qx) (hqxn : qx ≤ sl.nodes.length) (i p f : Nat)
    (hf : forwardIdx sl.nodes i p = some f) (hflt : f < qx) :
    forwardIdx ((delHn sl pid qx).2.eraseIdx (qx - 1)) i p = some f := by
  obtain ⟨h1, h2, h3, h4⟩ := forwardIdx_eq_some_iff.mp hf
  rw [forwardIdx_eq_some_iff]
  refine ⟨h1, ?_, ?_, ?_⟩
  · rw [del_ns2_length sl pid qx hwf hqx1 hqxn]
    omega
  · rw [del_hAt2 sl pid qx hwf hqx1 f (by omega), if_pos hflt]
    exact h3
  · intro m hm1 hm2
    rw [del_hAt2 sl pid qx hwf hqx1 m (by omega), if_pos (by omega)]
    exact h4 m hm1 hm2

theorem del_forward_cross (sl : GoSkipList) (pid : Int) (qx : Nat)
    (hwf : WFsl sl) (hqx1 : 1 ≤ qx) (hqxn : qx ≤ sl.nodes.length) (i p f : Nat)
    (hp : p < qx) (hf : forwardIdx sl.nodes i p = some f) (hfgt : qx < f) :
    forwardIdx ((delHn sl pid qx).2.eraseIdx (qx - 1)) i p = some (f - 1) := by
  obtain ⟨h1, h2, h3, h4⟩ := forwardIdx_eq_some_iff.mp hf
  rw [forwardIdx_eq_some_iff]
  refine ⟨by omega, ?_, ?_, ?_⟩
  · rw [del_ns2_length sl pid qx hwf hqx1 hqxn]
    omega
  · rw [del_hAt2 sl pid qx hwf hqx1 (f - 1) (by omega), if_neg (by omega)]
    have he : f - 1 + 1 = f := by omega
    rw [he]
    exact h3
  · intro m hm1 hm2
    by_cases hmlt : m < qx
    · rw [del_hAt2 sl pid qx hwf hqx1 m (by omega), if_pos hmlt]
      exact h4 m hm1 (by omega)
    · rw [del_hAt2 sl pid qx hwf hqx1 m (by omega), if_neg hmlt]
      exact h4 (m + 1) (by omega) (by omega)

theorem del_forward_none (sl : GoSkipList) (pid : Int) (qx : Nat)
    (hwf : WFsl sl) (hqx1 : 1 ≤ qx) (hqxn : qx ≤ sl.nodes.length) (i p : Nat)
    (hf : forwardIdx sl.nodes i p = none) :
    forwardIdx ((delHn sl pid qx).2.eraseIdx (qx - 1)) i p = none := by
  have h4 := forwardIdx_eq_none_iff.mp hf
  rw [forwardIdx_eq_none_iff]
  intro m hm1 hm2
  rw [del_ns2_length sl pid qx hwf hqx1 hqxn] at hm2
  by_cases hmlt : m < qx
  · rw [del_hAt2 sl pid qx hwf hqx1 m (by omega), if_pos hmlt]
    exact h4 m hm1 (by omega)
  · rw [del_hAt2 sl pid qx hwf hqx1 m (by omega), if_neg hmlt]
    exact h4 (m + 1) (by omega) (by omega)

theorem del_forward_absorb_some (sl : GoSkipList) (pid : Int) (qx : Nat)
    (hwf : WFsl sl) (hqx1 : 1 ≤ qx) (hqxn : qx ≤ sl.nodes.length) (i u f2 : Nat)
    (hu : forwardIdx sl.nodes i u = some qx)
    (hf2 : forwardIdx sl.nodes i qx = some f2) :
    forwardIdx ((delHn sl pid qx).2.eraseIdx (qx - 1)) i u = some (f2 - 1) := by
  obtain ⟨hu1, hu2, hu3, hu4⟩ := forwardIdx_eq_some_iff.mp hu
  obtain ⟨hg1, hg2, hg3, hg4⟩ := forwardIdx_eq_some_iff.mp hf2
  rw [forwardIdx_eq_some_iff]
  refine ⟨by omega, ?_, ?_, ?_⟩
  · rw [del_ns2_length sl pid qx hwf hqx1 hqxn]
    omega
  · rw [del_hAt2 sl pid qx hwf hqx1 (f2 - 1) (by omega), if_neg (by omega)]
    have he : f2 - 1 + 1 = f2 := by omega
    rw [he]
    exact hg3
  · intro m hm1 hm2
    by_cases hmlt : m < qx
    · rw [del_hAt2 sl pid qx hwf hqx1 m (by omega), if_pos hmlt]
      exact hu4 m hm1 hmlt
    · rw [del_hAt2 sl pid qx hwf hqx1 m (by omega), if_neg hmlt]
      exact hg4 (m + 1) (by omega) (by omega)

theorem del_forward_absorb_none (sl : GoSkipList) (pid : Int) (qx : Nat)
    (hwf : WFsl sl) (hqx1 : 1 ≤ qx) (hqxn : qx ≤ sl.nodes.length) (i u : Nat)
    (hu : forwardIdx sl.nodes i u = some qx)
    (hf2 : forwardIdx sl.nodes i qx = none) :
    forwardIdx ((delHn sl pid qx).2.eraseIdx (qx - 1)) i u = none := by
  obtain ⟨hu1, hu2, hu3, hu4⟩ := forwardIdx_eq_some_iff.mp hu
  have h4 := forwardIdx_eq_none_iff.mp hf2
  rw [forwardIdx_eq_none_iff]
  intro m hm1 hm2
  rw [del_ns2_length sl pid qx hwf hqx1 hqxn] at hm2
  by_cases hmlt : m < qx
  · rw [del_hAt2 sl pid qx hwf hqx1 m (by omega), if_pos hmlt]
    exact hu4 m hm1 hmlt
  · rw [del_hAt2 sl pid qx hwf hqx1 m (by omega), if_neg hmlt]
    exact h4 (m + 1) (by omega) (by omega)

theorem del_forward_hi_some (sl : GoSkipList) (pid : Int) (qx : Nat)
    (hwf : WFsl sl) (hqx1 : 1 ≤ qx) (hqxn : qx ≤ sl.nodes.length) (i p f : Nat)
    (hp : qx ≤ p) (hf : forwardIdx sl.nodes i (p + 1) = some f) :
    forwardIdx ((delHn sl pid qx).2.eraseIdx (qx - 1)) i p = some (f - 1) := by
  obtain ⟨h1, h2, h3, h4⟩ := forwardIdx_eq_some_iff.mp hf
  rw [forwardIdx_eq_some_iff]
  refine ⟨by omega, ?_, ?_, ?_⟩
  · rw [del_ns2_length sl pid qx hwf hqx1 hqxn]
    omega
  · rw [del_hAt2 sl pid qx hwf hqx1 (f - 1) (by omega), if_neg (by omega)]
    have he : f - 1 + 1 = f := by omega
    rw [he]
    exact h3
  · intro m hm1 hm2
    rw [del_hAt2 sl pid qx hwf hqx1 m (by omega), if_neg (by omega)]
    exact h4 (m + 1) (by omega) (by omega)

theorem del_forward_hi_none (sl : GoSkipList) (pid : Int) (qx : Nat)
    (hwf : WFsl sl) (hqx1 : 1 ≤ qx) (hqxn : qx ≤ sl.nodes.length) (i p : Nat)
    (hp : qx ≤ p) (hf : forwardIdx sl.nodes i (p + 1) = none) :
    forwardIdx ((delHn sl pid qx).2.eraseIdx (qx - 1)) i p = none := by
  have h4 := forwardIdx_eq_none_iff.mp hf
  rw [forwardIdx_eq_none_iff]
  intro m hm1 hm2
  rw [del_ns2_length sl pid qx hwf hqx1 hqxn] at hm2
  rw [del_hAt2 sl pid qx hwf hqx1 m (by omega), if_neg (by omega)]
  exact h4 (m + 1) (by omega) (by omega)

theorem shrinkLevel_le (ns : List SLNode) : ∀ l, shrinkLevel ns l ≤ l := by
  intro l
  induction l with
  | zero => exact le_refl 0
  | succ k ih =>
    cases k with
    | zero => exact le_refl 1
    | succ k2 =>
      rw [shrinkLevel]
      by_cases hc : forwardIdx ns (k2 + 1) 0 = none
      · rw [if_pos hc]
        exact le_trans ih (by omega)
      · rw [if_neg hc]

theorem shrinkLevel_pos (ns : List SLNode) : ∀ l, 1 ≤ l → 1 ≤ shrinkLevel ns l := by
  intro l
  induction l with
  | zero => intro h; omega
  | succ k ih =>
    intro _
    cases k with
    | zero => exact le_refl 1
    | succ k2 =>
      rw [shrinkLevel]
      by_cases hc : forwardIdx ns (k2 + 1) 0 = none
      · rw [if_pos hc]
        exact ih (by omega)
      · rw [if_neg hc]
        omega

theorem shrinkLevel_none_above (ns : List SLNode) :
    ∀ l j, shrinkLevel ns l ≤ j → j < l → forwardIdx ns j 0 = none := by
  intro l
  induction l with
  | zero => intro j h1 h2; omega
  | succ k ih =>
    intro j h1 h2
    cases k with
    | zero =>
      rw [show shrinkLevel ns 1 = 1 from rfl] at h1
      omega
    | succ k2 =>
      rw [shrinkLevel] at h1
      by_cases hc : forwardIdx ns (k2 + 1) 0 = none
      · rw [if_pos hc] at h1
        by_cases hj : j = k2 + 1
        · rw [hj]
          exact hc
        · exact ih j h1 (by omega)
      · rw [if_neg hc] at h1
        omega

/-- Every node height is bounded by the shrunk level: the shrink loop only
drops levels whose header forward pointer is nil. -/
theorem heights_le_shrink (ns : List SLNode) (l : Nat)
    (hle : ∀ m, 1 ≤ m → m ≤ ns.length → hAt ns m ≤ l) (m : Nat) (hm : 1 ≤ m)
    (hmn : m ≤ ns.length) : hAt ns m ≤ shrinkLevel ns l := by
  by_contra hgt
  have hs_le := shrinkLevel_le ns l
  have hml := hle m hm hmn
  have hnone := shrinkLevel_none_above ns l (hAt ns m - 1) (by omega) (by omega)
  have := forwardIdx_eq_none_iff.mp hnone m (by omega) hmn
  omega

theorem src_le_delUpd (sl : GoSkipList) (pid : Int) (hwf : WFsl sl)
    (i p : Nat) (hsrc : p = 0 ∨ i < hAt sl.nodes p)
    (hle : p ≤ delUpd sl pid 0) : p ≤ delUpd sl pid i := by
  by_contra hgt
  rcases hsrc with rfl | hch
  · omega
  · exact delUpd_no_chain sl pid hwf i p (by omega) hle hch

theorem src_forward_below_del (sl : GoSkipList) (pid : Int) (hwf : WFsl sl)
    (i p : Nat) (hlt : p < delUpd sl pid i) :
    ∃ f, forwardIdx sl.nodes i p = some f ∧ f ≤ delUpd sl pid i := by
  have hPiland := delUpd_land sl pid i
  have hPich : i < hAt sl.nodes (delUpd sl pid i) := by
    rcases hPiland with h0 | hh
    · omega
    · exact hh
  have hPilen : delUpd sl pid i ≤ sl.nodes.length := delUpd_le_len sl pid i
  cases hf : forwardIdx sl.nodes i p with
  | none =>
    exact absurd hPich (forwardIdx_eq_none_iff.mp hf _ hlt hPilen)
  | some f =>
    obtain ⟨h1, h2, h3, h4⟩ := forwardIdx_eq_some_iff.mp hf
    refine ⟨f, rfl, ?_⟩
    by_contra hgt
    exact h4 _ hlt (by omega) hPich

/-- `deleteNode` preserves well-formedness: the span merges and decrements
keep the span invariant at every level (including those above the victim's
height), and the level shrink keeps all heights bounded. -/
theorem deleteNode_WF (sl : GoSkipList) (pid : Int) (hwf : WFsl sl) :
    WFsl (deleteNode sl pid).1 := by
  obtain ⟨hhs, hlev, hlev32, hlen, hnd, hinv⟩ := hwf
  have hwf' : WFsl sl := ⟨hhs, hlev, hlev32, hlen, hnd, hinv⟩
  unfold deleteNode
  cases hqx : forwardIdx sl.nodes 0 (delUpd sl pid 0) with
  | none => exact hwf'
  | some qx =>
    dsimp only
    by_cases hid : (sl.nodes.getD (qx - 1) default).player.id = pid
    · rw [if_pos hid]
      obtain ⟨hspec, hlh, hln, hh, hp, hsp⟩ := delHn_spec sl pid qx hwf'
      have hsucc := delete_victim_succ sl pid hwf' qx hqx
      obtain ⟨hq1, hq2, -, -⟩ := forwardIdx_eq_some_iff.mp hqx
      have hqx1 : 1 ≤ qx := by omega
      have hqxn : qx ≤ sl.nodes.length := hq2
      have hlen2 := del_ns2_length sl pid qx hwf' hqx1 hqxn
      have hu0 : delUpd sl pid 0 = qx - 1 := by omega
      have hu0len := delUpd_le_len sl pid 0
      have hAt_old : ∀ m, 1 ≤ m → m ≤ sl.nodes.length →
          1 ≤ hAt sl.nodes m ∧ hAt sl.nodes m ≤ sl.level := by
        intro m hm hmn
        have := hnd _ (getD_mem_of_lt (show m - 1 < sl.nodes.length by omega))
        exact ⟨this.1, this.2.1⟩
      have hle2 : ∀ m, 1 ≤ m →
          m ≤ ((delHn sl pid qx).2.eraseIdx (qx - 1)).length →
          hAt ((delHn sl pid qx).2.eraseIdx (qx - 1)) m ≤ sl.level := by
        intro m hm hmn
        rw [hlen2] at hmn
        rw [del_hAt2 sl pid qx hwf' hqx1 m hm]
        by_cases hmlt : m < qx
        · rw [if_pos hmlt]
          exact (hAt_old m hm (by omega)).2
        · rw [if_neg hmlt]
          exact (hAt_old (m + 1) (by omega) (by omega)).2
      refine ⟨hlh.trans hhs, shrinkLevel_pos _ _ hlev,
        le_trans (shrinkLevel_le _ _) hlev32, ?_, ?_, ?_⟩
      · show sl.length - 1 = (((delHn sl pid qx).2.eraseIdx (qx - 1)).length : Int)
        rw [hlen2, hlen]
        omega
      · intro nd hmem
        rw [List.mem_iff_getElem] at hmem
        obtain ⟨k, hk, hnd'⟩ := hmem
        have hkD : ((delHn sl pid qx).2.eraseIdx (qx - 1)).getD k default = nd := by
          rw [List.getD_eq_getElem?_getD, List.getElem?_eq_getElem hk, hnd']
          rfl
        rw [hlen2] at hk
        have hhk : nd.height = hAt ((delHn sl pid qx).2.eraseIdx (qx - 1)) (k + 1) := by
          rw [← hkD]
          rfl
        refine ⟨?_, ?_, ?_⟩
        · rw [hhk, del_hAt2 sl pid qx hwf' hqx1 (k + 1) (by omega)]
          by_cases hmlt : k + 1 < qx
          · rw [if_pos hmlt]
            exact (hAt_old (k + 1) (by omega) (by omega)).1
          · rw [if_neg hmlt]
            exact (hAt_old (k + 1 + 1) (by omega) (by omega)).1
        · rw [hhk]
          exact heights_le_shrink _ _ hle2 (k + 1) (by omega) (by rw [hlen2]; omega)
        · rw [hhk, ← hkD, del_spansLen2 sl pid qx hwf' k,
            del_hAt2 sl pid qx hwf' hqx1 (k + 1) (by omega)]
          by_cases hmlt : k + 1 < qx
          · rw [if_pos (by omega), if_pos hmlt]
            exact (hnd _ (getD_mem_of_lt (show k < sl.nodes.length by omega))).2.2
          · rw [if_neg (by omega), if_neg hmlt]
            exact (hnd _ (getD_mem_of_lt (show k + 1 < sl.nodes.length by omega))).2.2
      · intro p hpb i hi32 hsrc
        rw [hlen2] at hpb
        by_cases hilev : i < sl.level
        · by_cases hplo : p ≤ delUpd sl pid 0
          · -- at or below the level-0 stop, i.e. strictly below the victim
            have hsrc_old : p = 0 ∨ i < hAt sl.nodes p := by
              rcases hsrc with h0 | hch
              · exact Or.inl h0
              · by_cases hp0 : p = 0
                · exact Or.inl hp0
                · right
                  rw [del_hAt2 sl pid qx hwf' hqx1 p (by omega),
                    if_pos (by omega)] at hch
                  exact hch
            have hple : p ≤ delUpd sl pid i :=
              src_le_delUpd sl pid hwf' i p hsrc_old hplo
            by_cases hpPi : p = delUpd sl pid i
            · by_cases htest : forwardIdx sl.nodes i (delUpd sl pid i) = some qx
              · -- edge into the victim: absorbs the victim's span minus one
                have hqch : i < hAt sl.nodes qx :=
                  (forwardIdx_eq_some_iff.mp htest).2.2.1
                have hspanv : spanAt (delHn sl pid qx).1
                    ((delHn sl pid qx).2.eraseIdx (qx - 1)) p i =
                      spanAt sl.headerSpans sl.nodes (delUpd sl pid i) i +
                        ((sl.nodes.getD (qx - 1) default).spans.getD i 0 - 1) := by
                  rw [del_spanAt2 sl pid qx hqx1 p i, if_pos (by omega), hspec p i,
                    if_pos ⟨List.mem_range.mpr hilev, hpPi⟩]
                  unfold delG
                  rw [if_pos htest]
                cases hf2 : forwardIdx sl.nodes i qx with
                | none =>
                  exact edgeOkB_of_none (del_forward_absorb_none sl pid qx hwf'
                    hqx1 hqxn i p (by rw [hpPi]; exact htest) hf2)
                | some f2 =>
                  obtain ⟨hg1, hg2, hg3, -⟩ := forwardIdx_eq_some_iff.mp hf2
                  refine edgeOkB_of_some (del_forward_absorb_some sl pid qx hwf'
                    hqx1 hqxn i p f2 (by rw [hpPi]; exact htest) hf2) ?_
                  have hxspan : ((sl.nodes.getD (qx - 1) default).spans.getD i 0) =
                      spanAt sl.headerSpans sl.nodes qx i := by
                    unfold spanAt
                    rw [if_neg (by omega)]
                  rw [hspanv, hxspan,
                    spanInv_edge hinv hqxn hi32 (Or.inr hqch) hf2,
                    spanInv_edge hinv (delUpd_le_len sl pid i) hi32
                      (delUpd_land sl pid i) htest]
                  omega
              · rcases delUpd_stop sl pid i hilev with hnone | ⟨f, hf, hfid⟩
                · exact edgeOkB_of_none (del_forward_none sl pid qx hwf'
                    hqx1 hqxn i p (by rw [hpPi]; exact hnone))
                · obtain ⟨hf1, hf2b, hf3, -⟩ := forwardIdx_eq_some_iff.mp hf
                  have hfgtu0 : delUpd sl pid 0 < f := by
                    by_contra hle
                    exact delUpd_no_chain sl pid hwf' i f hf1 (by omega) hf3
                  have hfne : f ≠ qx := fun he => htest (he ▸ hf)
                  have hfgt : qx < f := by omega
                  refine edgeOkB_of_some (del_forward_cross sl pid qx hwf'
                    hqx1 hqxn i p f (by omega) (by rw [hpPi]; exact hf) hfgt) ?_
                  rw [del_spanAt2 sl pid qx hqx1 p i, if_pos (by omega), hspec p i,
                    if_pos ⟨List.mem_range.mpr hilev, hpPi⟩]
                  unfold delG
                  rw [if_neg htest, hpPi,
                    spanInv_edge hinv (delUpd_le_len sl pid i) hi32
                      (delUpd_land sl pid i) hf]
                  omega
            · -- strictly below the level-i stop: the old edge survives
              have hplt : p < delUpd sl pid i := by omega
              obtain ⟨f, hf, hfle⟩ := src_forward_below_del sl pid hwf' i p hplt
              have hfqx : f < qx := by
                have := delUpd_le_zeroth sl pid hlev i
                omega
              refine edgeOkB_of_some (del_forward_keep sl pid qx hwf'
                hqx1 hqxn i p f hf hfqx) ?_
              rw [del_spanAt2 sl pid qx hqx1 p i, if_pos (by omega), hspec p i,
                if_neg (by rintro ⟨-, hpe⟩; omega),
                spanInv_edge hinv (by omega) hi32 hsrc_old hf]
          · -- at or past the victim: the shifted old edge
            have hpge : qx ≤ p := by omega
            have hsrc2 : i < hAt sl.nodes (p + 1) := by
              rcases hsrc with h0 | hch
              · omega
              · rw [del_hAt2 sl pid qx hwf' hqx1 p (by omega),
                  if_neg (by omega)] at hch
                exact hch
            cases hf : forwardIdx sl.nodes i (p + 1) with
            | none =>
              exact edgeOkB_of_none (del_forward_hi_none sl pid qx hwf'
                hqx1 hqxn i p hpge hf)
            | some f =>
              obtain ⟨hf1, hf2b, hf3, -⟩ := forwardIdx_eq_some_iff.mp hf
              refine edgeOkB_of_some (del_forward_hi_some sl pid qx hwf'
                hqx1 hqxn i p f hpge hf) ?_
              rw [del_spanAt2 sl pid qx hqx1 p i, if_neg (by omega),
                hspec (p + 1) i,
                if_neg (by
                  rintro ⟨-, hpe⟩
                  have := delUpd_le_zeroth sl pid hlev i
                  omega),
                spanInv_edge hinv (by omega) hi32 (Or.inr hsrc2) hf]
              omega
        · -- a level above the old list level: no chain nodes at all
          have hfall : forwardIdx sl.nodes i 0 = none := by
            rw [forwardIdx_eq_none_iff]
            intro m hm1 hm2
            have := hAt_le_level sl hwf' m (by omega) hm2
            omega
          by_cases hp0 : p = 0
          · rw [hp0]
            exact edgeOkB_of_none (del_forward_none sl pid qx hwf'
              hqx1 hqxn i 0 hfall)
          · exfalso
            have hch : i < hAt ((delHn sl pid qx).2.eraseIdx (qx - 1)) p :=
              hsrc.resolve_left hp0
            rw [del_hAt2 sl pid qx hwf' hqx1 p (by omega)] at hch
            by_cases hmlt : p < qx
            · rw [if_pos hmlt] at hch
              have := hAt_le_level sl hwf' p (by omega) (by omega)
              omega
            · rw [if_neg hmlt] at hch
              have := hAt_le_level sl hwf' (p + 1) (by omega) (by omega)
              omega
    · rw [if_neg hid]
      exact hwf'

theorem NewSkipList_WF : WFsl NewSkipList := by decide

theorem SLReachable_WF (sl : GoSkipList) (h : SLReachable sl) : WFsl sl := by
  induction h with
  | empty => exact NewSkipList_WF
  | insert sl pl lvl hre h1 h2 ih => exact insertNode_WF sl pl lvl ih h1 h2
  | delete sl pid hre ih => exact deleteNode_WF sl pid ih

/-- A traversal of the skip list from the header: `SLPath hs ns i p s`
holds when, starting at the header at some level, one can reach position
`p` at level `i` with accumulated span sum `s` by descending levels and
following forward pointers (adding the stored span of each pointer
taken). -/
inductive SLPath (hs : List Int) (ns : List SLNode) : Nat → Nat → Int → Prop where
  | init (i : Nat) : SLPath hs ns i 0 0
  | down {i p : Nat} {s : Int} : SLPath hs ns (i + 1) p s → SLPath hs ns i p s
  | fwd {i p q : Nat} {s : Int} : SLPath hs ns i p s →
      forwardIdx ns i p = some q → SLPath hs ns i q (s + spanAt hs ns p i)

/-- Under the span invariant, the span sum accumulated along any header
path equals the position reached, and every stop is the header or a node
tall enough for the current level. -/
theorem SLPath_rank {hs : List Int} {ns : List SLNode}
    (hinv : spanInv hs ns) (hh32 : ∀ nd ∈ ns, nd.height ≤ maxSkipListLevel) :
    ∀ {i p : Nat} {s : Int}, SLPath hs ns i p s →
      s = (p : Int) ∧ (p = 0 ∨ i < hAt ns p) := by
  intro i p s hpath
  induction hpath with
  | init j => exact ⟨rfl, Or.inl rfl⟩
  | @down j pp ss hprev ih =>
    obtain ⟨hs_eq, hsrc⟩ := ih
    refine ⟨hs_eq, ?_⟩
    rcases hsrc with h0 | hc
    · exact Or.inl h0
    · exact Or.inr (by omega)
  | @fwd j pp qq ss hprev hq ih =>
    obtain ⟨hs_eq, hsrc⟩ := ih
    obtain ⟨h1, h2, h3, -⟩ := forwardIdx_eq_some_iff.mp hq
    have hi32 : j < maxSkipListLevel := by
      have := hAt_le_max hh32 (by omega) h2
      omega
    refine ⟨?_, Or.inr h3⟩
    rw [hs_eq, spanInv_edge hinv (by omega) hi32 hsrc hq]
    ring

/-- C2: for every skip list reachable from the empty list by any sequence
of `insertNode` and `deleteNode` calls, and for every node and every
level: the sum of the span fields along any path from the header down to
that node equals the node's 1-based rank (its position); in particular
both `insertNode` and `deleteNode` preserve the span invariant, including
at the levels above the affected node's own height. -/
theorem skiplist_span_invariant (sl : GoSkipList) (hre : SLReachable sl)
    (i p : Nat) (s : Int)
    (hpath : SLPath sl.headerSpans sl.nodes i p s) : s = (p : Int) := by
  have hwf := SLReachable_WF sl hre
  obtain ⟨-, -, hlev32, -, hnd, hinv⟩ := hwf
  exact (SLPath_rank hinv (fun nd hm => le_trans (hnd nd hm).2.1 hlev32) hpath).1

theorem skiplist_span_invariant_witness :
    SLReachable (insertNode NewSkipList ⟨1, 10, 0, 0⟩ 1) ∧
      0 + spanAt (insertNode NewSkipList ⟨1, 10, 0, 0⟩ 1).headerSpans
          (insertNode NewSkipList ⟨1, 10, 0, 0⟩ 1).nodes 0 0 = ((1 : Nat) : Int) := by
  have hre : SLReachable (insertNode NewSkipList ⟨1, 10, 0, 0⟩ 1) :=
    SLReachable.insert _ _ _ SLReachable.empty (by omega) (by decide)
  have hz : (insUpd NewSkipList ⟨1, 10, 0, 0⟩ 0).1 = 0 :=
    Nat.le_zero.mp (insUpd_le_len NewSkipList ⟨1, 10, 0, 0⟩ 0)
  have hf := ins_forward_to_new NewSkipList ⟨1, 10, 0, 0⟩ 1 NewSkipList_WF
    (by decide) 0 0 (by omega) (by omega)
    (fun m hm1 hm2 => by rw [hz] at hm2; omega)
  rw [hz] at hf
  exact ⟨hre, skiplist_span_invariant _ hre 0 (0 + 1) _
    (SLPath.fwd (SLPath.init 0) hf)⟩

/-- The search loop of `SkipList.Delete` dereferences the nil header
player as soon as any level has a non-nil forward pointer; starting from
the header this happens whenever the level-0 chain is non-empty. -/
theorem deleteFindLoop_err (ns : List SLNode) (q : Nat)
    (h0 : forwardIdx ns 0 0 = some q) :
    ∀ L, 1 ≤ L → deleteFindLoop ns L 0 = .error .nilPlayerDeref := by
  intro L
  induction L with
  | zero => omega
  | succ i ih =>
    intro _
    cases hf : forwardIdx ns i 0 with
    | some q2 => simp [deleteFindLoop, hf]
    | none =>
      have hi : 1 ≤ i := by
        rcases Nat.eq_zero_or_pos i with rfl | h
        · rw [h0] at hf
          cases hf
        · exact h
      simp only [deleteFindLoop, hf]
      exact ih hi

/-- C1 (code bug): on every non-empty reachable skip list (in particular
any non-empty list created by `NewSkipList` and filled by inserts),
`SkipList.Delete` panics with a nil-`Player` dereference for every target
id: its loop guard reads `sl.header.Player.Score` while
`NewSkipList` leaves `header.Player` nil, so the traversal never reaches
the id comparison and no node is ever removed. -/
theorem skiplist_delete_nil_deref (sl : GoSkipList) (hre : SLReachable sl)
    (hne : 1 ≤ sl.nodes.length) (pid : Int) :
    GoSkipList.Delete sl pid = .error .nilPlayerDeref := by
  have hwf := SLReachable_WF sl hre
  obtain ⟨-, hlev, -, -, hnd, -⟩ := hwf
  have hq : ∃ q, forwardIdx sl.nodes 0 0 = some q := by
    cases hf : forwardIdx sl.nodes 0 0 with
    | some q => exact ⟨q, rfl⟩
    | none =>
      exfalso
      have hno := forwardIdx_eq_none_iff.mp hf 1 (by omega) hne
      exact hno (hnd _ (getD_mem_of_lt (show 1 - 1 < sl.nodes.length by omega))).1
  obtain ⟨q, hq⟩ := hq
  unfold GoSkipList.Delete
  rw [deleteFindLoop_err sl.nodes q hq sl.level hlev]

theorem skiplist_delete_nil_deref_witness :
    SLReachable (insertNode NewSkipList ⟨1, 10, 0, 0⟩ 1) ∧
      1 ≤ (insertNode NewSkipList ⟨1, 10, 0, 0⟩ 1).nodes.length ∧
      GoSkipList.Delete (insertNode NewSkipList ⟨1, 10, 0, 0⟩ 1) 1 =
        .error .nilPlayerDeref := by
  have hre : SLReachable (insertNode NewSkipList ⟨1, 10, 0, 0⟩ 1) :=
    SLReachable.insert _ _ _ SLReachable.empty (by omega) (by decide)
  have hlen : (insertNode NewSkipList ⟨1, 10, 0, 0⟩ 1).nodes.length = 1 :=
    insertNode_nodes_length NewSkipList ⟨1, 10, 0, 0⟩ 1 NewSkipList_WF (by decide)
  exact ⟨hre, by omega,
    skiplist_delete_nil_deref _ hre (by omega) 1⟩

/-! ### GetRange: totality and bounds -/

theorem forward0_succ (ns : List SLNode) (hnd1 : ∀ nd ∈ ns, 1 ≤ nd.height)
    (p f : Nat) (hf : forwardIdx ns 0 p = some f) : f = p + 1 := by
  obtain ⟨h1, h2, -, h4⟩ := forwardIdx_eq_some_iff.mp hf
  by_contra hne
  have hnc := h4 (p + 1) (by omega) (by omega)
  exact hnc (hnd1 _ (getD_mem_of_lt (show p + 1 - 1 < ns.length by omega)))

theorem rangeWalk_facts (hs : List Int) (ns : List SLNode)
    (hinv : spanInv hs ns) (start : Int) (i : Nat) (hi : i < maxSkipListLevel)
    (p : Nat) (tr : Int) (hp : p ≤ ns.length) (hsrc : p = 0 ∨ i < hAt ns p)
    (htr : tr = (p : Int)) :
    (rangeWalk hs ns start i p tr).2 = ((rangeWalk hs ns start i p tr).1 : Int) ∧
    (rangeWalk hs ns start i p tr).1 ≤ ns.length ∧
    (forwardIdx ns i (rangeWalk hs ns start i p tr).1 = none ∨
      ¬ (rangeWalk hs ns start i p tr).2 +
          spanAt hs ns (rangeWalk hs ns start i p tr).1 i < start) ∧
    ((rangeWalk hs ns start i p tr).1 = 0 ∨
      i < hAt ns (rangeWalk hs ns start i p tr).1) := by
  rw [rangeWalk]
  split
  · next hf => exact ⟨htr, hp, Or.inl hf, hsrc⟩
  · next q hf =>
    split
    · next hlt =>
      have hb := forwardIdx_bounds hf
      have hq3 : i < hAt ns q := (forwardIdx_eq_some_iff.mp hf).2.2.1
      have hspan := spanInv_edge hinv hp hi hsrc hf
      exact rangeWalk_facts hs ns hinv start i hi q (tr + spanAt hs ns p i)
        hb.2 (Or.inr hq3) (by rw [htr, hspan]; ring)
    · next hnlt => exact ⟨htr, hp, Or.inr hnlt, hsrc⟩
termination_by ns.length - p
decreasing_by omega

theorem rangeWalkLe_facts (hs : List Int) (ns : List SLNode)
    (hinv : spanInv hs ns) (start : Int) (i : Nat) (hi : i < maxSkipListLevel)
    (p : Nat) (tr : Int) (hp : p ≤ ns.length) (hsrc : p = 0 ∨ i < hAt ns p)
    (htr : tr = (p : Int)) :
    (rangeWalkLe hs ns start i p tr).2 = ((rangeWalkLe hs ns start i p tr).1 : Int) ∧
    (rangeWalkLe hs ns start i p tr).1 ≤ ns.length ∧
    (forwardIdx ns i (rangeWalkLe hs ns start i p tr).1 = none ∨
      ¬ (rangeWalkLe hs ns start i p tr).2 +
          spanAt hs ns (rangeWalkLe hs ns start i p tr).1 i ≤ start) ∧
    ((rangeWalkLe hs ns start i p tr).1 = 0 ∨
      i < hAt ns (rangeWalkLe hs ns start i p tr).1) := by
  rw [rangeWalkLe]
  split
  · next hf => exact ⟨htr, hp, Or.inl hf, hsrc⟩
  · next q hf =>
    split
    · next hlt =>
      have hb := forwardIdx_bounds hf
      have hq3 : i < hAt ns q := (forwardIdx_eq_some_iff.mp hf).2.2.1
      have hspan := spanInv_edge hinv hp hi hsrc hf
      exact rangeWalkLe_facts hs ns hinv start i hi q (tr + spanAt hs ns p i)
        hb.2 (Or.inr hq3) (by rw [htr, hspan]; ring)
    · next hnlt => exact ⟨htr, hp, Or.inr hnlt, hsrc⟩
termination_by ns.length - p
decreasing_by omega

theorem rangeDescend_facts (hs : List Int) (ns : List SLNode)
    (hinv : spanInv hs ns) (start : Int) :
    ∀ (L p : Nat) (tr : Int), 1 ≤ L → L ≤ maxSkipListLevel → p ≤ ns.length →
      (p = 0 ∨ L ≤ hAt ns p) → tr = (p : Int) →
      (rangeDescend hs ns start L p tr).2 =
        ((rangeDescend hs ns start L p tr).1 : Int) ∧
      (rangeDescend hs ns start L p tr).1 ≤ ns.length ∧
      (forwardIdx ns 0 (rangeDescend hs ns start L p tr).1 = none ∨
        ¬ (rangeDescend hs ns start L p tr).2 +
            spanAt hs ns (rangeDescend hs ns start L p tr).1 0 < start) ∧
      ((rangeDescend hs ns start L p tr).1 = 0 ∨
        0 < hAt ns (rangeDescend hs ns start L p tr).1) := by
  intro L
  induction L with
  | zero => intro p tr h1; omega
  | succ l ih =>
    intro p tr h1 h32 hp hsrc htr
    have hsrc' : p = 0 ∨ l < hAt ns p := by
      rcases hsrc with h0 | hc
      · exact Or.inl h0
      · exact Or.inr (by omega)
    obtain ⟨w2, wlen, wstop, wsrc⟩ :=
      rangeWalk_facts hs ns hinv start l (by omega) p tr hp hsrc' htr
    have hstep : rangeDescend hs ns start (l + 1) p tr =
        rangeDescend hs ns start l (rangeWalk hs ns start l p tr).1
          (rangeWalk hs ns start l p tr).2 := rfl
    cases l with
    | zero =>
      rw [hstep]
      exact ⟨w2, wlen, wstop, wsrc⟩
    | succ l2 =>
      rw [hstep]
      refine ih _ _ (by omega) (by omega) wlen ?_ w2
      rcases wsrc with h0 | hc
      · exact Or.inl h0
      · exact Or.inr (by omega)

theorem rangeDescendLe_facts (hs : List Int) (ns : List SLNode)
    (hinv : spanInv hs ns) (start : Int) :
    ∀ (L p : Nat) (tr : Int), 1 ≤ L → L ≤ maxSkipListLevel → p ≤ ns.length →
      (p = 0 ∨ L ≤ hAt ns p) → tr = (p : Int) →
      (rangeDescendLe hs ns start L p tr).2 =
        ((rangeDescendLe hs ns start L p tr).1 : Int) ∧
      (rangeDescendLe hs ns start L p tr).1 ≤ ns.length ∧
      (forwardIdx ns 0 (rangeDescendLe hs ns start L p tr).1 = none ∨
        ¬ (rangeDescendLe hs ns start L p tr).2 +
            spanAt hs ns (rangeDescendLe hs ns start L p tr).1 0 ≤ start) ∧
      ((rangeDescendLe hs ns start L p tr).1 = 0 ∨
        0 < hAt ns (rangeDescendLe hs ns start L p tr).1) := by
  intro L
  induction L with
  | zero => intro p tr h1; omega
  | succ l ih =>
    intro p tr h1 h32 hp hsrc htr
    have hsrc' : p = 0 ∨ l < hAt ns p := by
      rcases hsrc with h0 | hc
      · exact Or.inl h0
      · exact Or.inr (by omega)
    obtain ⟨w2, wlen, wstop, wsrc⟩ :=
      rangeWalkLe_facts hs ns hinv start l (by omega) p tr hp hsrc' htr
    have hstep : rangeDescendLe hs ns start (l + 1) p tr =
        rangeDescendLe hs ns start l (rangeWalkLe hs ns start l p tr).1
          (rangeWalkLe hs ns start l p tr).2 := rfl
    cases l with
    | zero =>
      rw [hstep]
      exact ⟨w2, wlen, wstop, wsrc⟩
    | succ l2 =>
      rw [hstep]
      refine ih _ _ (by omega) (by omega) wlen ?_ w2
      rcases wsrc with h0 | hc
      · exact Or.inl h0
      · exact Or.inr (by omega)

theorem rangeCollect_length (ns : List SLNode) (e : Int) :
    ∀ (o : Option Nat) (rank : Int),
      ((rangeCollect ns e o rank).length : Int) ≤ max 0 (e + 1 - rank)
  | none, rank => by
    rw [rangeCollect]
    simp only [List.length_nil, Nat.cast_zero]
    exact le_max_left 0 _
  | some p, rank => by
    rw [rangeCollect]
    by_cases hr : rank ≤ e
    · rw [if_pos hr]
      have ih := rangeCollect_length ns e (forwardIdx ns 0 p) (rank + 1)
      simp only [List.length_cons]
      push_cast
      omega
    · rw [if_neg hr]
      simp only [List.length_nil, Nat.cast_zero]
      exact le_max_left 0 _
termination_by o rank => (e + 1 - rank).toNat
decreasing_by omega

/-- C9: both `GetRange` variants are total and in-bounds: a `start` below
1 is clamped to 1, an `end` above the list length is clamped to the
length, a clamped `start` exceeding the clamped `end` yields `nil`, and on
a well-formed list the result never holds more than `end − start + 1`
players (with the clamped bounds). -/
theorem getRange_bounds (sl : GoSkipList) (hwf : WFsl sl) (start e : Int) :
    ((if start < 1 then 1 else start) > (if e > sl.length then sl.length else e) →
      GetRange sl start e = [] ∧ GetRangeV sl start e = []) ∧
    (((GetRange sl start e).length : Int) ≤
      max 0 ((if e > sl.length then sl.length else e) -
        (if start < 1 then 1 else start) + 1)) ∧
    (((GetRangeV sl start e).length : Int) ≤
      max 0 ((if e > sl.length then sl.length else e) -
        (if start < 1 then 1 else start) + 1)) := by
  obtain ⟨hhs, hlev, hlev32, hlen, hnd, hinv⟩ := hwf
  have hGR : GetRange sl start e =
      if (if start < 1 then 1 else start) > (if e > sl.length then sl.length else e)
      then []
      else rangeCollect sl.nodes (if e > sl.length then sl.length else e)
        (forwardIdx sl.nodes 0
          (rangeDescend sl.headerSpans sl.nodes (if start < 1 then 1 else start)
            sl.level 0 0).1)
        ((rangeDescend sl.headerSpans sl.nodes (if start < 1 then 1 else start)
            sl.level 0 0).2 + 1) := rfl
  have hGRV : GetRangeV sl start e =
      if (if start < 1 then 1 else start) > (if e > sl.length then sl.length else e)
      then []
      else rangeCollect sl.nodes (if e > sl.length then sl.length else e)
        (forwardIdx sl.nodes 0
          (rangeDescendLe sl.headerSpans sl.nodes (if start < 1 then 1 else start)
            sl.level 0 0).1)
        ((rangeDescendLe sl.headerSpans sl.nodes (if start < 1 then 1 else start)
            sl.level 0 0).2 + 1) := rfl
  refine ⟨fun hgt => ⟨by rw [hGR, if_pos hgt], by rw [hGRV, if_pos hgt]⟩, ?_, ?_⟩
  · by_cases hgt : (if start < 1 then 1 else start) >
        (if e > sl.length then sl.length else e)
    · rw [hGR, if_pos hgt]
      simp only [List.length_nil, Nat.cast_zero]
      exact le_max_left 0 _
    · rw [hGR, if_neg hgt]
      obtain ⟨d2, dlen, dstop, dsrc⟩ := rangeDescend_facts sl.headerSpans sl.nodes
        hinv (if start < 1 then 1 else start) sl.level 0 0 hlev hlev32
        (by omega) (Or.inl rfl) (by simp)
      have hcl := rangeCollect_length sl.nodes (if e > sl.length then sl.length else e)
        (forwardIdx sl.nodes 0
          (rangeDescend sl.headerSpans sl.nodes (if start < 1 then 1 else start)
            sl.level 0 0).1)
        ((rangeDescend sl.headerSpans sl.nodes (if start < 1 then 1 else start)
            sl.level 0 0).2 + 1)
      cases hf : forwardIdx sl.nodes 0
          (rangeDescend sl.headerSpans sl.nodes (if start < 1 then 1 else start)
            sl.level 0 0).1 with
      | none =>
        rw [rangeCollect]
        simp only [List.length_nil, Nat.cast_zero]
        exact le_max_left 0 _
      | some f =>
        rcases dstop with hnone | hstop
        · rw [hnone] at hf
          cases hf
        · have hfsucc := forward0_succ sl.nodes (fun nd hm => (hnd nd hm).1) _ f hf
          have hspan := spanInv_edge hinv dlen (by decide) dsrc hf
          rw [hf] at hcl
          rw [hspan] at hstop
          rw [d2] at hstop
          omega
  · by_cases hgt : (if start < 1 then 1 else start) >
        (if e > sl.length then sl.length else e)
    · rw [hGRV, if_pos hgt]
      simp only [List.length_nil, Nat.cast_zero]
      exact le_max_left 0 _
    · rw [hGRV, if_neg hgt]
      obtain ⟨d2, dlen, dstop, dsrc⟩ := rangeDescendLe_facts sl.headerSpans sl.nodes
        hinv (if start < 1 then 1 else start) sl.level 0 0 hlev hlev32
        (by omega) (Or.inl rfl) (by simp)
      have hcl := rangeCollect_length sl.nodes (if e > sl.length then sl.length else e)
        (forwardIdx sl.nodes 0
          (rangeDescendLe sl.headerSpans sl.nodes (if start < 1 then 1 else start)
            sl.level 0 0).1)
        ((rangeDescendLe sl.headerSpans sl.nodes (if start < 1 then 1 else start)
            sl.level 0 0).2 + 1)
      cases hf : forwardIdx sl.nodes 0
          (rangeDescendLe sl.headerSpans sl.nodes (if start < 1 then 1 else start)
            sl.level 0 0).1 with
      | none =>
        rw [rangeCollect]
        simp only [List.length_nil, Nat.cast_zero]
        exact le_max_left 0 _
      | some f =>
        rcases dstop with hnone | hstop
        · rw [hnone] at hf
          cases hf
        · have hfsucc := forward0_succ sl.nodes (fun nd hm => (hnd nd hm).1) _ f hf
          have hspan := spanInv_edge hinv dlen (by decide) dsrc hf
          rw [hf] at hcl
          rw [hspan] at hstop
          rw [d2] at hstop
          omega

theorem getRange_bounds_witness :
    WFsl NewSkipList ∧
      (((GetRange NewSkipList 0 5).length : Int) ≤
        max 0 ((if (5 : Int) > NewSkipList.length then NewSkipList.length else 5) -
          (if (0 : Int) < 1 then 1 else 0) + 1)) :=
  ⟨by decide, (getRange_bounds NewSkipList (by decide) 0 5).2.1⟩

/-! ## Hybrid leaderboard (`src/unnamed/part_014`)

The Go struct holds a mutex, channels and pointer-shared `Player` objects;
the model makes the shared mutation explicit: the player map stores values
and every in-place `player.Score = …` write is mirrored into the map and
the heap.  `time.Now()` and `randomLevel()` are passed in as explicit
`now`/`lvl` arguments at each update. -/

structure ScoreUpdate where
  playerID : Int
  score : Int
deriving DecidableEq, Repr

/-- `TopPlayersHeap.Less(i, j) = h[i].Score < h[j].Score` (a min-heap). -/
def tphLess (l : List GoPlayer) (i j : Nat) : Bool :=
  decide ((l.getD i default).score < (l.getD j default).score)

def tphSwap (l : List GoPlayer) (i j : Nat) : List GoPlayer :=
  (l.set i (l.getD j default)).set j (l.getD i default)

/-- `container/heap`'s `down(h, i, n)` loop for `TopPlayersHeap`,
returning the array and the final index. -/
def tphDown (l : List GoPlayer) (i n : Nat) : List GoPlayer × Nat :=
  let j1 := 2 * i + 1
  if h : j1 < n then
    let j := if j1 + 1 < n ∧ tphLess l (j1 + 1) j1 then j1 + 1 else j1
    if tphLess l j i then
      tphDown (tphSwap l i j) j n
    else (l, i)
  else (l, i)
termination_by n - i
decreasing_by
  split
  · next hc => omega
  · omega

/-- `container/heap`'s `up(h, j)` loop for `TopPlayersHeap`. -/
def tphUp (l : List GoPlayer) (j : Nat) : List GoPlayer :=
  let i := (j - 1) / 2
  if i = j ∨ ¬ tphLess l j i then l
  else tphUp (tphSwap l j i) i
termination_by j
decreasing_by omega

/-- `heap.Push(h, x)`: raw push then sift up from the last slot. -/
def heapPushTPH (h : TopPlayersHeap) (x : GoPlayer) : TopPlayersHeap :=
  let h1 := h.Push x
  { h1 with items := tphUp h1.items (h1.items.length - 1) }

/-- `heap.Pop(h)`: swap the root with the last slot, sift down on the
shortened prefix, then call the interface `Pop`. -/
def heapPopTPH (h : TopPlayersHeap) : Option GoPlayer × TopPlayersHeap :=
  let n := h.items.length - 1
  let l := tphSwap h.items 0 n
  let l2 := (tphDown l 0 n).1
  TopPlayersHeap.Pop { h with items := l2 }

/-- `heap.Fix(h, i)`: sift down from `i`; if nothing moved, sift up. -/
def heapFixTPH (l : List GoPlayer) (i : Nat) : List GoPlayer :=
  let dr := tphDown l i l.length
  if dr.2 > i then dr.1 else tphUp dr.1 i

/-- The Go map `map[int64]*Player`, as a first-match association list. -/
def mapGet (m : List (Int × GoPlayer)) (k : Int) : Option GoPlayer :=
  (m.find? (fun e => e.1 == k)).map (fun e => e.2)

def mapSet (m : List (Int × GoPlayer)) (k : Int) (v : GoPlayer) :
    List (Int × GoPlayer) :=
  (k, v) :: m

/-- `HybridLeaderboard`, with the channel contents (`batchUpdates`), its
closed flag and the rank cache (`limit ↦ players`, fresh entries first)
made explicit. -/
structure LBState where
  skipList : GoSkipList
  playerMap : List (Int × GoPlayer)
  topK : Nat
  topHeap : TopPlayersHeap
  topMap : List Int
  batchUpdates : List ScoreUpdate
  closed : Bool
  cache : List (Int × List GoPlayer)
  version : Int

/-- `NewHybridLeaderboard` (id/name/config carry no behaviour). -/
def NewHybridLeaderboard : LBState :=
  { skipList := NewSkipList, playerMap := [], topK := 1000,
    topHeap := { items := [], cap := 0 }, topMap := [],
    batchUpdates := [], closed := false, cache := [], version := 0 }

/-- `shouldPromoteToTop(score)`. -/
def shouldPromoteToTop (lb : LBState) (score : Int) : Bool :=
  decide (lb.topHeap.items.length < lb.topK) ||
    decide (score > (lb.topHeap.items.getD 0 default).score)

/-- `promoteToTop(player)`. -/
def promoteToTop (lb : LBState) (player : GoPlayer) : LBState :=
  let lb1 :=
    if lb.topHeap.items.length ≥ lb.topK then
      let pr := heapPopTPH lb.topHeap
      { lb with
          topHeap := pr.2
          topMap := lb.topMap.filter (fun i => !(i == (pr.1.getD default).id)) }
    else lb
  { lb1 with
      topHeap := heapPushTPH lb1.topHeap player
      topMap := player.id :: lb1.topMap }

/-- `adjustTopPlayer(player)`: the heap already holds a pointer to the
mutated player (mirrored here by the map-replace), then `heap.Fix` at its
index. -/
def adjustTopPlayer (h : TopPlayersHeap) (player : GoPlayer) : TopPlayersHeap :=
  let items1 := h.items.map (fun q => if q.id = player.id then player else q)
  match (List.range items1.length).find?
      (fun ix => (items1.getD ix default).id == player.id) with
  | some ix => { h with items := heapFixTPH items1 ix }
  | none => { h with items := items1 }

/-- `SkipList.UpdateScore(player, newScore)` (`heap.go`): delete the old
node by id and, only when that succeeded, bump score and update time and
re-insert. -/
def slUpdateScore (sl : GoSkipList) (player : GoPlayer) (newScore now : Int)
    (lvl : Nat) : GoSkipList × GoPlayer :=
  let d := deleteNode sl player.id
  if d.2 then
    let player' := { player with score := newScore, updateTime := now }
    (insertNode d.1 player' lvl, player')
  else (d.1, player)

/-- `applySingleUpdate(playerID, score)`. -/
def applySingleUpdate (lb : LBState) (playerID score now : Int) (lvl : Nat) :
    LBState :=
  match mapGet lb.playerMap playerID with
  | none =>
    let player := NewPlayer playerID score now
    let lb1 := { lb with
      playerMap := mapSet lb.playerMap playerID player
      skipList := insertNode lb.skipList player lvl }
    if shouldPromoteToTop lb1 score then promoteToTop lb1 player else lb1
  | some player =>
    let sp := slUpdateScore lb.skipList player score now lvl
    let lb1 := { lb with
      skipList := sp.1
      playerMap := mapSet lb.playerMap playerID sp.2 }
    if playerID ∈ lb1.topMap then
      { lb1 with topHeap := adjustTopPlayer lb1.topHeap sp.2 }
    else if shouldPromoteToTop lb1 score then promoteToTop lb1 sp.2
    else lb1

/-- `processBatch(updates)`: apply the batch under the write lock, bump
the version, invalidate the whole rank cache.  Each update carries its
`time.Now()` and `randomLevel()` draw. -/
def processBatch (lb : LBState) (ups : List (ScoreUpdate × Int × Nat)) :
    LBState :=
  let lb1 := ups.foldl
    (fun acc u => applySingleUpdate acc u.1.playerID u.1.score u.2.1 u.2.2) lb
  { lb1 with version := lb1.version + 1, cache := [] }

/-- `syncUpdateScore(playerID, score)`: single update under the write
lock, bump the version, invalidate the whole rank cache; always returns a
nil error. -/
def syncUpdateScore (lb : LBState) (playerID score now : Int) (lvl : Nat) :
    LBState :=
  let lb1 := applySingleUpdate lb playerID score now lvl
  { lb1 with version := lb1.version + 1, cache := [] }

/-- `UpdateScore(playerID, score)`: the `select` first considers the send
on `batchUpdates`; on a closed channel that send panics (the `default`
branch does not protect it), on a full open channel the `default` branch
runs `syncUpdateScore`.  The `Option Unit` is Go's returned `error`
(`none` = `nil`). -/
def lbUpdateScore (lb : LBState) (playerID score now : Int) (lvl : Nat) :
    Except GoPanic (LBState × Option Unit) :=
  if lb.closed then .error .sendOnClosedChannel
  else if lb.batchUpdates.length < 10000 then
    .ok ({ lb with batchUpdates := lb.batchUpdates ++ [⟨playerID, score⟩] }, none)
  else
    .ok (syncUpdateScore lb playerID score now lvl, none)

/-- `Close()`: closes the update channel. -/
def lbClose (lb : LBState) : LBState := { lb with closed := true }

/-- `RankCache.GetTopRanks(limit)` (entry freshness within the 2s TTL is
modelled as always holding — the adversarial case for staleness). -/
def cacheGet (cache : List (Int × List GoPlayer)) (limit : Int) :
    Option (List GoPlayer) :=
  (cache.find? (fun e => e.1 == limit)).map (fun e => e.2)

/-- `refreshTopRanks(limit)`: clamp to the list length, read the range
from the skip list, return rank-stamped copies and cache them under the
clamped limit. -/
def refreshTopRanks (lb : LBState) (limit : Int) : LBState × List GoPlayer :=
  let limit := if limit > lb.skipList.length then lb.skipList.length else limit
  let original := GetRange lb.skipList 1 limit
  let ranked := (List.range original.length).map (fun i =>
    ({ id := (original.getD i default).id
       score := (original.getD i default).score
       rank := (i : Int) + 1
       updateTime := (original.getD i default).updateTime } : GoPlayer))
  ({ lb with cache := (limit, ranked) :: lb.cache }, ranked)

/-- `GetTopRanks(limit)`: serve from the cache when present, else refresh. -/
def lbGetTopRanks (lb : LBState) (limit : Int) : LBState × List GoPlayer :=
  match cacheGet lb.cache limit with
  | some cached => (lb, cached)
  | none => refreshTopRanks lb limit

/-! ### Order facts about `comparePlayers` and sortedness of the list -/

theorem comparePlayers_neg (a b : GoPlayer) :
    comparePlayers b a = -comparePlayers a b := by
  unfold comparePlayers
  split_ifs <;> omega

theorem comparePlayers_zero_id (a b : GoPlayer)
    (h : comparePlayers a b = 0) : a.id = b.id := by
  unfold comparePlayers at h
  split_ifs at h <;> omega

theorem comparePlayers_pos_iff (a b : GoPlayer) :
    0 < comparePlayers a b ↔
      (b.score < a.score ∨ (a.score = b.score ∧ a.updateTime < b.updateTime) ∨
        (a.score = b.score ∧ a.updateTime = b.updateTime ∧ a.id < b.id)) := by
  unfold comparePlayers
  split_ifs <;> omega

theorem comparePlayers_trans (a b c : GoPlayer)
    (hab : 0 < comparePlayers a b) (hbc : 0 < comparePlayers b c) :
    0 < comparePlayers a c := by
  rw [comparePlayers_pos_iff] at hab hbc ⊢
  omega

theorem comparePlayers_score (a b : GoPlayer)
    (h : 0 < comparePlayers a b) : b.score ≤ a.score := by
  unfold comparePlayers at h
  split_ifs at h <;> omega

/-- The nodes are ordered by `comparePlayers`: any earlier position ranks
strictly ahead of any later one. -/
def slSorted (ns : List SLNode) : Prop :=
  ∀ m m' : Nat, 1 ≤ m → m < m' → m' ≤ ns.length →
    0 < comparePlayers (plAt ns m) (plAt ns m')

/-- All node ids are pairwise distinct. -/
def slIdsNodup (ns : List SLNode) : Prop :=
  ∀ m m' : Nat, 1 ≤ m → m < m' → m' ≤ ns.length →
    (plAt ns m).id ≠ (plAt ns m').id

theorem insUpd_cond (sl : GoSkipList) (pl : GoPlayer) (hlev : 1 ≤ sl.level) :
    (insUpd sl pl 0).1 = 0 ∨
      0 < comparePlayers (plAt sl.nodes (insUpd sl pl 0).1) pl := by
  rw [insUpd_eq_walkPath sl pl 0 (by omega)]
  rcases walkPath_land sl.headerSpans sl.nodes (insCond pl) sl.level 0 0 0
    (by omega) with h | h
  · exact Or.inl h
  · right
    have hc := h.1
    unfold insCond at hc
    exact of_decide_eq_true hc

theorem insUpd_stop (sl : GoSkipList) (pl : GoPlayer) (j : Nat)
    (hj : j < sl.level) :
    forwardIdx sl.nodes j (insUpd sl pl j).1 = none ∨
      ∃ q, forwardIdx sl.nodes j (insUpd sl pl j).1 = some q ∧
        ¬ 0 < comparePlayers (plAt sl.nodes q) pl := by
  rw [insUpd_eq_walkPath sl pl j hj]
  rcases walkPath_stop sl.headerSpans sl.nodes (insCond pl) sl.level 0 0 j hj
    with h | ⟨q, hq, hc⟩
  · exact Or.inl h
  · refine Or.inr ⟨q, hq, ?_⟩
    unfold insCond at hc
    simpa using hc

/-- Every node at or before the insertion point ranks ahead of the new
player. -/
theorem ins_prefix_cmp (sl : GoSkipList) (pl : GoPlayer) (hwf : WFsl sl)
    (hsorted : slSorted sl.nodes) (m : Nat) (hm : 1 ≤ m)
    (hle : m ≤ (insUpd sl pl 0).1) :
    0 < comparePlayers (plAt sl.nodes m) pl := by
  obtain ⟨-, hlev, -, -, -, -⟩ := hwf
  have hP0len := insUpd_le_len sl pl 0
  rcases insUpd_cond sl pl hlev with h0 | hc
  · omega
  · by_cases he : m = (insUpd sl pl 0).1
    · rw [he]
      exact hc
    · exact comparePlayers_trans _ _ _
        (hsorted m (insUpd sl pl 0).1 hm (by omega) hP0len) hc

/-- The new player ranks ahead of every node past the insertion point,
provided its id is fresh. -/
theorem ins_suffix_cmp (sl : GoSkipList) (pl : GoPlayer) (hwf : WFsl sl)
    (hsorted : slSorted sl.nodes)
    (hfresh : ∀ k, 1 ≤ k → k ≤ sl.nodes.length →
      (plAt sl.nodes k).id ≠ pl.id)
    (m : Nat) (hm : (insUpd sl pl 0).1 < m) (hle : m ≤ sl.nodes.length) :
    0 < comparePlayers pl (plAt sl.nodes m) := by
  obtain ⟨-, hlev, -, -, hnd, -⟩ := hwf
  have hP0len := insUpd_le_len sl pl 0
  rcases insUpd_stop sl pl 0 (by omega) with hnone | ⟨q, hq, hqc⟩
  · exfalso
    exact forwardIdx_eq_none_iff.mp hnone m hm hle
      (hnd _ (getD_mem_of_lt (show m - 1 < sl.nodes.length by omega))).1
  · have hq1 := forward0_succ sl.nodes (fun nd hmm => (hnd nd hmm).1) _ q hq
    have hbnds := forwardIdx_bounds hq
    have hqpl : 0 < comparePlayers pl (plAt sl.nodes q) := by
      have hneg := comparePlayers_neg (plAt sl.nodes q) pl
      have hne : comparePlayers (plAt sl.nodes q) pl ≠ 0 := by
        intro h0
        exact hfresh q (by omega) (by omega) (comparePlayers_zero_id _ _ h0)
      omega
    by_cases he : m = q
    · rw [he]
      exact hqpl
    · exact comparePlayers_trans _ _ _ hqpl
        (hsorted q m (by omega) (by omega) hle)

/-- `insertNode` of a fresh-id player keeps the list sorted. -/
theorem insertNode_sorted (sl : GoSkipList) (pl : GoPlayer) (lvl : Nat)
    (hwf : WFsl sl) (hlvl2 : lvl ≤ maxSkipListLevel)
    (hsorted : slSorted sl.nodes)
    (hfresh : ∀ k, 1 ≤ k → k ≤ sl.nodes.length →
      (plAt sl.nodes k).id ≠ pl.id) :
    slSorted (insertNode sl pl lvl).nodes := by
  intro m m' hm hmm' hm'le
  rw [insertNode_nodes_length sl pl lvl hwf hlvl2] at hm'le
  have hP0len := insUpd_le_len sl pl 0
  by_cases h1 : m ≤ (insUpd sl pl 0).1
  · rw [ins_plAt_lo sl pl lvl hwf hlvl2 m hm h1]
    by_cases h2 : m' ≤ (insUpd sl pl 0).1
    · rw [ins_plAt_lo sl pl lvl hwf hlvl2 m' (by omega) h2]
      exact hsorted m m' hm hmm' (by omega)
    · by_cases h3 : m' = (insUpd sl pl 0).1 + 1
      · rw [h3, ins_plAt_new sl pl lvl hwf hlvl2]
        exact ins_prefix_cmp sl pl hwf hsorted m hm h1
      · rw [ins_plAt_hi sl pl lvl hwf hlvl2 m' (by omega)]
        exact hsorted m (m' - 1) hm (by omega) (by omega)
  · by_cases h3 : m = (insUpd sl pl 0).1 + 1
    · rw [h3, ins_plAt_new sl pl lvl hwf hlvl2,
        ins_plAt_hi sl pl lvl hwf hlvl2 m' (by omega)]
      exact ins_suffix_cmp sl pl hwf hsorted hfresh (m' - 1) (by omega) (by omega)
    · rw [ins_plAt_hi sl pl lvl hwf hlvl2 m (by omega),
        ins_plAt_hi sl pl lvl hwf hlvl2 m' (by omega)]
      exact hsorted (m - 1) (m' - 1) (by omega) (by omega) (by omega)

/-- `insertNode` of a fresh-id player keeps the ids distinct. -/
theorem insertNode_nodup (sl : GoSkipList) (pl : GoPlayer) (lvl : Nat)
    (hwf : WFsl sl) (hlvl2 : lvl ≤ maxSkipListLevel)
    (hnodup : slIdsNodup sl.nodes)
    (hfresh : ∀ k, 1 ≤ k → k ≤ sl.nodes.length →
      (plAt sl.nodes k).id ≠ pl.id) :
    slIdsNodup (insertNode sl pl lvl).nodes := by
  intro m m' hm hmm' hm'le
  rw [insertNode_nodes_length sl pl lvl hwf hlvl2] at hm'le
  have hP0len := insUpd_le_len sl pl 0
  by_cases h1 : m ≤ (insUpd sl pl 0).1
  · rw [ins_plAt_lo sl pl lvl hwf hlvl2 m hm h1]
    by_cases h2 : m' ≤ (insUpd sl pl 0).1
    · rw [ins_plAt_lo sl pl lvl hwf hlvl2 m' (by omega) h2]
      exact hnodup m m' hm hmm' (by omega)
    · by_cases h3 : m' = (insUpd sl pl 0).1 + 1
      · rw [h3, ins_plAt_new sl pl lvl hwf hlvl2]
        exact hfresh m hm (by omega)
      · rw [ins_plAt_hi sl pl lvl hwf hlvl2 m' (by omega)]
        exact hnodup m (m' - 1) hm (by omega) (by omega)
  · by_cases h3 : m = (insUpd sl pl 0).1 + 1
    · rw [h3, ins_plAt_new sl pl lvl hwf hlvl2,
        ins_plAt_hi sl pl lvl hwf hlvl2 m' (by omega)]
      exact fun he => hfresh (m' - 1) (by omega) (by omega) he.symm
    · rw [ins_plAt_hi sl pl lvl hwf hlvl2 m (by omega),
        ins_plAt_hi sl pl lvl hwf hlvl2 m' (by omega)]
      exact hnodup (m - 1) (m' - 1) (by omega) (by omega) (by omega)

/-- Every node of the list after an insert is the new player or one of the
old nodes. -/
theorem ins_ids_sub (sl : GoSkipList) (pl : GoPlayer) (lvl : Nat)
    (hwf : WFsl sl) (hlvl2 : lvl ≤ maxSkipListLevel) (k : Nat) (hk1 : 1 ≤ k)
    (hk2 : k ≤ (insertNode sl pl lvl).nodes.length) :
    plAt (insertNode sl pl lvl).nodes k = pl ∨
      ∃ k', 1 ≤ k' ∧ k' ≤ sl.nodes.length ∧
        plAt (insertNode sl pl lvl).nodes k = plAt sl.nodes k' := by
  rw [insertNode_nodes_length sl pl lvl hwf hlvl2] at hk2
  have hP0len := insUpd_le_len sl pl 0
  by_cases h1 : k ≤ (insUpd sl pl 0).1
  · exact Or.inr ⟨k, hk1, by omega,
      ins_plAt_lo sl pl lvl hwf hlvl2 k hk1 h1⟩
  · by_cases h3 : k = (insUpd sl pl 0).1 + 1
    · rw [h3]
      exact Or.inl (ins_plAt_new sl pl lvl hwf hlvl2)
    · exact Or.inr ⟨k - 1, by omega, by omega,
        ins_plAt_hi sl pl lvl hwf hlvl2 k (by omega)⟩

theorem deleteNode_cases (sl : GoSkipList) (pid : Int) :
    deleteNode sl pid = (sl, false) ∨
      ∃ qx, forwardIdx sl.nodes 0 (delUpd sl pid 0) = some qx ∧
        (sl.nodes.getD (qx - 1) default).player.id = pid ∧
        deleteNode sl pid =
          ({ headerSpans := (delHn sl pid qx).1,
             nodes := (delHn sl pid qx).2.eraseIdx (qx - 1),
             level := shrinkLevel ((delHn sl pid qx).2.eraseIdx (qx - 1)) sl.level,
             length := sl.length - 1 }, true) := by
  unfold deleteNode
  cases hqx : forwardIdx sl.nodes 0 (delUpd sl pid 0) with
  | none => exact Or.inl rfl
  | some qx =>
    dsimp only
    by_cases hid : (sl.nodes.getD (qx - 1) default).player.id = pid
    · rw [if_pos hid]
      exact Or.inr ⟨qx, rfl, hid, rfl⟩
    · rw [if_neg hid]
      exact Or.inl rfl

theorem deleteNode_false (sl : GoSkipList) (pid : Int)
    (hd : (deleteNode sl pid).2 = false) : (deleteNode sl pid).1 = sl := by
  rcases deleteNode_cases sl pid with h | ⟨qx, hqx, hid, h⟩
  · rw [h]
  · rw [h] at hd
    simp at hd

theorem deleteNode_sorted (sl : GoSkipList) (pid : Int) (hwf : WFsl sl)
    (hsorted : slSorted sl.nodes) : slSorted (deleteNode sl pid).1.nodes := by
  rcases deleteNode_cases sl pid with h | ⟨qx, hqx, hid, h⟩
  · rw [h]
    exact hsorted
  · rw [h]
    dsimp only
    obtain ⟨hq1, hq2, -, -⟩ := forwardIdx_eq_some_iff.mp hqx
    have hqx1 : 1 ≤ qx := by omega
    intro m m' hm hmm' hm'le
    rw [del_ns2_length sl pid qx hwf hqx1 hq2] at hm'le
    rw [del_plAt2 sl pid qx hwf hqx1 m hm,
      del_plAt2 sl pid qx hwf hqx1 m' (by omega)]
    by_cases h1 : m < qx
    · rw [if_pos h1]
      by_cases h2 : m' < qx
      · rw [if_pos h2]
        exact hsorted m m' hm hmm' (by omega)
      · rw [if_neg h2]
        exact hsorted m (m' + 1) hm (by omega) (by omega)
    · rw [if_neg h1, if_neg (by omega)]
      exact hsorted (m + 1) (m' + 1) (by omega) (by omega) (by omega)

theorem deleteNode_nodup (sl : GoSkipList) (pid : Int) (hwf : WFsl sl)
    (hnodup : slIdsNodup sl.nodes) : slIdsNodup (deleteNode sl pid).1.nodes := by
  rcases deleteNode_cases sl pid with h | ⟨qx, hqx, hid, h⟩
  · rw [h]
    exact hnodup
  · rw [h]
    dsimp only
    obtain ⟨hq1, hq2, -, -⟩ := forwardIdx_eq_some_iff.mp hqx
    have hqx1 : 1 ≤ qx := by omega
    intro m m' hm hmm' hm'le
    rw [del_ns2_length sl pid qx hwf hqx1 hq2] at hm'le
    rw [del_plAt2 sl pid qx hwf hqx1 m hm,
      del_plAt2 sl pid qx hwf hqx1 m' (by omega)]
    by_cases h1 : m < qx
    · rw [if_pos h1]
      by_cases h2 : m' < qx
      · rw [if_pos h2]
        exact hnodup m m' hm hmm' (by omega)
      · rw [if_neg h2]
        exact hnodup m (m' + 1) hm (by omega) (by omega)
    · rw [if_neg h1, if_neg (by omega)]
      exact hnodup (m + 1) (m' + 1) (by omega) (by omega) (by omega)

/-- After a successful delete no remaining node carries the deleted id. -/
theorem deleteNode_fresh (sl : GoSkipList) (pid : Int) (hwf : WFsl sl)
    (hnodup : slIdsNodup sl.nodes) (hd : (deleteNode sl pid).2 = true) :
    ∀ k, 1 ≤ k → k ≤ (deleteNode sl pid).1.nodes.length →
      (plAt (deleteNode sl pid).1.nodes k).id ≠ pid := by
  rcases deleteNode_cases sl pid with h | ⟨qx, hqx, hid, h⟩
  · rw [h] at hd
    simp at hd
  · rw [h]
    dsimp only
    obtain ⟨hq1, hq2, -, -⟩ := forwardIdx_eq_some_iff.mp hqx
    have hqx1 : 1 ≤ qx := by omega
    have hvic : (plAt sl.nodes qx).id = pid := hid
    intro k hk1 hk2
    rw [del_ns2_length sl pid qx hwf hqx1 hq2] at hk2
    rw [del_plAt2 sl pid qx hwf hqx1 k hk1]
    by_cases h1 : k < qx
    · rw [if_pos h1]
      intro he
      exact hnodup k qx hk1 h1 hq2 (he.trans hvic.symm)
    · rw [if_neg h1]
      intro he
      exact hnodup qx (k + 1) hqx1 (by omega) (by omega) (hvic.trans he.symm)

/-- Every node surviving a delete was a node of the original list. -/
theorem del_pl_sub (sl : GoSkipList) (pid : Int) (hwf : WFsl sl) (k : Nat)
    (hk1 : 1 ≤ k) (hk2 : k ≤ (deleteNode sl pid).1.nodes.length) :
    ∃ k', 1 ≤ k' ∧ k' ≤ sl.nodes.length ∧
      plAt (deleteNode sl pid).1.nodes k = plAt sl.nodes k' := by
  rcases deleteNode_cases sl pid with h | ⟨qx, hqx, hid, h⟩
  · rw [h] at hk2 ⊢
    exact ⟨k, hk1, hk2, rfl⟩
  · rw [h] at hk2 ⊢
    dsimp only at hk2 ⊢
    obtain ⟨hq1, hq2, -, -⟩ := forwardIdx_eq_some_iff.mp hqx
    have hqx1 : 1 ≤ qx := by omega
    rw [del_ns2_length sl pid qx hwf hqx1 hq2] at hk2
    rw [del_plAt2 sl pid qx hwf hqx1 k hk1]
    by_cases h1 : k < qx
    · rw [if_pos h1]
      exact ⟨k, hk1, by omega, rfl⟩
    · rw [if_neg h1]
      exact ⟨k + 1, by omega, by omega, rfl⟩

/-- Every stored player carries its own key as id. -/
def mapKeysOK (m : List (Int × GoPlayer)) : Prop :=
  ∀ k v, mapGet m k = some v → v.id = k

theorem mapGet_set (m : List (Int × GoPlayer)) (k : Int) (v : GoPlayer)
    (k' : Int) :
    mapGet (mapSet m k v) k' = if k' = k then some v else mapGet m k' := by
  unfold mapGet mapSet
  by_cases h : k' = k
  · rw [if_pos h, List.find?_cons_of_pos]
    · rfl
    · simp [h]
  · rw [if_neg h, List.find?_cons_of_neg]
    simp only [beq_iff_eq]
    exact fun hh => h hh.symm

theorem mapKeysOK_set (m : List (Int × GoPlayer)) (k : Int) (v : GoPlayer)
    (hok : mapKeysOK m) (hv : v.id = k) : mapKeysOK (mapSet m k v) := by
  intro k' v' h
  rw [mapGet_set] at h
  by_cases he : k' = k
  · rw [if_pos he] at h
    injection h with h2
    rw [← h2, hv, he]
  · rw [if_neg he] at h
    exact hok k' v' h

theorem promoteToTop_skipList (lb : LBState) (player : GoPlayer) :
    (promoteToTop lb player).skipList = lb.skipList := by
  unfold promoteToTop
  split <;> rfl

theorem promoteToTop_playerMap (lb : LBState) (player : GoPlayer) :
    (promoteToTop lb player).playerMap = lb.playerMap := by
  unfold promoteToTop
  split <;> rfl

theorem promoteToTop_cache (lb : LBState) (player : GoPlayer) :
    (promoteToTop lb player).cache = lb.cache := by
  unfold promoteToTop
  split <;> rfl

theorem ite_promote_skipList (P : Prop) [Decidable P] (lb1 : LBState)
    (player : GoPlayer) :
    (if P then promoteToTop lb1 player else lb1).skipList = lb1.skipList := by
  split
  · exact promoteToTop_skipList _ _
  · rfl

theorem ite_promote_playerMap (P : Prop) [Decidable P] (lb1 : LBState)
    (player : GoPlayer) :
    (if P then promoteToTop lb1 player else lb1).playerMap = lb1.playerMap := by
  split
  · exact promoteToTop_playerMap _ _
  · rfl

theorem ite_promote_cache (P : Prop) [Decidable P] (lb1 : LBState)
    (player : GoPlayer) :
    (if P then promoteToTop lb1 player else lb1).cache = lb1.cache := by
  split
  · exact promoteToTop_cache _ _
  · rfl

theorem updTail_skipList (P Q : Prop) [Decidable P] [Decidable Q]
    (lb1 : LBState) (h2 : TopPlayersHeap) (player : GoPlayer) :
    (if P then { lb1 with topHeap := h2 }
     else if Q then promoteToTop lb1 player else lb1).skipList =
      lb1.skipList := by
  split
  · rfl
  · exact ite_promote_skipList Q lb1 player

theorem updTail_playerMap (P Q : Prop) [Decidable P] [Decidable Q]
    (lb1 : LBState) (h2 : TopPlayersHeap) (player : GoPlayer) :
    (if P then { lb1 with topHeap := h2 }
     else if Q then promoteToTop lb1 player else lb1).playerMap =
      lb1.playerMap := by
  split
  · rfl
  · exact ite_promote_playerMap Q lb1 player

theorem updTail_cache (P Q : Prop) [Decidable P] [Decidable Q]
    (lb1 : LBState) (h2 : TopPlayersHeap) (player : GoPlayer) :
    (if P then { lb1 with topHeap := h2 }
     else if Q then promoteToTop lb1 player else lb1).cache = lb1.cache := by
  split
  · rfl
  · exact ite_promote_cache Q lb1 player

/-- `applySingleUpdate` keeps the core invariant: a well-formed, sorted,
duplicate-free skip list whose node ids are all registered in the player
map under their own key; the rank cache is untouched. -/
theorem applySingle_core (lb : LBState) (pid score now : Int) (lvl : Nat)
    (hl1 : 1 ≤ lvl) (hl2 : lvl ≤ maxSkipListLevel)
    (hwf : WFsl lb.skipList) (hsorted : slSorted lb.skipList.nodes)
    (hnodup : slIdsNodup lb.skipList.nodes)
    (hkeys : mapKeysOK lb.playerMap)
    (hcouple : ∀ k, 1 ≤ k → k ≤ lb.skipList.nodes.length →
      mapGet lb.playerMap (plAt lb.skipList.nodes k).id ≠ none) :
    WFsl (applySingleUpdate lb pid score now lvl).skipList ∧
    slSorted (applySingleUpdate lb pid score now lvl).skipList.nodes ∧
    slIdsNodup (applySingleUpdate lb pid score now lvl).skipList.nodes ∧
    mapKeysOK (applySingleUpdate lb pid score now lvl).playerMap ∧
    (∀ k, 1 ≤ k →
      k ≤ (applySingleUpdate lb pid score now lvl).skipList.nodes.length →
      mapGet (applySingleUpdate lb pid score now lvl).playerMap
        (plAt (applySingleUpdate lb pid score now lvl).skipList.nodes k).id ≠
          none) ∧
    (applySingleUpdate lb pid score now lvl).cache = lb.cache := by
  unfold applySingleUpdate
  cases hlook : mapGet lb.playerMap pid with
  | none =>
    dsimp only
    have hfresh : ∀ k, 1 ≤ k → k ≤ lb.skipList.nodes.length →
        (plAt lb.skipList.nodes k).id ≠ pid := by
      intro k hk1 hk2 he
      exact hcouple k hk1 hk2 (by rw [he]; exact hlook)
    have h1 := insertNode_WF lb.skipList (NewPlayer pid score now) lvl hwf hl1 hl2
    have h2 := insertNode_sorted lb.skipList (NewPlayer pid score now) lvl hwf
      hl2 hsorted hfresh
    have h3 := insertNode_nodup lb.skipList (NewPlayer pid score now) lvl hwf
      hl2 hnodup hfresh
    have h4 : mapKeysOK (mapSet lb.playerMap pid (NewPlayer pid score now)) :=
      mapKeysOK_set _ _ _ hkeys rfl
    have h5 : ∀ k, 1 ≤ k →
        k ≤ (insertNode lb.skipList (NewPlayer pid score now) lvl).nodes.length →
        mapGet (mapSet lb.playerMap pid (NewPlayer pid score now))
          (plAt (insertNode lb.skipList (NewPlayer pid score now) lvl).nodes
            k).id ≠ none := by
      intro k hk1 hk2
      rcases ins_ids_sub lb.skipList (NewPlayer pid score now) lvl hwf hl2 k hk1
        hk2 with hnew | ⟨k', hk'1, hk'2, hold⟩
      · rw [hnew, mapGet_set, if_pos (show (NewPlayer pid score now).id = pid from rfl)]
        simp
      · rw [hold, mapGet_set]
        by_cases he : (plAt lb.skipList.nodes k').id = pid
        · rw [if_pos he]
          simp
        · rw [if_neg he]
          exact hcouple k' hk'1 hk'2
    split
    · rw [promoteToTop_skipList, promoteToTop_playerMap, promoteToTop_cache]
      exact ⟨h1, h2, h3, h4, h5, rfl⟩
    · exact ⟨h1, h2, h3, h4, h5, rfl⟩
  | some player =>
    dsimp only
    have hpid : player.id = pid := hkeys pid player hlook
    unfold slUpdateScore
    dsimp only
    by_cases hdel : (deleteNode lb.skipList player.id).2 = true
    · rw [if_pos hdel]
      dsimp only
      have hwf1 := deleteNode_WF lb.skipList player.id hwf
      have hsorted1 := deleteNode_sorted lb.skipList player.id hwf hsorted
      have hnodup1 := deleteNode_nodup lb.skipList player.id hwf hnodup
      have hfresh1 := deleteNode_fresh lb.skipList player.id hwf hnodup hdel
      have h1 := insertNode_WF (deleteNode lb.skipList player.id).1
        { player with score := score, updateTime := now } lvl hwf1 hl1 hl2
      have h2 := insertNode_sorted (deleteNode lb.skipList player.id).1
        { player with score := score, updateTime := now } lvl hwf1 hl2 hsorted1
        hfresh1
      have h3 := insertNode_nodup (deleteNode lb.skipList player.id).1
        { player with score := score, updateTime := now } lvl hwf1 hl2 hnodup1
        hfresh1
      have h4 : mapKeysOK (mapSet lb.playerMap pid
          { player with score := score, updateTime := now }) :=
        mapKeysOK_set _ _ _ hkeys hpid
      have h5 : ∀ k, 1 ≤ k →
          k ≤ (insertNode (deleteNode lb.skipList player.id).1
            { player with score := score, updateTime := now } lvl).nodes.length →
          mapGet (mapSet lb.playerMap pid
              { player with score := score, updateTime := now })
            (plAt (insertNode (deleteNode lb.skipList player.id).1
              { player with score := score, updateTime := now } lvl).nodes
              k).id ≠ none := by
        intro k hk1 hk2
        rcases ins_ids_sub (deleteNode lb.skipList player.id).1
            { player with score := score, updateTime := now } lvl hwf1 hl2 k hk1
            hk2 with hnew | ⟨k', hk'1, hk'2, hold⟩
        · rw [hnew, mapGet_set, if_pos hpid]
          simp
        · obtain ⟨k'', hk''1, hk''2, hold2⟩ :=
            del_pl_sub lb.skipList player.id hwf k' hk'1 hk'2
          rw [hold, hold2, mapGet_set]
          by_cases he : (plAt lb.skipList.nodes k'').id = pid
          · rw [if_pos he]
            simp
          · rw [if_neg he]
            exact hcouple k'' hk''1 hk''2
      split
      · exact ⟨h1, h2, h3, h4, h5, rfl⟩
      · split
        · rw [promoteToTop_skipList, promoteToTop_playerMap, promoteToTop_cache]
          exact ⟨h1, h2, h3, h4, h5, rfl⟩
        · exact ⟨h1, h2, h3, h4, h5, rfl⟩
    · rw [if_neg hdel]
      dsimp only
      have hdf : (deleteNode lb.skipList player.id).2 = false := by
        cases h2 : (deleteNode lb.skipList player.id).2
        · rfl
        · exact absurd h2 hdel
      rw [deleteNode_false lb.skipList player.id hdf]
      have h4 : mapKeysOK (mapSet lb.playerMap pid player) :=
        mapKeysOK_set _ _ _ hkeys hpid
      have h5 : ∀ k, 1 ≤ k → k ≤ lb.skipList.nodes.length →
          mapGet (mapSet lb.playerMap pid player)
            (plAt lb.skipList.nodes k).id ≠ none := by
        intro k hk1 hk2
        rw [mapGet_set]
        by_cases he : (plAt lb.skipList.nodes k).id = pid
        · rw [if_pos he]
          simp
        · rw [if_neg he]
          exact hcouple k hk1 hk2
      split
      · exact ⟨hwf, hsorted, hnodup, h4, h5, rfl⟩
      · split
        · rw [promoteToTop_skipList, promoteToTop_playerMap, promoteToTop_cache]
          exact ⟨hwf, hsorted, hnodup, h4, h5, rfl⟩
        · exact ⟨hwf, hsorted, hnodup, h4, h5, rfl⟩

theorem rangeWalk_start_one (hs : List Int) (ns : List SLNode)
    (hinv : spanInv hs ns) (start : Int) (hst : start ≤ 1) (i : Nat)
    (hi : i < maxSkipListLevel) (p : Nat) (tr : Int) (hp : p ≤ ns.length)
    (hsrc : p = 0 ∨ i < hAt ns p) (htr : tr = (p : Int)) :
    rangeWalk hs ns start i p tr = (p, tr) := by
  rw [rangeWalk]
  split
  · rfl
  · next q hf =>
    split
    · next hlt =>
      exfalso
      have hspan := spanInv_edge hinv hp hi hsrc hf
      have hb := forwardIdx_bounds hf
      rw [htr, hspan] at hlt
      omega
    · rfl

theorem rangeDescend_start_one (hs : List Int) (ns : List SLNode)
    (hinv : spanInv hs ns) (start : Int) (hst : start ≤ 1) :
    ∀ L, L ≤ maxSkipListLevel → rangeDescend hs ns start L 0 0 = (0, 0) := by
  intro L
  induction L with
  | zero => intro _; rfl
  | succ l ih =>
    intro h32
    have hw := rangeWalk_start_one hs ns hinv start hst l (by omega) 0 0
      (by omega) (Or.inl rfl) (by simp)
    have hstep : rangeDescend hs ns start (l + 1) 0 0 =
        rangeDescend hs ns start l (rangeWalk hs ns start l 0 0).1
          (rangeWalk hs ns start l 0 0).2 := rfl
    rw [hstep, hw]
    exact ih (by omega)

theorem forward0_eq (ns : List SLNode)
    (hnd1 : ∀ nd ∈ ns, 1 ≤ nd.height) (x : Nat) (hx : x ≤ ns.length) :
    forwardIdx ns 0 x = if x < ns.length then some (x + 1) else none := by
  by_cases h : x < ns.length
  · rw [if_pos h, forwardIdx_eq_some_iff]
    exact ⟨by omega, by omega,
      hnd1 _ (getD_mem_of_lt (show x + 1 - 1 < ns.length by omega)),
      fun m hm1 hm2 => by omega⟩
  · rw [if_neg h, forwardIdx_eq_none_iff]
    intro m hm1 hm2
    omega

/-- The collection loop returns the players of consecutive positions. -/
theorem rangeCollect_consec (ns : List SLNode)
    (hnd1 : ∀ nd ∈ ns, 1 ≤ nd.height) (e : Int) :
    ∀ (p : Nat) (rank : Int), 1 ≤ p → p ≤ ns.length + 1 →
      ∀ i, i < (rangeCollect ns e
          (if p ≤ ns.length then some p else none) rank).length →
        (rangeCollect ns e (if p ≤ ns.length then some p else none)
            rank).getD i default = plAt ns (p + i) ∧ p + i ≤ ns.length
  | p, rank => by
    intro hp1 hp2 i hi
    by_cases hpl : p ≤ ns.length
    · rw [if_pos hpl] at hi ⊢
      rw [rangeCollect] at hi ⊢
      by_cases hr : rank ≤ e
      · rw [if_pos hr] at hi ⊢
        rw [forward0_eq ns hnd1 p (by omega)] at hi ⊢
        have hco : (if p < ns.length then some (p + 1) else none) =
            (if p + 1 ≤ ns.length then some (p + 1) else none) := by
          by_cases h : p < ns.length
          · rw [if_pos h, if_pos (by omega)]
          · rw [if_neg h, if_neg (by omega)]
        rw [hco] at hi ⊢
        cases i with
        | zero => exact ⟨rfl, by omega⟩
        | succ i2 =>
          have hrec := rangeCollect_consec ns hnd1 e (p + 1) (rank + 1)
            (by omega) (by omega) i2 (by simpa using hi)
          have he2 : p + 1 + i2 = p + (i2 + 1) := by omega
          rw [← he2]
          exact ⟨hrec.1, by omega⟩
      · rw [if_neg hr] at hi
        simp at hi
    · rw [if_neg hpl] at hi
      rw [rangeCollect] at hi
      simp at hi
termination_by p rank => (e + 1 - rank).toNat
decreasing_by omega

theorem getD_map_range (f : Nat → GoPlayer) (n i : Nat) (hi : i < n) :
    ((List.range n).map f).getD i default = f i := by
  rw [List.getD_eq_getElem?_getD, List.getElem?_map, List.getElem?_range hi]
  rfl

/-- `GetRange(1, e)` on a well-formed list: at most `min(e, length)`
entries, and entry `i` is the node of rank `i + 1`. -/
theorem getRange_one_spec (sl : GoSkipList) (hwf : WFsl sl) (e : Int) :
    (((GetRange sl 1 e).length : Int) ≤
      max 0 (if e > sl.length then sl.length else e)) ∧
    (∀ i, i < (GetRange sl 1 e).length →
      (GetRange sl 1 e).getD i default = plAt sl.nodes (i + 1) ∧
        i + 1 ≤ sl.nodes.length) := by
  obtain ⟨hhs, hlev, hlev32, hlen, hnd, hinv⟩ := hwf
  have hGR : GetRange sl 1 e =
      if (1 : Int) > (if e > sl.length then sl.length else e) then []
      else rangeCollect sl.nodes (if e > sl.length then sl.length else e)
        (forwardIdx sl.nodes 0
          (rangeDescend sl.headerSpans sl.nodes 1 sl.level 0 0).1)
        ((rangeDescend sl.headerSpans sl.nodes 1 sl.level 0 0).2 + 1) := rfl
  rw [hGR]
  by_cases hgt : (1 : Int) > (if e > sl.length then sl.length else e)
  · rw [if_pos hgt]
    constructor
    · simp only [List.length_nil, Nat.cast_zero]
      exact le_max_left 0 _
    · intro i hi
      simp at hi
  · rw [if_neg hgt]
    rw [rangeDescend_start_one sl.headerSpans sl.nodes hinv 1 (le_refl 1)
      sl.level hlev32]
    have hfe := forward0_eq sl.nodes (fun nd hm => (hnd nd hm).1) 0 (by omega)
    have hco : (if 0 < sl.nodes.length then some (0 + 1) else none) =
        (if 1 ≤ sl.nodes.length then some 1 else none) := by
      by_cases h : 0 < sl.nodes.length
      · rw [if_pos h, if_pos (by omega)]
      · rw [if_neg h, if_neg (by omega)]
    rw [hfe, hco]
    have hz : (((0, 0) : Nat × Int)).2 = 0 := rfl
    constructor
    · have hcl := rangeCollect_length sl.nodes
        (if e > sl.length then sl.length else e)
        (if 1 ≤ sl.nodes.length then some 1 else none)
        ((((0, 0) : Nat × Int)).2 + 1)
      omega
    · intro i hi
      have hcc := rangeCollect_consec sl.nodes (fun nd hm => (hnd nd hm).1)
        (if e > sl.length then sl.length else e) 1
        ((((0, 0) : Nat × Int)).2 + 1) (by omega)
        (by omega) i hi
      have he2 : 1 + i = i + 1 := by omega
      rw [he2] at hcc
      simpa using hcc

/-- Soundness of one cached result list: no more entries than its limit
key, scores non-increasing, ids pairwise distinct, `Rank = i + 1`. -/
def CacheEntryOK (en : Int × List GoPlayer) : Prop :=
  ((en.2.length : Int) ≤ max 0 en.1) ∧
  (∀ i j : Nat, i < j → j < en.2.length →
    (en.2.getD j default).score ≤ (en.2.getD i default).score ∧
    (en.2.getD i default).id ≠ (en.2.getD j default).id) ∧
  (∀ i : Nat, i < en.2.length → (en.2.getD i default).rank = (i : Int) + 1)

theorem refreshTopRanks_spec (lb : LBState) (L : Int) (hwf : WFsl lb.skipList)
    (hsorted : slSorted lb.skipList.nodes)
    (hnodup : slIdsNodup lb.skipList.nodes) :
    (refreshTopRanks lb L).1.cache =
      ((if L > lb.skipList.length then lb.skipList.length else L),
        (refreshTopRanks lb L).2) :: lb.cache ∧
    (refreshTopRanks lb L).1.skipList = lb.skipList ∧
    (refreshTopRanks lb L).1.playerMap = lb.playerMap ∧
    CacheEntryOK ((if L > lb.skipList.length then lb.skipList.length else L),
      (refreshTopRanks lb L).2) := by
  obtain ⟨hrs, hrlen⟩ := getRange_one_spec lb.skipList hwf
    (if L > lb.skipList.length then lb.skipList.length else L)
  have hcl : (if (if L > lb.skipList.length then lb.skipList.length else L) >
        lb.skipList.length then lb.skipList.length
      else (if L > lb.skipList.length then lb.skipList.length else L)) =
      (if L > lb.skipList.length then lb.skipList.length else L) := by
    by_cases h : L > lb.skipList.length
    · rw [if_pos h, if_neg (by omega)]
    · rw [if_neg h, if_neg (by omega)]
  rw [hcl] at hrs
  have hGR2 : (refreshTopRanks lb L).2 =
      (List.range (GetRange lb.skipList 1
        (if L > lb.skipList.length then lb.skipList.length else L)).length).map
        (fun i =>
          ({ id := ((GetRange lb.skipList 1
                (if L > lb.skipList.length then lb.skipList.length else L)).getD
                i default).id
             score := ((GetRange lb.skipList 1
                (if L > lb.skipList.length then lb.skipList.length else L)).getD
                i default).score
             rank := (i : Int) + 1
             updateTime := ((GetRange lb.skipList 1
                (if L > lb.skipList.length then lb.skipList.length else L)).getD
                i default).updateTime } : GoPlayer)) := rfl
  have hrlen2 : (refreshTopRanks lb L).2.length =
      (GetRange lb.skipList 1
        (if L > lb.skipList.length then lb.skipList.length else L)).length := by
    rw [hGR2, List.length_map, List.length_range]
  refine ⟨rfl, rfl, rfl, ?_, ?_, ?_⟩
  · rw [hrlen2]
    exact le_trans hrs (by omega)
  · intro i j hij hjlen
    rw [hrlen2] at hjlen
    rw [hGR2, getD_map_range _ _ i (by omega), getD_map_range _ _ j hjlen]
    obtain ⟨hei, hbi⟩ := hrlen i (by omega)
    obtain ⟨hej, hbj⟩ := hrlen j hjlen
    rw [hei, hej]
    constructor
    · exact comparePlayers_score _ _
        (hsorted (i + 1) (j + 1) (by omega) (by omega) hbj)
    · exact hnodup (i + 1) (j + 1) (by omega) (by omega) hbj
  · intro i hlen
    rw [hrlen2] at hlen
    rw [hGR2, getD_map_range _ _ i hlen]

/-- The leaderboard invariant: a well-formed sorted duplicate-free skip
list whose node ids are registered in the player map under their own key,
and only sound entries in the rank cache. -/
def LBInv (lb : LBState) : Prop :=
  WFsl lb.skipList ∧ slSorted lb.skipList.nodes ∧
  slIdsNodup lb.skipList.nodes ∧ mapKeysOK lb.playerMap ∧
  (∀ k, 1 ≤ k → k ≤ lb.skipList.nodes.length →
    mapGet lb.playerMap (plAt lb.skipList.nodes k).id ≠ none) ∧
  (∀ en ∈ lb.cache, CacheEntryOK en)

theorem foldl_applySingle_core (l : List (ScoreUpdate × Int × Nat)) :
    ∀ st : LBState, (∀ u ∈ l, 1 ≤ u.2.2 ∧ u.2.2 ≤ maxSkipListLevel) →
      WFsl st.skipList → slSorted st.skipList.nodes →
      slIdsNodup st.skipList.nodes → mapKeysOK st.playerMap →
      (∀ k, 1 ≤ k → k ≤ st.skipList.nodes.length →
        mapGet st.playerMap (plAt st.skipList.nodes k).id ≠ none) →
      WFsl (l.foldl (fun acc u =>
          applySingleUpdate acc u.1.playerID u.1.score u.2.1 u.2.2)
        st).skipList ∧
      slSorted (l.foldl (fun acc u =>
          applySingleUpdate acc u.1.playerID u.1.score u.2.1 u.2.2)
        st).skipList.nodes ∧
      slIdsNodup (l.foldl (fun acc u =>
          applySingleUpdate acc u.1.playerID u.1.score u.2.1 u.2.2)
        st).skipList.nodes ∧
      mapKeysOK (l.foldl (fun acc u =>
          applySingleUpdate acc u.1.playerID u.1.score u.2.1 u.2.2)
        st).playerMap ∧
      (∀ k, 1 ≤ k → k ≤ (l.foldl (fun acc u =>
          applySingleUpdate acc u.1.playerID u.1.score u.2.1 u.2.2)
          st).skipList.nodes.length →
        mapGet (l.foldl (fun acc u =>
            applySingleUpdate acc u.1.playerID u.1.score u.2.1 u.2.2)
          st).playerMap
          (plAt (l.foldl (fun acc u =>
            applySingleUpdate acc u.1.playerID u.1.score u.2.1 u.2.2)
            st).skipList.nodes k).id ≠ none) := by
  induction l with
  | nil =>
    intro st _ hwf hsorted hnodup hkeys hcouple
    exact ⟨hwf, hsorted, hnodup, hkeys, hcouple⟩
  | cons u rest ih =>
    intro st hlv hwf hsorted hnodup hkeys hcouple
    have hu := hlv u (by simp)
    obtain ⟨a1, a2, a3, a4, a5, -⟩ := applySingle_core st u.1.playerID
      u.1.score u.2.1 u.2.2 hu.1 hu.2 hwf hsorted hnodup hkeys hcouple
    exact ih _ (fun v hv => hlv v (by simp [hv])) a1 a2 a3 a4 a5

/-- Leaderboard states reachable through the public operations (the batch
worker may drain any decorated batch). -/
inductive LBReachable : LBState → Prop where
  | init : LBReachable NewHybridLeaderboard
  | update (lb : LBState) (pid score now : Int) (lvl : Nat) (lb' : LBState)
      (e : Option Unit) : LBReachable lb → 1 ≤ lvl →
      lvl ≤ maxSkipListLevel →
      lbUpdateScore lb pid score now lvl = .ok (lb', e) → LBReachable lb'
  | batch (lb : LBState) (ups : List (ScoreUpdate × Int × Nat)) :
      LBReachable lb → (∀ u ∈ ups, 1 ≤ u.2.2 ∧ u.2.2 ≤ maxSkipListLevel) →
      LBReachable (processBatch lb ups)
  | query (lb : LBState) (L : Int) : LBReachable lb →
      LBReachable (lbGetTopRanks lb L).1
  | close (lb : LBState) : LBReachable lb → LBReachable (lbClose lb)

theorem LBReachable_inv (lb : LBState) (h : LBReachable lb) : LBInv lb := by
  induction h with
  | init =>
    refine ⟨by decide, ?_, ?_, ?_, ?_, ?_⟩
    · intro m m' hm hmm' hm'le
      have hz : m' ≤ 0 := hm'le
      omega
    · intro m m' hm hmm' hm'le
      have hz : m' ≤ 0 := hm'le
      omega
    · intro k v hkv
      simp [mapGet, NewHybridLeaderboard] at hkv
    · intro k hk1 hk2
      have hz : k ≤ 0 := hk2
      omega
    · intro en hen
      simp [NewHybridLeaderboard] at hen
  | update lb pid score now lvl lb' e hre hl1 hl2 hup ih =>
    unfold lbUpdateScore at hup
    by_cases hc : lb.closed = true
    · rw [if_pos hc] at hup
      cases hup
    · rw [if_neg hc] at hup
      obtain ⟨hwf, hsorted, hnodup, hkeys, hcouple, hcache⟩ := ih
      by_cases hb : lb.batchUpdates.length < 10000
      · rw [if_pos hb] at hup
        injection hup with hpair
        injection hpair with hl he
        rw [← hl]
        exact ⟨hwf, hsorted, hnodup, hkeys, hcouple, hcache⟩
      · rw [if_neg hb] at hup
        injection hup with hpair
        injection hpair with hl he
        rw [← hl]
        obtain ⟨a1, a2, a3, a4, a5, a6⟩ := applySingle_core lb pid score now
          lvl hl1 hl2 hwf hsorted hnodup hkeys hcouple
        refine ⟨a1, a2, a3, a4, a5, ?_⟩
        intro en hen
        have hz : en ∈ ([] : List (Int × List GoPlayer)) := hen
        simp at hz
  | batch lb ups hre hlv ih =>
    obtain ⟨hwf, hsorted, hnodup, hkeys, hcouple, hcache⟩ := ih
    obtain ⟨a1, a2, a3, a4, a5⟩ :=
      foldl_applySingle_core ups lb hlv hwf hsorted hnodup hkeys hcouple
    refine ⟨a1, a2, a3, a4, a5, ?_⟩
    intro en hen
    have hz : en ∈ ([] : List (Int × List GoPlayer)) := hen
    simp at hz
  | query lb L hre ih =>
    unfold lbGetTopRanks
    cases hc : cacheGet lb.cache L with
    | some cached => exact ih
    | none =>
      obtain ⟨hwf, hsorted, hnodup, hkeys, hcouple, hcache⟩ := ih
      obtain ⟨r1, r2, r3, r4⟩ := refreshTopRanks_spec lb L hwf hsorted hnodup
      refine ⟨by rw [r2]; exact hwf, by rw [r2]; exact hsorted,
        by rw [r2]; exact hnodup, by rw [r3]; exact hkeys, ?_, ?_⟩
      · intro k hk1 hk2
        rw [r2] at hk2 ⊢
        rw [r3]
        exact hcouple k hk1 hk2
      · intro en hen
        rw [r1] at hen
        rcases List.mem_cons.mp hen with he | he
        · rw [he]
          exact r4
        · exact hcache en he
  | close lb hre ih => exact ih

/-! ### The cache-invalidation scenario: positioned inserts and deletes -/

theorem delUpd_cond (sl : GoSkipList) (pid : Int) (hlev : 1 ≤ sl.level) :
    delUpd sl pid 0 = 0 ∨ (plAt sl.nodes (delUpd sl pid 0)).id ≠ pid := by
  rw [delUpd_eq_walkPath sl pid 0 (by omega)]
  rcases walkPath_land sl.headerSpans sl.nodes (delCond pid) sl.level 0 0 0
    (by omega) with h | h
  · exact Or.inl h
  · right
    have hc := h.1
    unfold delCond at hc
    exact of_decide_eq_true hc

theorem deleteNode_tail (sl : GoSkipList) (pid : Int) (hwf : WFsl sl)
    (hn : 1 ≤ sl.nodes.length)
    (hvict : (plAt sl.nodes sl.nodes.length).id = pid)
    (hothers : ∀ m, 1 ≤ m → m < sl.nodes.length →
      (plAt sl.nodes m).id ≠ pid) :
    (deleteNode sl pid).2 = true ∧
    (deleteNode sl pid).1.nodes.length = sl.nodes.length - 1 ∧
    (∀ m, 1 ≤ m → m < sl.nodes.length →
      plAt (deleteNode sl pid).1.nodes m = plAt sl.nodes m) := by
  have hwf' := hwf
  obtain ⟨hhs, hlev, hlev32, hlen, hnd, hinv⟩ := hwf'
  have hu0 := delUpd_le_len sl pid 0
  have hne : delUpd sl pid 0 < sl.nodes.length := by
    rcases delUpd_cond sl pid hlev with h0 | hcond
    · omega
    · by_contra hx
      have he : delUpd sl pid 0 = sl.nodes.length := by omega
      rw [he] at hcond
      exact hcond hvict
  have hf : forwardIdx sl.nodes 0 (delUpd sl pid 0) =
      some (delUpd sl pid 0 + 1) := by
    rw [forward0_eq sl.nodes (fun nd hm => (hnd nd hm).1) _ hu0, if_pos hne]
  have hqid : (plAt sl.nodes (delUpd sl pid 0 + 1)).id = pid := by
    rcases delUpd_stop sl pid 0 (by omega) with h | ⟨q, hq, hcq⟩
    · rw [hf] at h
      exact absurd h (by simp)
    · rw [hf] at hq
      have hq2 : delUpd sl pid 0 + 1 = q := by simpa using hq
      rw [hq2]
      exact hcq
  have hqn : delUpd sl pid 0 + 1 = sl.nodes.length := by
    by_contra hx
    exact hothers (delUpd sl pid 0 + 1) (by omega) (by omega) hqid
  have hqid' : (sl.nodes.getD (delUpd sl pid 0 + 1 - 1) default).player.id =
      pid := hqid
  have hd : deleteNode sl pid =
      ({ headerSpans := (delHn sl pid (delUpd sl pid 0 + 1)).1,
         nodes := (delHn sl pid (delUpd sl pid 0 + 1)).2.eraseIdx
           (delUpd sl pid 0 + 1 - 1),
         level := shrinkLevel ((delHn sl pid (delUpd sl pid 0 + 1)).2.eraseIdx
           (delUpd sl pid 0 + 1 - 1)) sl.level,
         length := sl.length - 1 }, true) := by
    unfold deleteNode
    rw [hf]
    dsimp only
    rw [if_pos hqid']
  refine ⟨by rw [hd], ?_, ?_⟩
  · rw [hd]
    exact del_ns2_length sl pid (delUpd sl pid 0 + 1) hwf (by omega) (by omega)
  · intro m hm1 hm2
    rw [hd]
    have hp := del_plAt2 sl pid (delUpd sl pid 0 + 1) hwf (by omega) m hm1
    rw [if_pos (by omega)] at hp
    exact hp

theorem insertNode_tail (sl : GoSkipList) (pl : GoPlayer) (lvl : Nat)
    (hwf : WFsl sl) (hl2 : lvl ≤ maxSkipListLevel)
    (htail : ∀ m, 1 ≤ m → m ≤ sl.nodes.length →
      0 < comparePlayers (plAt sl.nodes m) pl) :
    (insertNode sl pl lvl).nodes.length = sl.nodes.length + 1 ∧
    (∀ m, 1 ≤ m → m ≤ sl.nodes.length →
      plAt (insertNode sl pl lvl).nodes m = plAt sl.nodes m) ∧
    plAt (insertNode sl pl lvl).nodes (sl.nodes.length + 1) = pl := by
  have hwf' := hwf
  obtain ⟨hhs, hlev, hlev32, hlen, hnd, hinv⟩ := hwf'
  have hP0 : (insUpd sl pl 0).1 = sl.nodes.length := by
    have hle := insUpd_le_len sl pl 0
    by_contra hne
    have hlt : (insUpd sl pl 0).1 < sl.nodes.length := by omega
    rcases insUpd_stop sl pl 0 (by omega) with h | ⟨q, hq, hc⟩
    · rw [forward0_eq sl.nodes (fun nd hm => (hnd nd hm).1) _ hle,
        if_pos hlt] at h
      exact absurd h (by simp)
    · rw [forward0_eq sl.nodes (fun nd hm => (hnd nd hm).1) _ hle,
        if_pos hlt] at hq
      have hq2 : (insUpd sl pl 0).1 + 1 = q := by simpa using hq
      exact hc (by rw [← hq2]; exact htail _ (by omega) (by omega))
  refine ⟨insertNode_nodes_length sl pl lvl hwf hl2, ?_, ?_⟩
  · intro m hm1 hm2
    exact ins_plAt_lo sl pl lvl hwf hl2 m hm1 (by omega)
  · have hnew := ins_plAt_new sl pl lvl hwf hl2
    rw [hP0] at hnew
    exact hnew

theorem insertNode_head (sl : GoSkipList) (pl : GoPlayer) (lvl : Nat)
    (hwf : WFsl sl) (hl2 : lvl ≤ maxSkipListLevel)
    (hhead : ∀ m, 1 ≤ m → m ≤ sl.nodes.length →
      ¬ 0 < comparePlayers (plAt sl.nodes m) pl) :
    (insertNode sl pl lvl).nodes.length = sl.nodes.length + 1 ∧
    plAt (insertNode sl pl lvl).nodes 1 = pl := by
  have hlev : 1 ≤ sl.level := hwf.2.1
  have hP0 : (insUpd sl pl 0).1 = 0 := by
    rcases insUpd_cond sl pl hlev with h | h
    · exact h
    · by_contra hne
      have hle := insUpd_le_len sl pl 0
      exact hhead (insUpd sl pl 0).1 (by omega) hle h
  refine ⟨insertNode_nodes_length sl pl lvl hwf hl2, ?_⟩
  have hnew := ins_plAt_new sl pl lvl hwf hl2
  rw [hP0] at hnew
  simpa using hnew

theorem getRange_one_pos (sl : GoSkipList) (hwf : WFsl sl) (e : Int)
    (he : 1 ≤ e) (hn : 1 ≤ sl.nodes.length) :
    1 ≤ (GetRange sl 1 e).length := by
  obtain ⟨hhs, hlev, hlev32, hlen, hnd, hinv⟩ := hwf
  have hGR : GetRange sl 1 e =
      if (1 : Int) > (if e > sl.length then sl.length else e) then []
      else rangeCollect sl.nodes (if e > sl.length then sl.length else e)
        (forwardIdx sl.nodes 0
          (rangeDescend sl.headerSpans sl.nodes 1 sl.level 0 0).1)
        ((rangeDescend sl.headerSpans sl.nodes 1 sl.level 0 0).2 + 1) := rfl
  have hemin : 1 ≤ (if e > sl.length then sl.length else e) := by
    by_cases hc : e > sl.length
    · rw [if_pos hc]
      omega
    · rw [if_neg hc]
      omega
  rw [hGR, if_neg (by omega)]
  rw [rangeDescend_start_one sl.headerSpans sl.nodes hinv 1 (le_refl 1)
    sl.level hlev32]
  have hfe := forward0_eq sl.nodes (fun nd hm => (hnd nd hm).1) 0 (by omega)
  have hco : (if 0 < sl.nodes.length then some (0 + 1) else none) =
      (if 1 ≤ sl.nodes.length then some 1 else none) := by
    by_cases h : 0 < sl.nodes.length
    · rw [if_pos h, if_pos (by omega)]
    · rw [if_neg h, if_neg (by omega)]
  rw [hfe, hco, if_pos hn]
  rw [rangeCollect]
  have hr : (((0, 0) : Nat × Int)).2 + 1 ≤
      (if e > sl.length then sl.length else e) := by
    show (0 : Int) + 1 ≤ _
    omega
  rw [if_pos hr]
  simp only [List.length_cons]
  omega

/-! ### Leaderboard step projections -/

theorem refreshTopRanks_proj (lb : LBState) (L : Int) :
    (refreshTopRanks lb L).1.skipList = lb.skipList ∧
    (refreshTopRanks lb L).1.playerMap = lb.playerMap ∧
    (refreshTopRanks lb L).1.cache =
      ((if L > lb.skipList.length then lb.skipList.length else L),
        (refreshTopRanks lb L).2) :: lb.cache :=
  ⟨rfl, rfl, rfl⟩

theorem refreshTopRanks_snd (lb : LBState) (L : Int) :
    (refreshTopRanks lb L).2 =
      (List.range (GetRange lb.skipList 1
          (if L > lb.skipList.length then lb.skipList.length else L)).length).map
        (fun i =>
          ({ id := ((GetRange lb.skipList 1
                (if L > lb.skipList.length then lb.skipList.length
                  else L)).getD i default).id
             score := ((GetRange lb.skipList 1
                (if L > lb.skipList.length then lb.skipList.length
                  else L)).getD i default).score
             rank := (i : Int) + 1
             updateTime := ((GetRange lb.skipList 1
                (if L > lb.skipList.length then lb.skipList.length
                  else L)).getD i default).updateTime } : GoPlayer)) := rfl

theorem applySingle_none_proj (lb : LBState) (pid score now : Int) (lvl : Nat)
    (hnone : mapGet lb.playerMap pid = none) :
    (applySingleUpdate lb pid score now lvl).skipList =
      insertNode lb.skipList (NewPlayer pid score now) lvl ∧
    (applySingleUpdate lb pid score now lvl).playerMap =
      mapSet lb.playerMap pid (NewPlayer pid score now) ∧
    (applySingleUpdate lb pid score now lvl).cache = lb.cache := by
  unfold applySingleUpdate
  rw [hnone]
  dsimp only
  refine ⟨?_, ?_, ?_⟩
  · rw [ite_promote_skipList]
  · rw [ite_promote_playerMap]
  · rw [ite_promote_cache]

theorem applySingle_some_proj (lb : LBState) (pid score now : Int) (lvl : Nat)
    (player : GoPlayer) (hsome : mapGet lb.playerMap pid = some player) :
    (applySingleUpdate lb pid score now lvl).skipList =
      (slUpdateScore lb.skipList player score now lvl).1 ∧
    (applySingleUpdate lb pid score now lvl).playerMap =
      mapSet lb.playerMap pid
        (slUpdateScore lb.skipList player score now lvl).2 ∧
    (applySingleUpdate lb pid score now lvl).cache = lb.cache := by
  unfold applySingleUpdate
  rw [hsome]
  dsimp only
  refine ⟨?_, ?_, ?_⟩
  · split
    · rfl
    · rw [ite_promote_skipList]
  · split
    · rfl
    · rw [ite_promote_playerMap]
  · split
    · rfl
    · rw [ite_promote_cache]

theorem sync_insert_tail (lb : LBState) (pid score now : Int) (lvl : Nat)
    (hl1 : 1 ≤ lvl) (hl2 : lvl ≤ maxSkipListLevel)
    (hwf : WFsl lb.skipList)
    (hnone : mapGet lb.playerMap pid = none)
    (htail : ∀ m, 1 ≤ m → m ≤ lb.skipList.nodes.length →
      0 < comparePlayers (plAt lb.skipList.nodes m) (NewPlayer pid score now)) :
    WFsl (syncUpdateScore lb pid score now lvl).skipList ∧
    (syncUpdateScore lb pid score now lvl).skipList.nodes.length =
      lb.skipList.nodes.length + 1 ∧
    (∀ m, 1 ≤ m → m ≤ lb.skipList.nodes.length →
      plAt (syncUpdateScore lb pid score now lvl).skipList.nodes m =
        plAt lb.skipList.nodes m) ∧
    plAt (syncUpdateScore lb pid score now lvl).skipList.nodes
      (lb.skipList.nodes.length + 1) = NewPlayer pid score now ∧
    (syncUpdateScore lb pid score now lvl).playerMap =
      mapSet lb.playerMap pid (NewPlayer pid score now) ∧
    (syncUpdateScore lb pid score now lvl).cache = [] := by
  have hproj := applySingle_none_proj lb pid score now lvl hnone
  have hsk : (syncUpdateScore lb pid score now lvl).skipList =
      insertNode lb.skipList (NewPlayer pid score now) lvl := hproj.1
  obtain ⟨tlen, tkeep, tnew⟩ :=
    insertNode_tail lb.skipList (NewPlayer pid score now) lvl hwf hl2 htail
  refine ⟨?_, ?_, ?_, ?_, hproj.2.1, rfl⟩
  · rw [hsk]
    exact insertNode_WF lb.skipList (NewPlayer pid score now) lvl hwf hl1 hl2
  · rw [hsk]
    exact tlen
  · intro m hm1 hm2
    rw [hsk]
    exact tkeep m hm1 hm2
  · rw [hsk]
    exact tnew

theorem sync_update_head (lb : LBState) (pid score now : Int) (lvl : Nat)
    (player : GoPlayer)
    (hl1 : 1 ≤ lvl) (hl2 : lvl ≤ maxSkipListLevel)
    (hwf : WFsl lb.skipList)
    (hsome : mapGet lb.playerMap pid = some player)
    (hpid : player.id = pid)
    (hn : 1 ≤ lb.skipList.nodes.length)
    (hvict : (plAt lb.skipList.nodes lb.skipList.nodes.length).id = pid)
    (hothers : ∀ m, 1 ≤ m → m < lb.skipList.nodes.length →
      (plAt lb.skipList.nodes m).id ≠ pid)
    (hhead : ∀ m, 1 ≤ m → m < lb.skipList.nodes.length →
      ¬ 0 < comparePlayers (plAt lb.skipList.nodes m)
        { player with score := score, updateTime := now }) :
    WFsl (syncUpdateScore lb pid score now lvl).skipList ∧
    (syncUpdateScore lb pid score now lvl).skipList.nodes.length =
      lb.skipList.nodes.length ∧
    plAt (syncUpdateScore lb pid score now lvl).skipList.nodes 1 =
      { player with score := score, updateTime := now } ∧
    (syncUpdateScore lb pid score now lvl).cache = [] := by
  obtain ⟨hd2, hdlen, hdkeep⟩ := deleteNode_tail lb.skipList pid hwf hn hvict
    hothers
  have hwfd : WFsl (deleteNode lb.skipList pid).1 :=
    deleteNode_WF lb.skipList pid hwf
  have hsl1 : (slUpdateScore lb.skipList player score now lvl).1 =
      insertNode (deleteNode lb.skipList pid).1
        { player with score := score, updateTime := now } lvl := by
    unfold slUpdateScore
    rw [hpid]
    dsimp only
    rw [hd2, if_pos rfl]
  have hheadd : ∀ m, 1 ≤ m → m ≤ (deleteNode lb.skipList pid).1.nodes.length →
      ¬ 0 < comparePlayers (plAt (deleteNode lb.skipList pid).1.nodes m)
        { player with score := score, updateTime := now } := by
    intro m hm1 hm2
    rw [hdlen] at hm2
    rw [hdkeep m hm1 (by omega)]
    exact hhead m hm1 (by omega)
  obtain ⟨hilen, hinew⟩ := insertNode_head (deleteNode lb.skipList pid).1
    { player with score := score, updateTime := now } lvl hwfd hl2 hheadd
  have hsk : (syncUpdateScore lb pid score now lvl).skipList =
      (slUpdateScore lb.skipList player score now lvl).1 :=
    (applySingle_some_proj lb pid score now lvl player hsome).1
  refine ⟨?_, ?_, ?_, rfl⟩
  · rw [hsk, hsl1]
    exact insertNode_WF (deleteNode lb.skipList pid).1
      { player with score := score, updateTime := now } lvl hwfd hl1 hl2
  · rw [hsk, hsl1, hilen, hdlen]
    omega
  · rw [hsk, hsl1]
    exact hinew

/-- C5 (code bug): `UpdateScore` never returns a non-nil error on any
path.  While the board is open both paths succeed with a nil error — the
enqueue on the channel when it has room, the synchronous update under the
write lock when it is full.  After `Close` the select's send case hits the
closed `batchUpdates` channel and the call panics instead of returning the
claimed error. -/
theorem updateScore_error_behaviour (lb : LBState) (playerID score now : Int)
    (lvl : Nat) :
    (lb.closed = false →
      lbUpdateScore lb playerID score now lvl =
        .ok ((if lb.batchUpdates.length < 10000 then
            { lb with batchUpdates := lb.batchUpdates ++ [⟨playerID, score⟩] }
          else syncUpdateScore lb playerID score now lvl), none)) ∧
    (lb.closed = true →
      lbUpdateScore lb playerID score now lvl =
        .error .sendOnClosedChannel) := by
  constructor
  · intro hc
    unfold lbUpdateScore
    rw [hc]
    by_cases hb : lb.batchUpdates.length < 10000
    · rw [if_neg (by simp), if_pos hb, if_pos hb]
    · rw [if_neg (by simp), if_neg hb, if_neg hb]
  · intro hc
    unfold lbUpdateScore
    rw [hc, if_pos rfl]

theorem updateScore_error_behaviour_witness :
    NewHybridLeaderboard.closed = false ∧
      lbUpdateScore NewHybridLeaderboard 1 5 0 1 =
        .ok ((if NewHybridLeaderboard.batchUpdates.length < 10000 then
            { NewHybridLeaderboard with
                batchUpdates := NewHybridLeaderboard.batchUpdates ++ [⟨1, 5⟩] }
          else syncUpdateScore NewHybridLeaderboard 1 5 0 1), none) :=
  ⟨rfl, (updateScore_error_behaviour NewHybridLeaderboard 1 5 0 1).1 rfl⟩

/-- C6: for every reachable leaderboard state and every limit `L ≥ 0`,
`GetTopRanks(L)` — whether served from the rank cache or refreshed from
the skip list — returns at most `L` players, with monotonically
non-increasing scores, pairwise-distinct ids, and `Rank = i + 1` at every
position `i`. -/
theorem getTopRanks_spec (lb : LBState) (hre : LBReachable lb) (L : Int)
    (hL : 0 ≤ L) :
    (((lbGetTopRanks lb L).2.length : Int) ≤ L) ∧
    (∀ i j : Nat, i < j → j < (lbGetTopRanks lb L).2.length →
      ((lbGetTopRanks lb L).2.getD j default).score ≤
        ((lbGetTopRanks lb L).2.getD i default).score ∧
      ((lbGetTopRanks lb L).2.getD i default).id ≠
        ((lbGetTopRanks lb L).2.getD j default).id) ∧
    (∀ i : Nat, i < (lbGetTopRanks lb L).2.length →
      ((lbGetTopRanks lb L).2.getD i default).rank = (i : Int) + 1) := by
  obtain ⟨hwf, hsorted, hnodup, hkeys, hcouple, hcache⟩ := LBReachable_inv lb hre
  unfold lbGetTopRanks
  cases hc : cacheGet lb.cache L with
  | some cached =>
    dsimp only
    obtain ⟨en, hfind, h2⟩ : ∃ en, lb.cache.find? (fun e => e.1 == L) = some en ∧
        en.2 = cached := by
      unfold cacheGet at hc
      cases hf : lb.cache.find? (fun e => e.1 == L) with
      | none =>
        rw [hf] at hc
        simp at hc
      | some en =>
        rw [hf] at hc
        simp at hc
        exact ⟨en, rfl, hc⟩
    have hkey : en.1 = L := by
      have := List.find?_some hfind
      simpa using this
    obtain ⟨o1, o2, o3⟩ := hcache en (List.mem_of_find?_eq_some hfind)
    rw [h2] at o1 o2 o3
    rw [hkey] at o1
    exact ⟨by omega, o2, o3⟩
  | none =>
    dsimp only
    obtain ⟨r1, r2, r3, r4⟩ := refreshTopRanks_spec lb L hwf hsorted hnodup
    obtain ⟨o1, o2, o3⟩ := r4
    refine ⟨?_, o2, o3⟩
    have o1' : (((refreshTopRanks lb L).2.length : Int)) ≤
        max 0 (if L > lb.skipList.length then lb.skipList.length else L) := o1
    have hlen0 : lb.skipList.length = (lb.skipList.nodes.length : Int) :=
      hwf.2.2.2.1
    by_cases hgt : L > lb.skipList.length
    · rw [if_pos hgt] at o1'
      omega
    · rw [if_neg hgt] at o1'
      omega

theorem getTopRanks_spec_witness :
    LBReachable NewHybridLeaderboard ∧ (0 : Int) ≤ 3 ∧
      (((lbGetTopRanks NewHybridLeaderboard 3).2.length : Int) ≤ 3) :=
  ⟨LBReachable.init, by decide,
    (getTopRanks_spec NewHybridLeaderboard LBReachable.init 3 (by decide)).1⟩

/-- C7: every committed update invalidates the whole rank cache — both
`processBatch` and `syncUpdateScore` leave `cache = []` — and in the
concrete scenario (players 2, 4, 3, 1, 5 inserted with scores 50, 40, 30,
20, 10 at any heights, `GetTopRanks(3)` populating the cache, then player
5 updated to score 100 and committed synchronously) the next
`GetTopRanks(3)` is refreshed from the skip list and returns player 5
with score 100 at rank 1 rather than the stale snapshot. -/
theorem leaderboard_cache_invalidation
    (l2 l4 l3 l1 l5 l6 : Nat)
    (hb2 : 1 ≤ l2 ∧ l2 ≤ maxSkipListLevel)
    (hb4 : 1 ≤ l4 ∧ l4 ≤ maxSkipListLevel)
    (hb3 : 1 ≤ l3 ∧ l3 ≤ maxSkipListLevel)
    (hb1 : 1 ≤ l1 ∧ l1 ≤ maxSkipListLevel)
    (hb5 : 1 ≤ l5 ∧ l5 ≤ maxSkipListLevel)
    (hb6 : 1 ≤ l6 ∧ l6 ≤ maxSkipListLevel)
    (lb1 lb2 lb3 lb4 lb5 lb6 lb7 : LBState)
    (h1 : lb1 = syncUpdateScore NewHybridLeaderboard 2 50 1 l2)
    (h2 : lb2 = syncUpdateScore lb1 4 40 2 l4)
    (h3 : lb3 = syncUpdateScore lb2 3 30 3 l3)
    (h4 : lb4 = syncUpdateScore lb3 1 20 4 l1)
    (h5 : lb5 = syncUpdateScore lb4 5 10 5 l5)
    (h6 : lb6 = (lbGetTopRanks lb5 3).1)
    (h7 : lb7 = syncUpdateScore lb6 5 100 6 l6) :
    (∀ (lb : LBState) (ups : List (ScoreUpdate × Int × Nat)),
      (processBatch lb ups).cache = []) ∧
    (∀ (lb : LBState) (pid sc nw : Int) (lvl : Nat),
      (syncUpdateScore lb pid sc nw lvl).cache = []) ∧
    lb6.cache = [((3 : Int), (lbGetTopRanks lb5 3).2)] ∧
    lb7.cache = [] ∧
    1 ≤ (lbGetTopRanks lb7 3).2.length ∧
    (lbGetTopRanks lb7 3).2.getD 0 default =
      { id := 5, score := 100, rank := 1, updateTime := 6 } := by
  subst h1 h2 h3 h4 h5 h6 h7
  have hwf0 : WFsl NewHybridLeaderboard.skipList := NewSkipList_WF
  have hlen0 : NewHybridLeaderboard.skipList.nodes.length = 0 := rfl
  obtain ⟨wfA, lenA, keepA, newA, pmA, caA⟩ :=
    sync_insert_tail NewHybridLeaderboard 2 50 1 l2 hb2.1 hb2.2 hwf0 rfl
      (by intro m hm1 hm2; rw [hlen0] at hm2; omega)
  set A := syncUpdateScore NewHybridLeaderboard 2 50 1 l2 with hA
  rw [hlen0] at lenA newA
  norm_num at lenA newA
  -- step 2: insert player 4 (score 40) at the tail
  have hnoneB : mapGet A.playerMap 4 = none := by
    rw [pmA, mapGet_set, if_neg (by decide)]
    rfl
  obtain ⟨wfB, lenB, keepB, newB, pmB, caB⟩ :=
    sync_insert_tail A 4 40 2 l4 hb4.1 hb4.2 wfA hnoneB
      (by
        intro m hm1 hm2
        have hm : m = 1 := by omega
        subst hm
        rw [newA]
        decide)
  set B := syncUpdateScore A 4 40 2 l4 with hB
  rw [lenA] at lenB newB
  norm_num at lenB newB
  have pB1 : plAt B.skipList.nodes 1 = NewPlayer 2 50 1 := by
    rw [keepB 1 (by omega) (by omega)]
    exact newA
  -- step 3: insert player 3 (score 30) at the tail
  have hnoneC : mapGet B.playerMap 3 = none := by
    rw [pmB, mapGet_set, if_neg (by decide), pmA, mapGet_set,
      if_neg (by decide)]
    rfl
  obtain ⟨wfC, lenC, keepC, newC, pmC, caC⟩ :=
    sync_insert_tail B 3 30 3 l3 hb3.1 hb3.2 wfB hnoneC
      (by
        intro m hm1 hm2
        rw [lenB] at hm2
        interval_cases m
        · rw [pB1]; decide
        · rw [newB]; decide)
  set C := syncUpdateScore B 3 30 3 l3 with hC
  rw [lenB] at lenC newC
  norm_num at lenC newC
  have pC1 : plAt C.skipList.nodes 1 = NewPlayer 2 50 1 := by
    rw [keepC 1 (by omega) (by omega)]
    exact pB1
  have pC2 : plAt C.skipList.nodes 2 = NewPlayer 4 40 2 := by
    rw [keepC 2 (by omega) (by omega)]
    exact newB
  -- step 4: insert player 1 (score 20) at the tail
  have hnoneD : mapGet C.playerMap 1 = none := by
    rw [pmC, mapGet_set, if_neg (by decide), pmB, mapGet_set,
      if_neg (by decide), pmA, mapGet_set, if_neg (by decide)]
    rfl
  obtain ⟨wfD, lenD, keepD, newD, pmD, caD⟩ :=
    sync_insert_tail C 1 20 4 l1 hb1.1 hb1.2 wfC hnoneD
      (by
        intro m hm1 hm2
        rw [lenC] at hm2
        interval_cases m
        · rw [pC1]; decide
        · rw [pC2]; decide
        · rw [newC]; decide)
  set D := syncUpdateScore C 1 20 4 l1 with hD
  rw [lenC] at lenD newD
  norm_num at lenD newD
  have pD1 : plAt D.skipList.nodes 1 = NewPlayer 2 50 1 := by
    rw [keepD 1 (by omega) (by omega)]
    exact pC1
  have pD2 : plAt D.skipList.nodes 2 = NewPlayer 4 40 2 := by
    rw [keepD 2 (by omega) (by omega)]
    exact pC2
  have pD3 : plAt D.skipList.nodes 3 = NewPlayer 3 30 3 := by
    rw [keepD 3 (by omega) (by omega)]
    exact newC
  -- step 5: insert player 5 (score 10) at the tail
  have hnoneE : mapGet D.playerMap 5 = none := by
    rw [pmD, mapGet_set, if_neg (by decide), pmC, mapGet_set,
      if_neg (by decide), pmB, mapGet_set, if_neg (by decide), pmA,
      mapGet_set, if_neg (by decide)]
    rfl
  obtain ⟨wfE, lenE, keepE, newE, pmE, caE⟩ :=
    sync_insert_tail D 5 10 5 l5 hb5.1 hb5.2 wfD hnoneE
      (by
        intro m hm1 hm2
        rw [lenD] at hm2
        interval_cases m
        · rw [pD1]; decide
        · rw [pD2]; decide
        · rw [pD3]; decide
        · rw [newD]; decide)
  set E := syncUpdateScore D 5 10 5 l5 with hE
  rw [lenD] at lenE newE
  norm_num at lenE newE
  have pE1 : plAt E.skipList.nodes 1 = NewPlayer 2 50 1 := by
    rw [keepE 1 (by omega) (by omega)]
    exact pD1
  have pE2 : plAt E.skipList.nodes 2 = NewPlayer 4 40 2 := by
    rw [keepE 2 (by omega) (by omega)]
    exact pD2
  have pE3 : plAt E.skipList.nodes 3 = NewPlayer 3 30 3 := by
    rw [keepE 3 (by omega) (by omega)]
    exact pD3
  have pE4 : plAt E.skipList.nodes 4 = NewPlayer 1 20 4 := by
    rw [keepE 4 (by omega) (by omega)]
    exact newD
  -- the first GetTopRanks(3) populates the cache
  have hcgE : cacheGet E.cache 3 = none := by
    rw [caE]
    rfl
  have hq6 : lbGetTopRanks E 3 = refreshTopRanks E 3 := by
    unfold lbGetTopRanks
    rw [hcgE]
  have hslenE : E.skipList.length = (5 : Int) := by
    rw [wfE.2.2.2.1, lenE]
    decide
  have hclE : (if (3 : Int) > E.skipList.length then E.skipList.length
      else 3) = 3 := by
    rw [hslenE]
    decide
  have h6sk : (lbGetTopRanks E 3).1.skipList = E.skipList := by
    rw [hq6]
    exact (refreshTopRanks_proj E 3).1
  have h6pm : (lbGetTopRanks E 3).1.playerMap = E.playerMap := by
    rw [hq6]
    exact (refreshTopRanks_proj E 3).2.1
  have h6ca : (lbGetTopRanks E 3).1.cache =
      [((3 : Int), (lbGetTopRanks E 3).2)] := by
    rw [hq6, (refreshTopRanks_proj E 3).2.2, caE, hclE]
  set F := (lbGetTopRanks E 3).1 with hF
  -- the committed update of player 5 to score 100
  have hsomeF : mapGet F.playerMap 5 = some (NewPlayer 5 10 5) := by
    rw [h6pm, pmE, mapGet_set, if_pos rfl]
  obtain ⟨wfG, lenG, newG, caG⟩ :=
    sync_update_head F 5 100 6 l6 (NewPlayer 5 10 5) hb6.1 hb6.2
      (by rw [h6sk]; exact wfE) hsomeF rfl
      (by rw [h6sk]; omega)
      (by rw [h6sk, lenE, newE]; decide)
      (by
        intro m hm1 hm2
        rw [h6sk] at hm2 ⊢
        rw [lenE] at hm2
        interval_cases m
        · rw [pE1]; decide
        · rw [pE2]; decide
        · rw [pE3]; decide
        · rw [pE4]; decide)
      (by
        intro m hm1 hm2
        rw [h6sk] at hm2 ⊢
        rw [lenE] at hm2
        interval_cases m
        · rw [pE1]; decide
        · rw [pE2]; decide
        · rw [pE3]; decide
        · rw [pE4]; decide)
  set G := syncUpdateScore F 5 100 6 l6 with hG
  rw [h6sk, lenE] at lenG
  -- the next GetTopRanks(3) refreshes from the updated list
  have hcgG : cacheGet G.cache 3 = none := by
    rw [caG]
    rfl
  have hq8 : lbGetTopRanks G 3 = refreshTopRanks G 3 := by
    unfold lbGetTopRanks
    rw [hcgG]
  have hslenG : G.skipList.length = (5 : Int) := by
    rw [wfG.2.2.2.1, lenG]
    decide
  have hclG : (if (3 : Int) > G.skipList.length then G.skipList.length
      else 3) = 3 := by
    rw [hslenG]
    decide
  have hpos : 1 ≤ (GetRange G.skipList 1 3).length :=
    getRange_one_pos G.skipList wfG 3 (by decide) (by omega)
  obtain ⟨ho0, -⟩ := (getRange_one_spec G.skipList wfG 3).2 0 (by omega)
  simp only [Nat.zero_add] at ho0
  rw [newG] at ho0
  refine ⟨fun lb ups => rfl, fun lb pid sc nw lvl => rfl, h6ca, caG, ?_, ?_⟩
  · rw [hq8, refreshTopRanks_snd, hclG]
    simp only [List.length_map, List.length_range]
    exact hpos
  · rw [hq8, refreshTopRanks_snd, hclG,
      getD_map_range _ (GetRange G.skipList 1 3).length 0 (by omega)]
    rw [ho0]
    decide

theorem leaderboard_cache_invalidation_witness :
    1 ≤ (lbGetTopRanks (syncUpdateScore ((lbGetTopRanks (syncUpdateScore
      (syncUpdateScore (syncUpdateScore (syncUpdateScore (syncUpdateScore
        NewHybridLeaderboard 2 50 1 1) 4 40 2 1) 3 30 3 1) 1 20 4 1)
        5 10 5 1) 3).1) 5 100 6 1) 3).2.length ∧
    (lbGetTopRanks (syncUpdateScore ((lbGetTopRanks (syncUpdateScore
      (syncUpdateScore (syncUpdateScore (syncUpdateScore (syncUpdateScore
        NewHybridLeaderboard 2 50 1 1) 4 40 2 1) 3 30 3 1) 1 20 4 1)
        5 10 5 1) 3).1) 5 100 6 1) 3).2.getD 0 default =
      { id := 5, score := 100, rank := 1, updateTime := 6 } := by
  have h := leaderboard_cache_invalidation 1 1 1 1 1 1
    (by decide) (by decide) (by decide) (by decide) (by decide) (by decide)
    _ _ _ _ _ _ _ rfl rfl rfl rfl rfl rfl rfl
  exact ⟨h.2.2.2.2.1, h.2.2.2.2.2⟩

end GoServerTools

